import Mathlib

/-!
# Level-wise frequent itemset mining (Apriori): sequential, OpenMP and MPI backends

Shallow embedding of `aprioriomp.cpp` (class `SequentialApriori`),
`recursiveparallel.cpp` (class `ParallelApriori`) and `distributed.cpp`
(class `DistributedApriori`).

Modelling conventions.

* An item is a `std::string`.  The sequential and shared-memory code only uses
  the order and equality of items, so it is embedded over an arbitrary linearly
  ordered type `α`; the MPI code encodes items as text, so there items are
  `Str = List Char`, ordered lexicographically like `std::string`.
* `std::vector<string>` is `List α`; `operator<` on vectors is the lexicographic
  order, which is the order `<` on `List α`.
* `std::map<K, int>` is a list of key/value pairs read in iteration order
  (ascending keys).  `mapUpd` is `operator[]` followed by an update of the
  referenced value; `MapWF` says that a list is a genuine map (keys strictly
  ascending).
* `int` counters are mathematical integers: every counter is bounded by the
  number of item occurrences of the database, which is assumed to fit an `int`.
* An out-of-range element access (`v[k]`, `v.back()` on an empty vector) is
  undefined behaviour and is modelled by the result `none`.
* `while` loops whose termination is not structural take a `fuel` argument and
  return `none` when the fuel is exhausted.
* A file is the `Str` of its characters, one `Char` per byte; a `main` is
  embedded as its exit status together with the member functions it calls, in
  order.
* Statements about the course of a loop use instrumented copies of it
  (`levelLoopLevels`, `levelLoopIters`, `levelLoopCalls`: same control flow as
  `levelLoop`, returning the level maps, the number of iterations and the
  arguments of the calls of `generateCandidates`) and, for the MPI loop, its body
  `distLevelStep`; `levelLoop_eq_levels`, `levelLoopCalls_isSome` and
  `distLevelLoop_succ` tie them to the loops.
-/

namespace Apriori

/-! ## `std::map` and `std::set` -/

section StdMap

variable {K : Type} [LinearOrder K]

/-- A `std::map<K,int>` in iteration order. -/
abbrev StdMap (K : Type) := List (K × Int)

/-- Keys of a map in iteration order. -/
def keys (m : StdMap K) : List K := m.map Prod.fst

/-- Representation invariant of `std::map`: keys strictly ascending. -/
def MapWF (m : StdMap K) : Prop := (keys m).Pairwise (· < ·)

instance (m : StdMap K) : Decidable (MapWF m) := by
  unfold MapWF
  infer_instance

/-- The statement `m[k] = f (m[k])`: `operator[]` inserts the key with value `0`
when it is absent, then the referenced value is replaced by `f` of it.
`m[k]++` is `mapUpd k (· + 1)`, `m[k] += v` is `mapUpd k (· + v)` and
`m[k] = v` is `mapUpd k (fun _ => v)`. -/
def mapUpd (k : K) (f : Int → Int) : StdMap K → StdMap K
  | [] => [(k, f 0)]
  | (k', v') :: m =>
    if k < k' then (k, f 0) :: (k', v') :: m
    else if k' < k then (k', v') :: mapUpd k f m
    else (k', f v') :: m

/-- The lookup `m.find(k)`: the value stored under `k`, if any. -/
def mapFind (k : K) : StdMap K → Option Int
  | [] => none
  | (k', v') :: m =>
    if k < k' then none
    else if k' < k then mapFind k m
    else some v'

/-- The call `s.insert(x)` on a `std::set<K>` (ascending, duplicate-free). -/
def setInsert (x : K) : List K → List K
  | [] => [x]
  | y :: s =>
    if x < y then x :: y :: s
    else if y < x then y :: setInsert x s
    else y :: s

end StdMap

/-! ## `SequentialApriori` (aprioriomp.cpp) -/

section Sequential

variable {α : Type} [LinearOrder α]

/-- The algorithm `std::includes(first1, last1, first2, last2)` with the default
comparison, where `t` is the first range and `x` the second. -/
def includes : List α → List α → Bool
  | [], x => x.isEmpty
  | _ :: _, [] => true
  | a :: t, b :: x =>
    if b < a then false
    else if a < b then includes t (b :: x)
    else includes t x

/-- Source: `isSubset(itemset, transaction)`. -/
def isSubset (itemset transaction : List α) : Bool :=
  includes transaction itemset

/-- The loop `for (item : transaction) item_counts[item]++` over all transactions. -/
def countItems (T : List (List α)) : StdMap α :=
  T.foldl (fun m t => t.foldl (fun m item => mapUpd item (· + 1) m) m) []

/-- The number of occurrences of `item` over all transactions of `T`, as the
specification words it. -/
def occurrences (item : α) (T : List (List α)) : Nat := T.flatten.count item

/-- The filter loop shared by all level-1 routines: every `(item, count)` with
`count >= min_support` becomes the entry `[item] ↦ count`. -/
def filterItems (min_support : Int) (item_counts : StdMap α) : StdMap (List α) :=
  item_counts.foldl
    (fun f p => if p.2 ≥ min_support then mapUpd [p.1] (fun _ => p.2) f else f) []

/-- Source: `SequentialApriori::generateFrequent1Itemsets`. -/
def generateFrequent1Itemsets (min_support : Int) (T : List (List α)) : StdMap (List α) :=
  filterItems min_support (countItems T)

/-- The loop `for (k = 0; k < n; k++) if (A[k] != B[k]) { can_join = false; break; }`
run on the remaining parts of `A` and `B`; `none` when an index is out of range. -/
def prefixCheck : Nat → List α → List α → Option Bool
  | 0, _, _ => some true
  | n + 1, a :: A, b :: B => if a ≠ b then some false else prefixCheck n A B
  | _ + 1, _, _ => none

/-- The `can_join` computation of `SequentialApriori::generateCandidates`
(guarded by `candidate.size() > 0`). -/
def canJoin (A B : List α) : Option Bool :=
  if A.length > 0 then prefixCheck (A.length - 1) A B else some true

/-- The call `sort(candidate.begin(), candidate.end())`. -/
def sortItems (c : List α) : List α := c.insertionSort (· ≤ ·)

/-- Body of the inner loop of `generateCandidates` once `can_join` is known:
`candidate.push_back(itemsets[j].back()); sort(...); candidates[candidate] = 0`.
`B.getLast?` is `none` for `back()` on an empty vector. -/
def pushCandidate (A B : List α) (C : StdMap (List α)) : Option (StdMap (List α)) :=
  match B.getLast? with
  | none => none
  | some b => some (mapUpd (sortItems (A ++ [b])) (fun _ => 0) C)

/-- One iteration of the inner loop of `SequentialApriori::generateCandidates`
for `itemsets[i] = A`, `itemsets[j] = B`. -/
def joinInto (A B : List α) (C : StdMap (List α)) : Option (StdMap (List α)) :=
  match canJoin A B with
  | none => none
  | some false => some C
  | some true => pushCandidate A B C

/-- The inner loop `for (j = i + 1; j < itemsets.size(); j++)` with loop body
`body itemsets[i] itemsets[j]`, where `rest` is `itemsets[i+1 ..]`. -/
def innerLoop (body : List α → List α → StdMap (List α) → Option (StdMap (List α)))
    (A : List α) : List (List α) → StdMap (List α) → Option (StdMap (List α))
  | [], C => some C
  | B :: rest, C => (body A B C).bind (innerLoop body A rest)

/-- The outer loop `for (i = 0; i < itemsets.size(); i++)` around `innerLoop`. -/
def outerLoop (body : List α → List α → StdMap (List α) → Option (StdMap (List α))) :
    List (List α) → StdMap (List α) → Option (StdMap (List α))
  | [], C => some C
  | A :: rest, C => (innerLoop body A rest C).bind (outerLoop body rest)

/-- Source: `SequentialApriori::generateCandidates`. -/
def generateCandidates (frequent_k : StdMap (List α)) : Option (StdMap (List α)) :=
  outerLoop joinInto (keys frequent_k) []

/-- The inner loop of `countSupport`: the number of transactions `t` with
`isSubset(itemset, t)`. -/
def supportCount (T : List (List α)) (itemset : List α) : Int :=
  T.foldl (fun count t => if isSubset itemset t then count + 1 else count) 0

/-- The join of the specification: `X` is `A`'s items plus `B`'s last item,
re-sorted ascending, for `A` and `B` that agree on all but the last item of `A`. -/
def Joins (A B X : List α) : Prop :=
  A.take (A.length - 1) = B.take (A.length - 1) ∧
    ∃ b, B.getLast? = some b ∧ X = sortItems (A ++ [b])

/-- A candidate map as `generateCandidates` builds it: a genuine map all of whose
counts are zero. -/
def ZeroMap (C : StdMap (List α)) : Prop := MapWF C ∧ ∀ p ∈ C, p.2 = 0

/-- What the loops of `generateCandidates` need from one iteration of the inner
loop on itemsets of size `k`: it succeeds and adds exactly the join of the pair. -/
def BodySpec (body : List α → List α → StdMap (List α) → Option (StdMap (List α)))
    (k : Nat) : Prop :=
  ∀ A B C, A.length = k → B.length = k → ZeroMap C →
    ∃ C', body A B C = some C' ∧ ZeroMap C' ∧
      ∀ X, X ∈ keys C' ↔ X ∈ keys C ∨ Joins A B X

/-- Shape of a level-`k` map over the database `T`: a genuine map whose keys are
strictly ascending itemsets of size `k` made of items of `T`. -/
structure Shape (T : List (List α)) (k : Nat) (fk : StdMap (List α)) : Prop where
  wf : MapWF fk
  len : ∀ X ∈ keys fk, X.length = k
  sorted : ∀ X ∈ keys fk, X.Pairwise (· < ·)
  items : ∀ X ∈ keys fk, ∀ i ∈ X, i ∈ T.flatten

/-- The support of `X` in `T` as the specification words it: the number of
transactions of `T` that contain every item of `X`. -/
def support (T : List (List α)) (X : List α) : Nat :=
  T.countP (fun t => decide (∀ i ∈ X, i ∈ t))

/-- Source: `SequentialApriori::countSupport`. -/
def countSupport (T : List (List α)) (candidates : StdMap (List α)) : StdMap (List α) :=
  candidates.foldl (fun sc p => mapUpd p.1 (fun _ => supportCount T p.1) sc) []

/-- Source: `filterBySupport` (the same code in the three classes). -/
def filterBySupport (min_support : Int) (candidates : StdMap (List α)) : StdMap (List α) :=
  candidates.foldl
    (fun f p => if p.2 ≥ min_support then mapUpd p.1 (fun _ => p.2) f else f) []

/-- The loop `for (pair : frequent_k) all[pair.first] = pair.second`. -/
def mergeInto (frequent_k all : StdMap (List α)) : StdMap (List α) :=
  frequent_k.foldl (fun a p => mapUpd p.1 (fun _ => p.2) a) all

/-- An entry `(X, n)` is sound for `T` and threshold `s`: `X` is a non-empty strictly
ascending itemset, `n` is its support and reaches the threshold. -/
def SoundEntry (s : Int) (T : List (List α)) (X : List α) (n : Int) : Prop :=
  X ≠ [] ∧ X.Pairwise (· < ·) ∧ n = (support T X : Int) ∧ s ≤ n

/-- Invariant of the level loop of `runApriori` when `frequent_k` holds level `k`
and `all` the levels `1 .. k`. -/
structure LevelInv (s : Int) (T : List (List α)) (k : Nat)
    (fk all : StdMap (List α)) : Prop where
  pos : 1 ≤ k
  shape : Shape T k fk
  counts : ∀ X n, (X, n) ∈ fk → n = (support T X : Int) ∧ s ≤ n
  wf : MapWF all
  sound : ∀ X n, (X, n) ∈ all → SoundEntry s T X n
  level : 1 ≤ s → ∀ X : List α, X.Pairwise (· < ·) → X.length = k →
    s ≤ (support T X : Int) → X ∈ keys fk
  complete : 1 ≤ s → ∀ X : List α, X.Pairwise (· < ·) → 1 ≤ X.length → X.length ≤ k →
    s ≤ (support T X : Int) → X ∈ keys all

/-- What the level loop establishes for the returned map. -/
structure ResultSpec (s : Int) (T : List (List α)) (r : StdMap (List α)) : Prop where
  wf : MapWF r
  sound : ∀ X n, (X, n) ∈ r → SoundEntry s T X n
  complete : 1 ≤ s → ∀ X : List α, X ≠ [] → X.Pairwise (· < ·) →
    s ≤ (support T X : Int) → X ∈ keys r

/-- The `while (!frequent_k.empty())` loop of `SequentialApriori::runApriori`. -/
def levelLoop (min_support : Int) (T : List (List α)) :
    Nat → StdMap (List α) → StdMap (List α) → Option (StdMap (List α))
  | 0, _, _ => none
  | fuel + 1, frequent_k, all =>
    if frequent_k.isEmpty then some all
    else
      match generateCandidates frequent_k with
      | none => none
      | some candidates =>
        if candidates.isEmpty then some all
        else
          let frequent_k' := filterBySupport min_support (countSupport T candidates)
          levelLoop min_support T fuel frequent_k' (mergeInto frequent_k' all)

/-- Source: `SequentialApriori::runApriori` (the returned `all_frequent_itemsets`). -/
def runApriori (fuel : Nat) (min_support : Int) (T : List (List α)) :
    Option (StdMap (List α)) :=
  let frequent_1 := generateFrequent1Itemsets min_support T
  levelLoop min_support T fuel frequent_1 (mergeInto frequent_1 [])

end Sequential

/-! ## `DistributedApriori` (distributed.cpp) -/

section Distributed

/-- A `std::string` as its sequence of characters. -/
abbrev Str := List Char

/-- Source: `local_start` / `dest_start` in `loadAndDistributeData`:
`rank * transactions_per_process + min(rank, remainder)`. -/
def localStart (N P rank : Nat) : Nat := rank * (N / P) + min rank (N % P)

/-- Source: `local_count` / `dest_count` in `loadAndDistributeData`:
`transactions_per_process + (rank < remainder ? 1 : 0)`. -/
def localCount (N P rank : Nat) : Nat := N / P + (if rank < N % P then 1 else 0)

/-- The contiguous block of `T` owned by process `rank` out of `P`. -/
def block {β : Type} (T : List β) (P rank : Nat) : List β :=
  (T.drop (localStart T.length P rank)).take (localCount T.length P rank)

/-- The blocks of ranks `0 .. P-1`. -/
def blocks {β : Type} (T : List β) (P : Nat) : List (List β) :=
  (List.range P).map (block T P)

/-- The state of one MPI process: the member variables `local_transactions` and
`frequent_itemsets`, and the local variable `frequent_k` of the level loop. -/
structure Proc where
  local_transactions : List (List Str)
  frequent_k : StdMap (List Str)
  frequent_itemsets : StdMap (List Str)
deriving DecidableEq

/-- Source: `DistributedApriori::generateLocalC1`. -/
def generateLocalC1 (local_transactions : List (List Str)) : StdMap Str :=
  countItems local_transactions

/-- The loop building `local_items_str` in `aggregateC1`: items joined by single
commas, no trailing comma. -/
def joinComma : List Str → Str
  | [] => []
  | [x] => x
  | x :: y :: rest => x ++ ',' :: joinComma (y :: rest)

/-- The loop `while (getline(ss, item, ','))`: the successive values of `item`,
where `cur` is the part of the current item already read.  At end of input a
`getline` that extracted nothing fails and ends the loop. -/
def getlineLoop : Str → Str → List Str
  | cur, [] => if cur.isEmpty then [] else [cur]
  | cur, c :: rest =>
    if c = ',' then cur :: getlineLoop [] rest else getlineLoop (cur ++ [c]) rest

/-- The loop computing `str_displacements` from `str_lengths`. -/
def displacements : Nat → List Nat → List Nat
  | _, [] => []
  | total, len :: rest => total :: displacements (total + len) rest

/-- The parsing loop of `aggregateC1` over the gathered buffer: for each process
with `str_lengths[i] > 0`, split its slice at commas and insert the non-empty
items into `all_unique_items`. -/
def parseGathered (buffer : Str) (slices : List (Nat × Nat)) : List Str :=
  slices.foldl
    (fun all dl =>
      if dl.2 > 0 then
        (getlineLoop [] ((buffer.drop dl.1).take dl.2)).foldl
          (fun all item => if item.isEmpty then all else setInsert item all) all
      else all) []

/-- Source: `DistributedApriori::aggregateC1`, as the value returned on every
process, where `locals` lists the `local_counts` argument of ranks `0 .. P-1`.
`MPI_Allgather` of the lengths gives `str_lengths`, `MPI_Allgatherv` stores the
strings one after the other, and each `MPI_Allreduce(MPI_SUM)` adds the
`local_count` values of all processes.  (`all_item_counts`, `total_items` and
`displacements` of the source are computed but never read.) -/
def aggregateC1 (min_support : Int) (locals : List (StdMap Str)) : StdMap (List Str) :=
  let strs := locals.map (fun lc => joinComma ((keys lc).foldl (fun s x => setInsert x s) []))
  let str_lengths := strs.map List.length
  let str_displacements := displacements 0 str_lengths
  let all_unique_items := parseGathered strs.flatten (str_displacements.zip str_lengths)
  all_unique_items.foldl
    (fun g item =>
      let global_count := (locals.map (fun lc => (mapFind item lc).getD 0)).sum
      if global_count ≥ min_support then mapUpd [item] (fun _ => global_count) g else g) []

/-- The set `all_unique_items` that `aggregateC1` computes from the gathered
item lists: the global vocabulary. -/
def allUniqueItems (locals : List (StdMap Str)) : List Str :=
  let strs := locals.map (fun lc => joinComma ((keys lc).foldl (fun s x => setInsert x s) []))
  let str_lengths := strs.map List.length
  let str_displacements := displacements 0 str_lengths
  parseGathered strs.flatten (str_displacements.zip str_lengths)

/-- The value `global_count` that `aggregateC1` obtains for `item`: the
`MPI_Allreduce(MPI_SUM)` of the `local_count` of every process, which is the
count the process holds for `item`, or `0` when it holds none. -/
def globalCount (locals : List (StdMap Str)) (item : Str) : Int :=
  (locals.map (fun lc => (mapFind item lc).getD 0)).sum

/-- One iteration of the inner loop of `DistributedApriori::generateCandidates`:
an empty `itemsets[i]` is skipped, otherwise the prefix loop runs unguarded. -/
def joinIntoD {α : Type} [LinearOrder α] (A B : List α) (C : StdMap (List α)) :
    Option (StdMap (List α)) :=
  if A.length = 0 then some C
  else
    match prefixCheck (A.length - 1) A B with
    | none => none
    | some false => some C
    | some true => pushCandidate A B C

/-- Source: `DistributedApriori::generateCandidates`. -/
def generateCandidatesD {α : Type} [LinearOrder α] (frequent_k : StdMap (List α)) :
    Option (StdMap (List α)) :=
  outerLoop joinIntoD (keys frequent_k) []

/-- Source: `DistributedApriori::countLocalSupport` (the code of `countSupport`
run on `local_transactions`). -/
def countLocalSupport (local_transactions : List (List Str))
    (candidates : StdMap (List Str)) : StdMap (List Str) :=
  countSupport local_transactions candidates

/-- Value contributed by a process to its next `MPI_Allreduce`: the count of the
entry its iteration has reached. -/
def headCount (l : StdMap (List Str)) : Int := (l.head?.map Prod.snd).getD 0

/-- The loop of `aggregateSupport` on one process: `mine` is the part of its
`local_support` still to visit and `rests` the parts still to visit on all
processes; the reduction adds the counts at the front of every process. -/
def aggregateLoop : StdMap (List Str) → List (StdMap (List Str)) → StdMap (List Str) →
    StdMap (List Str)
  | [], _, g => g
  | (c, _) :: mine, rests, g =>
    aggregateLoop mine (rests.map List.tail) (mapUpd c (fun _ => (rests.map headCount).sum) g)

/-- Source: `DistributedApriori::aggregateSupport` on the process whose argument
is `mine`, where `locals` lists the arguments of all processes.  The processes
must issue the same number of reductions; otherwise the collective calls do
not match and the result is `none`. -/
def aggregateSupport (locals : List (StdMap (List Str))) (mine : StdMap (List Str)) :
    Option (StdMap (List Str)) :=
  if locals.all (fun l => l.length == mine.length) then some (aggregateLoop mine locals [])
  else none

/-- The candidates a process computes at the top of a loop iteration; `[]` when
it leaves the loop (`frequent_k` empty, or no candidate), `none` on an
out-of-range access. -/
def procCandidates (p : Proc) : Option (StdMap (List Str)) :=
  if p.frequent_k.isEmpty then some [] else generateCandidatesD p.frequent_k

/-- The end of a loop iteration on one process: filter the global support and
store the survivors. -/
def procAdvance (min_support : Int) (p : Proc) (global_support : StdMap (List Str)) : Proc :=
  let frequent_k' := filterBySupport min_support global_support
  { p with frequent_k := frequent_k'
           frequent_itemsets := mergeInto frequent_k' p.frequent_itemsets }

/-- The `while (!frequent_k.empty())` loop of `runDistributedApriori`, all
processes advancing in lockstep from one collective operation to the next.
The result is `none` when a process makes an out-of-range access or when the
processes do not reach the same collective operations (some leave the loop
while others reduce). -/
def distLevelLoop (min_support : Int) : Nat → List Proc → Option (List Proc)
  | 0, _ => none
  | fuel + 1, ps =>
    let cs := ps.map procCandidates
    if cs.any Option.isNone then none
    else
      let cands := cs.map (fun c => c.getD [])
      if cands.all List.isEmpty then some ps
      else if cands.any List.isEmpty then none
      else
        let locals := List.zipWith (fun p c => countLocalSupport p.local_transactions c) ps cands
        let globals := locals.map (aggregateSupport locals)
        if globals.any Option.isNone then none
        else
          distLevelLoop min_support fuel
            (List.zipWith (fun p g => procAdvance min_support p (g.getD [])) ps globals)

/-- Source: `DistributedApriori::runDistributedApriori`, from the states of all
processes at the call to their states at the return. -/
def runDistributedApriori (fuel : Nat) (min_support : Int) (ps : List Proc) :
    Option (List Proc) :=
  let frequent_1 := aggregateC1 min_support (ps.map (fun p => generateLocalC1 p.local_transactions))
  distLevelLoop min_support fuel
    (ps.map (fun p =>
      { p with frequent_k := frequent_1
               frequent_itemsets := mergeInto frequent_1 p.frequent_itemsets }))

/-- The processes after `loadAndDistributeData` when every rank holds its block
of `T` unchanged, on a fresh `DistributedApriori` object. -/
def initProcs (T : List (List Str)) (P : Nat) : List Proc :=
  (blocks T P).map (fun b => { local_transactions := b, frequent_k := [], frequent_itemsets := [] })

/-- The processes when rank `i` holds the block `bs[i]` and all ranks hold the
same `frequent_k` and the same `frequent_itemsets`. -/
def agreeing (bs : List (List (List Str))) (fk all : StdMap (List Str)) : List Proc :=
  bs.map (fun b => { local_transactions := b, frequent_k := fk, frequent_itemsets := all })

end Distributed

/-! ## `ParallelApriori` (recursiveparallel.cpp) -/

section Parallel

variable {α : Type} [LinearOrder α]

/-- How one OpenMP parallel region is executed: `assign i` is the thread that
runs iteration `i` of the `omp for` loop, and `order` is the order in which the
threads pass the `omp critical` section. -/
structure Sched where
  assign : Nat → Nat
  order : List Nat

/-- A legal execution of a parallel region by `num_threads` threads: every
iteration runs on one of the threads `0 .. num_threads-1` and every thread passes
the critical section exactly once. -/
def SchedOK (num_threads : Nat) (sch : Sched) : Prop :=
  (∀ i, sch.assign i < num_threads) ∧ sch.order.Perm (List.range num_threads)

/-- The iterations a thread executes: the elements of `l` (numbered from `i`)
whose index is assigned to thread `t`, in index order. -/
def threadShare {β : Type} (assign : Nat → Nat) (t : Nat) : Nat → List β → List β
  | _, [] => []
  | i, x :: l =>
    if assign i = t then x :: threadShare assign t (i + 1) l
    else threadShare assign t (i + 1) l

/-- The critical section of `generateFrequent1Itemsets`:
`item_counts[pair.first] += pair.second` for every pair of `local_counts`. -/
def mergeCounts (local_counts item_counts : StdMap α) : StdMap α :=
  local_counts.foldl (fun ic p => mapUpd p.1 (· + p.2) ic) item_counts

/-- Source: `ParallelApriori::generateFrequent1Itemsets`. -/
def generateFrequent1ItemsetsP (min_support : Int) (T : List (List α)) (sch : Sched) :
    StdMap (List α) :=
  let item_counts :=
    sch.order.foldl (fun ic t => mergeCounts (countItems (threadShare sch.assign t 0 T)) ic) []
  filterItems min_support item_counts

/-- The non-empty suffixes of `itemsets`: the `i`-th one is `itemsets[i ..]`,
what iteration `i` of the outer loop reads. -/
def suffixes {β : Type} : List β → List (List β)
  | [] => []
  | x :: l => (x :: l) :: suffixes l

/-- The outer-loop iterations of one thread in `generateCandidates`, filling its
`local_candidates`. -/
def threadLoop : List (List (List α)) → StdMap (List α) → Option (StdMap (List α))
  | [], C => some C
  | [] :: sufs, C => threadLoop sufs C
  | (A :: rest) :: sufs, C => (innerLoop joinInto A rest C).bind (threadLoop sufs)

/-- The critical section of `generateCandidates`: `candidates[pair.first] = 0`
for every pair of `local_candidates`. -/
def mergeCandidates (local_candidates candidates : StdMap (List α)) : StdMap (List α) :=
  local_candidates.foldl (fun c p => mapUpd p.1 (fun _ => 0) c) candidates

/-- Source: `ParallelApriori::generateCandidates`. -/
def generateCandidatesP (frequent_k : StdMap (List α)) (sch : Sched) :
    Option (StdMap (List α)) :=
  sch.order.foldl
    (fun acc t =>
      match acc, threadLoop (threadShare sch.assign t 0 (suffixes (keys frequent_k))) [] with
      | some candidates, some local_candidates =>
        some (mergeCandidates local_candidates candidates)
      | _, _ => none)
    (some [])

/-- Source: `ParallelApriori::countSupport`.  Row `t` of `thread_counts` holds,
for each candidate, the number of transactions of thread `t` containing it; a
thread number outside `0 .. num_threads-1` indexes `thread_counts` out of
range. -/
def countSupportP (T : List (List α)) (num_threads : Nat) (candidates : StdMap (List α))
    (sch : Sched) : Option (StdMap (List α)) :=
  let support_counts := candidates.foldl (fun sc p => mapUpd p.1 (fun _ => 0) sc) []
  let candidate_list := keys candidates
  if (List.range T.length).all (fun i => sch.assign i < num_threads) then
    some (candidate_list.foldl
      (fun sc c =>
        mapUpd c
          (fun _ => ((List.range num_threads).map
            (fun t => supportCount (threadShare sch.assign t 0 T) c)).sum) sc)
      support_counts)
  else none

/-- The `while (!frequent_k.empty())` loop of `ParallelApriori::runApriori`;
`schedC k` and `schedS k` are the executions of the parallel regions of
`generateCandidates` and `countSupport` in the iteration with counter `k`. -/
def levelLoopP (min_support : Int) (T : List (List α)) (num_threads : Nat)
    (schedC schedS : Nat → Sched) :
    Nat → Nat → StdMap (List α) → StdMap (List α) → Option (StdMap (List α))
  | 0, _, _, _ => none
  | fuel + 1, k, frequent_k, all =>
    if frequent_k.isEmpty then some all
    else
      match generateCandidatesP frequent_k (schedC k) with
      | none => none
      | some candidates =>
        if candidates.isEmpty then some all
        else
          match countSupportP T num_threads candidates (schedS k) with
          | none => none
          | some support_counts =>
            let frequent_k' := filterBySupport min_support support_counts
            levelLoopP min_support T num_threads schedC schedS fuel (k + 1) frequent_k'
              (mergeInto frequent_k' all)

/-- Source: `ParallelApriori::runApriori`. -/
def runAprioriP (fuel : Nat) (min_support : Int) (T : List (List α)) (num_threads : Nat)
    (sched1 : Sched) (schedC schedS : Nat → Sched) : Option (StdMap (List α)) :=
  let frequent_1 := generateFrequent1ItemsetsP min_support T sched1
  levelLoopP min_support T num_threads schedC schedS fuel 1 frequent_1
    (mergeInto frequent_1 [])

end Parallel

/-! ## Loading, the wire format and the `main` functions -/

section Loading

/-- The loop `while (getline(file, line))`: the successive lines of the input,
where `cur` is the part of the current line already read.  At end of input a
`getline` that extracted nothing fails and ends the loop. -/
def getLines : Str → Str → List Str
  | cur, [] => if cur.isEmpty then [] else [cur]
  | cur, c :: rest =>
    if c = '\n' then cur :: getLines [] rest else getLines (cur ++ [c]) rest

/-- Membership in the character set `" \t"` of the trimming calls. -/
def isBlank (c : Char) : Bool := c = ' ' || c = '\t'

/-- The two statements `item.erase(0, item.find_first_not_of(" \t"))` and
`item.erase(item.find_last_not_of(" \t") + 1)`: leading and trailing spaces
and tabs are removed (everything, when the item has no other character). -/
def trimItem (item : Str) : Str := (item.dropWhile isBlank).rdropWhile isBlank

/-- The inner loop of the loaders over the fields of one line: every field is
trimmed and appended to `transaction` unless it is then empty or `"-1"`. -/
def lineItems (line : Str) : List Str :=
  (getlineLoop [] line).foldl
    (fun transaction item =>
      if !(trimItem item).isEmpty && trimItem item ≠ ['-', '1'] then
        transaction ++ [trimItem item]
      else transaction) []

/-- The body of the loop over the lines: the transaction stored for `line`, or
`none` when the line is skipped (empty line, or no item kept). -/
def parseLine (line : Str) : Option (List Str) :=
  if line.isEmpty then none
  else if (lineItems line).isEmpty then none
  else some (sortItems (lineItems line))

/-- Source: `SequentialApriori::loadTransactions` on a file that opens, as the
final value of `transactions`, where `text` is the content of the file.  The
same loop is in `ParallelApriori::loadTransactions` and, on rank 0, in
`DistributedApriori::loadAndDistributeData`. -/
def loadTransactions (text : Str) : List (List Str) :=
  (getLines [] text).foldl
    (fun transactions line =>
      match parseLine line with
      | none => transactions
      | some transaction => transactions ++ [transaction]) []

/-- The comma-separated fields of a line as the specification words them: a
line with `n` commas has `n + 1` fields, `cur` being the field in progress. -/
def splitFields : Str → Str → List Str
  | cur, [] => [cur]
  | cur, c :: rest =>
    if c = ',' then cur :: splitFields [] rest else splitFields (cur ++ [c]) rest

/-- The items a line yields as the specification words them: its fields with
leading and trailing spaces and tabs removed, omitting the fields that are then
empty or equal to the sentinel `"-1"`. -/
def keptFields (line : Str) : List Str :=
  ((splitFields [] line).map trimItem).filter (fun f => !f.isEmpty && f ≠ ['-', '1'])

/-- An item as the wire format needs it: non-empty, without comma, and without
leading or trailing space or tab. -/
def WireItem (x : Str) : Prop :=
  x ≠ [] ∧ ',' ∉ x ∧ x.head?.map isBlank ≠ some true ∧ x.getLast?.map isBlank ≠ some true

instance (x : Str) : Decidable (WireItem x) := by
  unfold WireItem
  infer_instance

/-- Source: `DistributedApriori::serializeItemset`: the items joined by single
commas, no trailing comma (the loop of `joinComma`). -/
def serializeItemset (itemset : List Str) : Str := joinComma itemset

/-- Source: `DistributedApriori::deserializeItemset`: the fields of `str` are
trimmed and the non-empty ones appended to `itemset`. -/
def deserializeItemset (str : Str) : List Str :=
  (getlineLoop [] str).foldl
    (fun itemset item =>
      if !(trimItem item).isEmpty then itemset ++ [trimItem item] else itemset) []

/-- The two messages rank 0 sends for one transaction in
`loadAndDistributeData`: `str_len`, then `str_len` characters of `trans_str`. -/
def sendTransaction (transaction : List Str) : Nat × Str :=
  ((serializeItemset transaction).length, serializeItemset transaction)

/-- The conversion `string trans_str(buffer)` of a buffer that was terminated by
a NUL character: the characters before the first NUL. -/
def cString (buffer : Str) : Str := buffer.takeWhile (fun c => c ≠ Char.ofNat 0)

/-- What a rank stores in `local_transactions` for the two messages of one
transaction: it receives `str_len`, then `str_len` characters into `buffer`,
sets `buffer[str_len]` to NUL, converts the buffer to a string and calls
`deserializeItemset`. -/
def recvTransaction (msg : Nat × Str) : List Str :=
  deserializeItemset (cString (msg.2.take msg.1))

/-- Source: the distribution part of `DistributedApriori::loadAndDistributeData`
(after the load on rank 0), as the `local_transactions` of the ranks
`0 .. P-1` on a fresh object; `none` when `total_transactions` is `0` and every
process calls `exit(1)`.  Rank 0 keeps `all_transactions[0 .. local_count)`,
every other rank receives its block transaction by transaction. -/
def distribute (all_transactions : List (List Str)) (P : Nat) :
    Option (List (List (List Str))) :=
  if all_transactions.length = 0 then none
  else
    some ((List.range P).map (fun rank =>
      if rank = 0 then all_transactions.take (localCount all_transactions.length P 0)
      else (block all_transactions P rank).map (fun t => recvTransaction (sendTransaction t))))

/-- The member functions a `main` calls. -/
inductive Call where
  | loadTransactions
  | runApriori
  | printResults
  | performanceTest
  | loadAndDistributeData
  | runDistributedApriori
deriving DecidableEq

/-- Source: `main` of aprioriomp.cpp, as its exit status and the member
functions it calls, in order.  `min_support` is the value read from the input
and `file` the content of the data file, `none` when it cannot be opened. -/
def mainSequential (min_support : Int) (file : Option Str) : Nat × List Call :=
  if min_support ≤ 0 then (1, [])
  else
    match file with
    | none => (1, [Call.loadTransactions])
    | some _ => (0, [Call.loadTransactions, Call.runApriori, Call.printResults])

/-- Source: `main` of recursiveparallel.cpp, as its exit status and the member
functions it calls, in order. -/
def mainParallel (min_support : Int) (mode : Int) (file : Option Str) : Nat × List Call :=
  if min_support ≤ 0 then (1, [])
  else
    match file with
    | none => (1, [Call.loadTransactions])
    | some _ =>
      if mode = 1 then (0, [Call.loadTransactions, Call.runApriori, Call.printResults])
      else (0, [Call.loadTransactions, Call.performanceTest])

/-- Source: `main` of distributed.cpp on every process, as the exit status and
the member functions called, in order.  Inside `loadAndDistributeData` the run
ends with status 1 when the file cannot be opened (`MPI_Abort`) or holds no
transaction (`exit(1)`). -/
def mainDistributed (min_support : Int) (mode : Int) (file : Option Str) : Nat × List Call :=
  if min_support ≤ 0 then (1, [])
  else
    match file with
    | none => (1, [Call.loadAndDistributeData])
    | some text =>
      if (loadTransactions text).length = 0 then (1, [Call.loadAndDistributeData])
      else if mode = 1 then
        (0, [Call.loadAndDistributeData, Call.runDistributedApriori, Call.printResults])
      else (0, [Call.loadAndDistributeData, Call.performanceTest])

end Loading

/-! ## Instrumented loops, per-rank distribution and printing -/

section Instrumented

variable {α : Type} [LinearOrder α]

/-- The accumulation `all_frequent_itemsets[pair.first] = pair.second` of the
maps of `levels`, first to last, into `all`. -/
def mergeAll (levels : List (StdMap (List α))) (all : StdMap (List α)) : StdMap (List α) :=
  levels.foldl (fun acc frequent_k => mergeInto frequent_k acc) all

/-- The `while` loop of `SequentialApriori::runApriori` with the control flow of
`levelLoop`, instrumented to return the maps assigned to `frequent_k` by its
iterations, in order. -/
def levelLoopLevels (min_support : Int) (T : List (List α)) :
    Nat → StdMap (List α) → Option (List (StdMap (List α)))
  | 0, _ => none
  | fuel + 1, frequent_k =>
    if frequent_k.isEmpty then some []
    else
      match generateCandidates frequent_k with
      | none => none
      | some candidates =>
        if candidates.isEmpty then some []
        else
          let frequent_k' := filterBySupport min_support (countSupport T candidates)
          (levelLoopLevels min_support T fuel frequent_k').map (fun ls => frequent_k' :: ls)

/-- The FrequentLevel maps of a run of `runApriori`, level 1 first. -/
def runLevels (fuel : Nat) (min_support : Int) (T : List (List α)) :
    Option (List (StdMap (List α))) :=
  let frequent_1 := generateFrequent1Itemsets min_support T
  (levelLoopLevels min_support T fuel frequent_1).map (fun ls => frequent_1 :: ls)

/-- The `while` loop of `SequentialApriori::runApriori` with the control flow of
`levelLoop`, instrumented to return the number of times the loop body is
entered (an iteration left through `break` included). -/
def levelLoopIters (min_support : Int) (T : List (List α)) :
    Nat → StdMap (List α) → Option Nat
  | 0, _ => none
  | fuel + 1, frequent_k =>
    if frequent_k.isEmpty then some 0
    else
      match generateCandidates frequent_k with
      | none => none
      | some candidates =>
        if candidates.isEmpty then some 1
        else
          let frequent_k' := filterBySupport min_support (countSupport T candidates)
          (levelLoopIters min_support T fuel frequent_k').map (fun n => n + 1)

/-- The `while` loop of `SequentialApriori::runApriori` with the control flow of
`levelLoop`, instrumented to return the arguments of its calls of
`generateCandidates`, in order. -/
def levelLoopCalls (min_support : Int) (T : List (List α)) :
    Nat → StdMap (List α) → Option (List (StdMap (List α)))
  | 0, _ => none
  | fuel + 1, frequent_k =>
    if frequent_k.isEmpty then some []
    else
      match generateCandidates frequent_k with
      | none => none
      | some candidates =>
        if candidates.isEmpty then some [frequent_k]
        else
          let frequent_k' := filterBySupport min_support (countSupport T candidates)
          (levelLoopCalls min_support T fuel frequent_k').map (fun cs => frequent_k :: cs)

/-- The maps of `levels` are genuine maps and the keys of the `i`-th one (from
0) have size `k + i`. -/
def LevelsFrom : Nat → List (StdMap (List α)) → Prop
  | _, [] => True
  | k, l :: ls => MapWF l ∧ (∀ X ∈ keys l, X.length = k) ∧ LevelsFrom (k + 1) ls

/-- The value of `X` in the last map of `levels` that has the key `X`. -/
def lastFind (X : List α) : List (StdMap (List α)) → Option Int
  | [] => none
  | l :: ls => (lastFind X ls).or (mapFind X l)

/-- The length of the longest transaction of `T`, `0` for the empty list. -/
def maxLen (T : List (List α)) : Nat := (T.map List.length).foldr max 0

end Instrumented

section DistributedSteps

/-- The state of all processes of `runDistributedApriori` when they reach the
`while` loop: `frequent_k` is the aggregated level 1, already stored into the
member `frequent_itemsets`. -/
def distInit (min_support : Int) (ps : List Proc) : List Proc :=
  let frequent_1 := aggregateC1 min_support (ps.map (fun p => generateLocalC1 p.local_transactions))
  ps.map (fun p =>
    { p with frequent_k := frequent_1
             frequent_itemsets := mergeInto frequent_1 p.frequent_itemsets })

/-- One test and body of the `while` loop of `runDistributedApriori` on all
processes (the body of `distLevelLoop`): `none` for an out-of-range access or
mismatched collectives, `some none` when every process leaves the loop,
`some (some ps')` for the states at the next test. -/
def distLevelStep (min_support : Int) (ps : List Proc) : Option (Option (List Proc)) :=
  let cs := ps.map procCandidates
  if cs.any Option.isNone then none
  else
    let cands := cs.map (fun c => c.getD [])
    if cands.all List.isEmpty then some none
    else if cands.any List.isEmpty then none
    else
      let locals := List.zipWith (fun p c => countLocalSupport p.local_transactions c) ps cands
      let globals := locals.map (aggregateSupport locals)
      if globals.any Option.isNone then none
      else some (some (List.zipWith (fun p g => procAdvance min_support p (g.getD [])) ps globals))

/-- The MPI calls of `loadAndDistributeData` after the load, with the process
exit. -/
inductive MpiOp where
  | bcast (total_transactions : Nat)
  | sendCount (dest : Nat) (dest_count : Nat)
  | send (dest : Nat) (msg : Nat × Str)
  | recvCount (local_count : Nat)
  | recv (msg : Nat × Str)
  | barrier
  | finalize
  | exitWith (status : Nat)
deriving DecidableEq

/-- Source: `DistributedApriori::loadAndDistributeData` after the load, as the
MPI calls process `rank` of `P` makes, in order, when rank 0 has loaded
`all_transactions`.  `bcast n` records the value `total_transactions` holds
after `MPI_Bcast`, `recv msg` the message a matching send delivers. -/
def rankOps (all_transactions : List (List Str)) (P rank : Nat) : List MpiOp :=
  let total_transactions := all_transactions.length
  if total_transactions = 0 then [MpiOp.bcast 0, MpiOp.finalize, MpiOp.exitWith 1]
  else if rank = 0 then
    MpiOp.bcast total_transactions ::
      (((List.range (P - 1)).map (fun d =>
        MpiOp.sendCount (d + 1) (localCount total_transactions P (d + 1)) ::
          (block all_transactions P (d + 1)).map (fun t =>
            MpiOp.send (d + 1) (sendTransaction t)))).flatten ++ [MpiOp.barrier])
  else
    MpiOp.bcast total_transactions :: MpiOp.recvCount (localCount total_transactions P rank) ::
      ((block all_transactions P rank).map (fun t => MpiOp.recv (sendTransaction t)) ++
        [MpiOp.barrier])

/-- An operation that transfers a partition: a point-to-point send or receive. -/
def MpiOp.isTransfer : MpiOp → Bool
  | MpiOp.sendCount _ _ => true
  | MpiOp.send _ _ => true
  | MpiOp.recvCount _ => true
  | MpiOp.recv _ => true
  | _ => false

end DistributedSteps

section Printing

/-- The statement `grouped_results[size].push_back(pair)` on a
`std::map<int, vector<pair<..>>>` in iteration order. -/
def groupPush (size : Nat) (pair : List Str × Int) :
    List (Nat × List (List Str × Int)) → List (Nat × List (List Str × Int))
  | [] => [(size, [pair])]
  | (k, v) :: g =>
    if size < k then (size, [pair]) :: (k, v) :: g
    else if k < size then (k, v) :: groupPush size pair g
    else (k, v ++ [pair]) :: g

/-- The inner loop of `printResults`: the items separated by `", "`. -/
def showItems : List Str → Str
  | [] => []
  | [x] => x
  | x :: y :: rest => x ++ ", ".toList ++ showItems (y :: rest)

/-- Source: `SequentialApriori::printResults` (and the same text printed by rank
0 in `DistributedApriori::printResults`), as the characters written to the
standard output. -/
def printResults (frequent_itemsets : StdMap (List Str)) : Str :=
  let grouped_results :=
    frequent_itemsets.foldl (fun g pair => groupPush pair.1.length pair g) []
  "\n=== FREQUENT ITEMSETS ===\n".toList ++
    (grouped_results.map (fun group =>
      "\n".toList ++ (toString group.1).toList ++ "-itemsets:\n".toList ++
        "-------------\n".toList ++
        (group.2.map (fun pair =>
          "\x7b ".toList ++ showItems pair.1 ++ " \x7d : ".toList ++
            (toString pair.2).toList ++ "\n".toList)).flatten)).flatten

end Printing

/-! ## Lemmas on `std::map` -/

section MapLemmas

variable {K : Type} [LinearOrder K]

theorem mapFind_mapUpd (k k' : K) (f : Int → Int) (m : StdMap K) :
    mapFind k' (mapUpd k f m) =
      if k' = k then some (f ((mapFind k m).getD 0)) else mapFind k' m := by
  induction m with
  | nil =>
    by_cases h : k' = k
    · subst h; simp [mapUpd, mapFind]
    · rcases lt_or_gt_of_ne h with h1 | h1
      · simp [mapUpd, mapFind, h, h1]
      · simp [mapUpd, mapFind, h, h1, not_lt_of_gt h1]
  | cons p m ih =>
    obtain ⟨k1, v1⟩ := p
    rcases lt_trichotomy k k1 with h | h | h
    · simp only [mapUpd, h, if_true]
      by_cases e : k' = k
      · subst e; simp [mapFind, h]
      · rcases lt_or_gt_of_ne e with h1 | h1
        · simp [mapFind, e, h1, h1.trans h]
        · simp [mapFind, e, h1, not_lt_of_gt h1]
    · subst h
      simp only [mapUpd, lt_irrefl, if_false]
      by_cases e : k' = k
      · subst e; simp [mapFind]
      · rcases lt_or_gt_of_ne e with h1 | h1
        · simp [mapFind, e, h1]
        · simp [mapFind, e, h1, not_lt_of_gt h1]
    · simp only [mapUpd, not_lt_of_gt h, h, if_true, if_false]
      by_cases e : k' = k
      · subst e
        simp [mapFind, h, not_lt_of_gt h, ih]
      · simp only [mapFind, e, if_false]
        split
        · rfl
        · split
          · simp [ih, e]
          · rfl
  
theorem keys_mapUpd_subset (k : K) (f : Int → Int) (m : StdMap K) :
    ∀ x ∈ keys (mapUpd k f m), x = k ∨ x ∈ keys m := by
  induction m with
  | nil => intro x hx; simp [mapUpd, keys] at hx; exact Or.inl hx
  | cons p m ih =>
    obtain ⟨k1, v1⟩ := p
    intro x hx
    rcases lt_trichotomy k k1 with h | h | h
    · simp only [mapUpd, h, if_true, keys, List.map_cons, List.mem_cons] at hx
      simp only [keys, List.map_cons, List.mem_cons]
      tauto
    · subst h
      simp only [mapUpd, lt_irrefl, if_false, keys, List.map_cons, List.mem_cons] at hx
      simp only [keys, List.map_cons, List.mem_cons]
      tauto
    · simp only [mapUpd, not_lt_of_gt h, h, if_true, if_false, keys, List.map_cons,
        List.mem_cons] at hx
      simp only [keys, List.map_cons, List.mem_cons]
      rcases hx with hx | hx
      · tauto
      · have := ih x hx
        simp only [keys] at this
        tauto

theorem MapWF_nil : MapWF ([] : StdMap K) := by simp [MapWF, keys]

theorem MapWF_cons {k : K} {v : Int} {m : StdMap K} :
    MapWF ((k, v) :: m) ↔ (∀ x ∈ keys m, k < x) ∧ MapWF m := by
  simp [MapWF, keys, List.pairwise_cons]

theorem MapWF_mapUpd (k : K) (f : Int → Int) {m : StdMap K} (hm : MapWF m) :
    MapWF (mapUpd k f m) := by
  induction m with
  | nil => simp [mapUpd, MapWF, keys]
  | cons p m ih =>
    obtain ⟨k1, v1⟩ := p
    rw [MapWF_cons] at hm
    rcases lt_trichotomy k k1 with h | h | h
    · simp only [mapUpd, h, if_true]
      rw [MapWF_cons]
      refine ⟨?_, MapWF_cons.2 hm⟩
      intro x hx
      simp only [keys, List.map_cons, List.mem_cons] at hx
      rcases hx with rfl | hx
      · exact h
      · exact h.trans (hm.1 x hx)
    · subst h
      simp only [mapUpd, lt_irrefl, if_false]
      exact MapWF_cons.2 hm
    · simp only [mapUpd, not_lt_of_gt h, h, if_true, if_false]
      rw [MapWF_cons]
      refine ⟨?_, ih hm.2⟩
      intro x hx
      rcases keys_mapUpd_subset k f m x hx with rfl | hx
      · exact h
      · exact hm.1 x hx

theorem mapFind_eq_none_of_lt {k : K} {m : StdMap K} (h : ∀ x ∈ keys m, k < x) :
    mapFind k m = none := by
  cases m with
  | nil => rfl
  | cons p m =>
    obtain ⟨k1, v1⟩ := p
    have : k < k1 := h k1 (by simp [keys])
    simp [mapFind, this]

theorem mapFind_eq_some_iff {m : StdMap K} (hm : MapWF m) (k : K) (v : Int) :
    mapFind k m = some v ↔ (k, v) ∈ m := by
  induction m with
  | nil => simp [mapFind]
  | cons p m ih =>
    obtain ⟨k1, v1⟩ := p
    rw [MapWF_cons] at hm
    rcases lt_trichotomy k k1 with h | h | h
    · simp only [mapFind, h, if_true, List.mem_cons, Prod.mk.injEq]
      constructor
      · intro h'; cases h'
      · rintro (⟨rfl, _⟩ | h')
        · exact absurd h (lt_irrefl _)
        · have := hm.1 k (by simp only [keys, List.mem_map]; exact ⟨(k, v), h', rfl⟩)
          exact absurd (h.trans this) (lt_irrefl _)
    · subst h
      simp only [mapFind, lt_irrefl, if_false, List.mem_cons, Prod.mk.injEq, Option.some.injEq]
      constructor
      · intro h'; exact Or.inl ⟨trivial, h'.symm⟩
      · rintro (⟨_, rfl⟩ | h')
        · rfl
        · have := hm.1 k (by simp only [keys, List.mem_map]; exact ⟨(k, v), h', rfl⟩)
          exact absurd this (lt_irrefl _)
    · simp only [mapFind, not_lt_of_gt h, h, if_true, if_false, List.mem_cons, Prod.mk.injEq]
      rw [ih hm.2]
      constructor
      · intro h'; exact Or.inr h'
      · rintro (⟨rfl, _⟩ | h')
        · exact absurd h (lt_irrefl _)
        · exact h'

omit [LinearOrder K] in
theorem mem_keys_iff {m : StdMap K} (k : K) : k ∈ keys m ↔ ∃ v, (k, v) ∈ m := by
  simp only [keys, List.mem_map]
  constructor
  · rintro ⟨⟨k', v⟩, h, rfl⟩; exact ⟨v, h⟩
  · rintro ⟨v, h⟩; exact ⟨(k, v), h, rfl⟩

theorem mem_keys_iff_find {m : StdMap K} (hm : MapWF m) (k : K) :
    k ∈ keys m ↔ ∃ v, mapFind k m = some v := by
  rw [mem_keys_iff]
  exact exists_congr (fun v => (mapFind_eq_some_iff hm k v).symm)

theorem map_ext {m₁ m₂ : StdMap K} (h₁ : MapWF m₁) (h₂ : MapWF m₂)
    (h : ∀ k, mapFind k m₁ = mapFind k m₂) : m₁ = m₂ := by
  induction m₁ generalizing m₂ with
  | nil =>
    cases m₂ with
    | nil => rfl
    | cons p m₂ =>
      obtain ⟨k2, v2⟩ := p
      have := h k2
      simp [mapFind] at this
  | cons p m₁ ih =>
    obtain ⟨k1, v1⟩ := p
    cases m₂ with
    | nil =>
      have := h k1
      simp [mapFind] at this
    | cons q m₂ =>
      obtain ⟨k2, v2⟩ := q
      rw [MapWF_cons] at h₁ h₂
      have e1 := h k1
      have e2 := h k2
      simp only [mapFind, lt_irrefl, if_false] at e1 e2
      have hk : k1 = k2 := by
        rcases lt_trichotomy k1 k2 with hlt | heq | hgt
        · simp [hlt] at e1
        · exact heq
        · simp [hgt] at e2
      subst hk
      simp only [lt_irrefl, if_false, Option.some.injEq] at e1
      subst e1
      congr 1
      apply ih h₁.2 h₂.2
      intro k
      rcases lt_or_ge k1 k with hlt | hge
      · have := h k
        simpa [mapFind, not_lt_of_gt hlt, hlt] using this
      · rw [mapFind_eq_none_of_lt, mapFind_eq_none_of_lt]
        · intro x hx; exact lt_of_le_of_lt hge (h₂.1 x hx)
        · intro x hx; exact lt_of_le_of_lt hge (h₁.1 x hx)

theorem mapUpd_of_keys_lt {k : K} (f : Int → Int) {m : StdMap K}
    (h : ∀ x ∈ keys m, x < k) : mapUpd k f m = m ++ [(k, f 0)] := by
  induction m with
  | nil => rfl
  | cons p m ih =>
    obtain ⟨k1, v1⟩ := p
    have h1 : k1 < k := h k1 (by simp [keys])
    simp only [mapUpd, not_lt_of_gt h1, h1, if_true, if_false, List.cons_append]
    rw [ih]
    intro x hx
    exact h x (by simp only [keys, List.map_cons, List.mem_cons]; exact Or.inr hx)

/-- Filling a map from a list whose keys ascend appends the selected entries in order. -/
theorem foldl_mapUpd_sorted {β : Type} (κ : β → K) (g : β → Int) (c : β → Bool)
    (l : List β) (acc : StdMap K)
    (h : (keys acc ++ l.map κ).Pairwise (· < ·)) :
    l.foldl (fun a p => if c p then mapUpd (κ p) (fun _ => g p) a else a) acc =
      acc ++ (l.filter c).map (fun p => (κ p, g p)) := by
  induction l generalizing acc with
  | nil => simp
  | cons p l ih =>
    simp only [List.foldl_cons]
    rw [List.map_cons, List.pairwise_append] at h
    obtain ⟨ha, hl, hal⟩ := h
    rw [List.pairwise_cons] at hl
    by_cases hc : c p = true
    · simp only [hc, if_true, List.filter_cons_of_pos, List.map_cons]
      rw [mapUpd_of_keys_lt, ih]
      · simp
      · simp only [keys, List.map_append, List.map_cons, List.map_nil, List.append_assoc,
          List.singleton_append]
        rw [List.pairwise_append]
        refine ⟨ha, List.pairwise_cons.2 hl, ?_⟩
        intro a haa b hb
        exact hal a haa b hb
      · intro x hx
        exact hal x hx (κ p) (by simp)
    · simp only [hc, Bool.false_eq_true, if_false]
      rw [List.filter_cons_of_neg (by simpa using hc), ih]
      rw [List.pairwise_append]
      refine ⟨ha, hl.2, ?_⟩
      intro a haa b hb
      exact hal a haa b (List.mem_cons_of_mem _ hb)

end MapLemmas

/-! ## The subset test and support counting -/

section SupportLemmas

variable {α : Type} [LinearOrder α]

theorem foldl_count_eq {β : Type} (p : β → Bool) (l : List β) (n : Int) :
    l.foldl (fun count t => if p t then count + 1 else count) n = n + (l.countP p : Int) := by
  induction l generalizing n with
  | nil => simp
  | cons t l ih =>
    simp only [List.foldl_cons, List.countP_cons]
    rw [ih]
    by_cases h : p t = true
    · simp only [h, if_true]; push_cast; ring
    · simp only [h, Bool.false_eq_true, if_false]; simp

theorem supportCount_eq (T : List (List α)) (X : List α) :
    supportCount T X = (T.countP (fun t => isSubset X t) : Int) := by
  unfold supportCount
  rw [foldl_count_eq (fun t => isSubset X t) T 0]
  simp

theorem supportCount_append (T₁ T₂ : List (List α)) (X : List α) :
    supportCount (T₁ ++ T₂) X = supportCount T₁ X + supportCount T₂ X := by
  simp only [supportCount_eq, List.countP_append]
  push_cast
  rfl

theorem supportCount_nonneg (T : List (List α)) (X : List α) : 0 ≤ supportCount T X := by
  rw [supportCount_eq]; exact Int.natCast_nonneg _

/-- The merge test `std::includes` decides set inclusion when the itemset is
strictly ascending and the transaction is ascending (repetitions allowed). -/
theorem includes_iff {t x : List α} (ht : t.Pairwise (· ≤ ·)) (hx : x.Pairwise (· < ·)) :
    includes t x = true ↔ ∀ i ∈ x, i ∈ t := by
  induction t generalizing x with
  | nil =>
    cases x with
    | nil => simp [includes]
    | cons b x =>
      simp only [includes, List.isEmpty_cons, Bool.false_eq_true, false_iff]
      intro hall
      exact absurd (hall b (List.mem_cons_self _ _)) (List.not_mem_nil _)
  | cons a t ih =>
    cases x with
    | nil => simp [includes]
    | cons b x =>
      rw [List.pairwise_cons] at ht hx
      rcases lt_trichotomy b a with h | h | h
      · simp only [includes, h, if_true, Bool.false_eq_true, false_iff]
        intro hall
        have hb := hall b (List.mem_cons_self _ _)
        rcases List.mem_cons.1 hb with e | hb
        · exact absurd (e ▸ h) (lt_irrefl _)
        · exact absurd (lt_of_lt_of_le h (ht.1 b hb)) (lt_irrefl _)
      · subst h
        simp only [includes, lt_irrefl, if_false]
        rw [ih ht.2 hx.2]
        constructor
        · intro hall i hi
          rcases List.mem_cons.1 hi with e | hi
          · exact e ▸ List.mem_cons_self _ _
          · exact List.mem_cons_of_mem _ (hall i hi)
        · intro hall i hi
          have := hall i (List.mem_cons_of_mem _ hi)
          rcases List.mem_cons.1 this with e | h'
          · exact absurd (e ▸ hx.1 i hi) (lt_irrefl _)
          · exact h'
      · simp only [includes, not_lt_of_gt h, h, if_true, if_false]
        rw [ih ht.2 (List.pairwise_cons.2 hx)]
        constructor
        · intro hall i hi
          exact List.mem_cons_of_mem _ (hall i hi)
        · intro hall i hi
          have := hall i hi
          rcases List.mem_cons.1 this with e | h'
          · rcases List.mem_cons.1 hi with e' | hi'
            · exact absurd (e' ▸ e ▸ h) (lt_irrefl _)
            · exact absurd ((e ▸ hx.1 i hi').trans h) (lt_irrefl _)
          · exact h'

theorem isSubset_iff {t x : List α} (ht : t.Pairwise (· < ·)) (hx : x.Pairwise (· < ·)) :
    isSubset x t = true ↔ ∀ i ∈ x, i ∈ t :=
  includes_iff (ht.imp le_of_lt) hx

theorem supportCount_eq_support {T : List (List α)} (hT : ∀ t ∈ T, t.Pairwise (· < ·))
    {X : List α} (hX : X.Pairwise (· < ·)) : supportCount T X = (support T X : Int) := by
  rw [supportCount_eq, support]
  congr 1
  apply List.countP_congr
  intro t ht
  simp only [decide_eq_true_eq]
  exact isSubset_iff (hT t ht) hX

theorem support_anti (T : List (List α)) {X Y : List α} (h : ∀ i ∈ Y, i ∈ X) :
    support T X ≤ support T Y := by
  unfold support
  apply List.countP_mono_left
  intro t _ hX
  simp only [decide_eq_true_eq] at hX ⊢
  intro i hi
  exact hX i (h i hi)

end SupportLemmas

/-! ## Level 1, support maps, filtering and accumulation -/

section LevelLemmas

variable {α : Type} [LinearOrder α]

theorem countItems_eq_foldl (T : List (List α)) (m : StdMap α) :
    T.foldl (fun m t => t.foldl (fun m item => mapUpd item (· + 1) m) m) m =
      T.flatten.foldl (fun m item => mapUpd item (· + 1) m) m := by
  induction T generalizing m with
  | nil => rfl
  | cons t T ih => simp [List.foldl_append, ih]

theorem mapFind_foldl_incr (x : α) (l : List α) (m : StdMap α) :
    mapFind x (l.foldl (fun m item => mapUpd item (· + 1) m) m) =
      if l.count x = 0 then mapFind x m
      else some ((mapFind x m).getD 0 + (l.count x : Int)) := by
  induction l generalizing m with
  | nil => simp
  | cons a l ih =>
    simp only [List.foldl_cons]
    rw [ih, mapFind_mapUpd]
    by_cases h : x = a
    · subst h
      simp only [if_true, Option.getD_some, List.count_cons_self]
      by_cases h0 : l.count x = 0
      · simp [h0]
      · simp only [h0, if_false, Nat.succ_ne_zero, Option.some.injEq]
        push_cast; ring
    · have h' : (a == x) = false := by simpa using fun e => h e.symm
      simp [h, List.count_cons, h']

theorem MapWF_foldl_incr (l : List α) {m : StdMap α} (hm : MapWF m) :
    MapWF (l.foldl (fun m item => mapUpd item (· + 1) m) m) := by
  induction l generalizing m with
  | nil => exact hm
  | cons a l ih => exact ih (MapWF_mapUpd _ _ hm)

theorem MapWF_countItems (T : List (List α)) : MapWF (countItems T) := by
  unfold countItems
  rw [countItems_eq_foldl]
  exact MapWF_foldl_incr _ MapWF_nil

theorem mapFind_countItems (T : List (List α)) (x : α) :
    mapFind x (countItems T) =
      if T.flatten.count x = 0 then none else some (T.flatten.count x : Int) := by
  unfold countItems
  rw [countItems_eq_foldl, mapFind_foldl_incr]
  simp [mapFind]

theorem mem_countItems (T : List (List α)) (x : α) (n : Int) :
    (x, n) ∈ countItems T ↔ n = (T.flatten.count x : Int) ∧ 0 < T.flatten.count x := by
  rw [← mapFind_eq_some_iff (MapWF_countItems T), mapFind_countItems]
  by_cases h : T.flatten.count x = 0
  · simp [h]
  · simp only [h, if_false, Option.some.injEq]
    constructor
    · intro e; exact ⟨e.symm, Nat.pos_of_ne_zero h⟩
    · intro e; exact e.1.symm

/-- In duplicate-free transactions the occurrences of an item count the
transactions that contain it. -/
theorem count_flatten_eq_support {T : List (List α)} (hT : ∀ t ∈ T, t.Pairwise (· < ·))
    (x : α) : T.flatten.count x = support T [x] := by
  induction T with
  | nil => simp [support]
  | cons t T ih =>
    have ht : t.Nodup := (hT t (List.mem_cons_self _ _)).imp (fun h => ne_of_lt h)
    have ih' := ih (fun t' ht' => hT t' (List.mem_cons_of_mem _ ht'))
    simp only [List.flatten_cons, List.count_append, support, List.countP_cons] at ih' ⊢
    rw [ih', List.count_eq_of_nodup ht]
    by_cases hx : x ∈ t
    · simp [hx, Nat.add_comm]
    · simp [hx]

theorem singleton_lt_singleton {a b : α} : ([a] : List α) < [b] ↔ a < b := by
  constructor
  · intro h
    cases h with
    | cons h => cases h
    | rel h => exact h
  · intro h; exact List.Lex.rel h

theorem filterItems_eq {m : StdMap α} (hm : MapWF m) (s : Int) :
    filterItems s m = (m.filter (fun p => decide (s ≤ p.2))).map (fun p => ([p.1], p.2)) := by
  unfold filterItems
  have := foldl_mapUpd_sorted (fun p : α × Int => [p.1]) (fun p => p.2)
    (fun p => decide (s ≤ p.2)) m ([] : StdMap (List α)) (by
      simp only [keys, List.map_nil, List.nil_append]
      rw [List.pairwise_map]
      unfold MapWF keys at hm
      rw [List.pairwise_map] at hm
      exact hm.imp (fun h => singleton_lt_singleton.2 h))
  simpa using this

theorem MapWF_filterItems {m : StdMap α} (hm : MapWF m) (s : Int) :
    MapWF (filterItems s m) := by
  rw [filterItems_eq hm]
  unfold MapWF keys at hm ⊢
  rw [List.map_map, List.pairwise_map]
  rw [List.pairwise_map] at hm
  exact (hm.sublist (List.filter_sublist _)).imp (fun h => singleton_lt_singleton.2 h)

theorem mem_filterItems {m : StdMap α} (hm : MapWF m) (s : Int) (X : List α) (n : Int) :
    (X, n) ∈ filterItems s m ↔ ∃ x, X = [x] ∧ (x, n) ∈ m ∧ s ≤ n := by
  rw [filterItems_eq hm]
  simp only [List.mem_map, List.mem_filter, decide_eq_true_eq, Prod.mk.injEq, Prod.exists]
  constructor
  · rintro ⟨x, v, ⟨h1, h2⟩, rfl, rfl⟩
    exact ⟨x, rfl, h1, h2⟩
  · rintro ⟨x, rfl, h1, h2⟩
    exact ⟨x, n, ⟨h1, h2⟩, rfl, rfl⟩

theorem countSupport_eq (T : List (List α)) {C : StdMap (List α)} (hC : MapWF C) :
    countSupport T C = C.map (fun p => (p.1, supportCount T p.1)) := by
  unfold countSupport
  have := foldl_mapUpd_sorted (fun p : List α × Int => p.1) (fun p => supportCount T p.1)
    (fun _ => true) C ([] : StdMap (List α)) (by simpa [keys] using hC)
  simpa using this

theorem keys_countSupport (T : List (List α)) {C : StdMap (List α)} (hC : MapWF C) :
    keys (countSupport T C) = keys C := by
  rw [countSupport_eq T hC]
  simp [keys, List.map_map, Function.comp_def]

theorem MapWF_countSupport (T : List (List α)) {C : StdMap (List α)} (hC : MapWF C) :
    MapWF (countSupport T C) := by
  unfold MapWF
  rw [keys_countSupport T hC]
  exact hC

theorem filterBySupport_eq {C : StdMap (List α)} (hC : MapWF C) (s : Int) :
    filterBySupport s C = C.filter (fun p => decide (s ≤ p.2)) := by
  unfold filterBySupport
  have := foldl_mapUpd_sorted (fun p : List α × Int => p.1) (fun p => p.2)
    (fun p => decide (s ≤ p.2)) C ([] : StdMap (List α)) (by simpa [keys] using hC)
  simpa using this

theorem MapWF_filterBySupport {C : StdMap (List α)} (hC : MapWF C) (s : Int) :
    MapWF (filterBySupport s C) := by
  rw [filterBySupport_eq hC]
  unfold MapWF keys at hC ⊢
  exact hC.sublist ((List.filter_sublist _).map _)

theorem mem_filterBySupport {C : StdMap (List α)} (hC : MapWF C) (s : Int)
    (X : List α) (n : Int) :
    (X, n) ∈ filterBySupport s C ↔ (X, n) ∈ C ∧ s ≤ n := by
  rw [filterBySupport_eq hC]
  simp [List.mem_filter]

theorem MapWF_mergeInto (fk : StdMap (List α)) {all : StdMap (List α)} (h : MapWF all) :
    MapWF (mergeInto fk all) := by
  unfold mergeInto
  induction fk generalizing all with
  | nil => exact h
  | cons p fk ih => exact ih (MapWF_mapUpd _ _ h)

theorem mapFind_mergeInto {fk : StdMap (List α)} (hfk : MapWF fk) (all : StdMap (List α))
    (X : List α) :
    mapFind X (mergeInto fk all) = (mapFind X fk).or (mapFind X all) := by
  unfold mergeInto
  induction fk generalizing all with
  | nil => simp [mapFind]
  | cons p fk ih =>
    obtain ⟨k, v⟩ := p
    rw [MapWF_cons] at hfk
    simp only [List.foldl_cons]
    rw [ih hfk.2, mapFind_mapUpd]
    rcases lt_trichotomy X k with h | h | h
    · have hn : mapFind X fk = none :=
        mapFind_eq_none_of_lt (fun x hx => h.trans (hfk.1 x hx))
      simp [mapFind, h, hn, ne_of_lt h]
    · subst h
      have hn : mapFind X fk = none := mapFind_eq_none_of_lt hfk.1
      simp [mapFind, hn]
    · simp [mapFind, h, not_lt_of_gt h, ne_of_gt h]

theorem mergeInto_nil {fk : StdMap (List α)} (hfk : MapWF fk) : mergeInto fk [] = fk := by
  apply map_ext (MapWF_mergeInto fk MapWF_nil) hfk
  intro X
  rw [mapFind_mergeInto hfk]
  simp [mapFind]

end LevelLemmas

/-! ## Candidate generation -/

section CandidateLemmas

variable {α : Type} [LinearOrder α]

theorem mem_keys_mapUpd {K : Type} [LinearOrder K] (k : K) (f : Int → Int) (m : StdMap K)
    (x : K) : x ∈ keys (mapUpd k f m) ↔ x = k ∨ x ∈ keys m := by
  constructor
  · exact keys_mapUpd_subset k f m x
  · induction m with
    | nil => intro h; simpa [mapUpd, keys] using h
    | cons p m ih =>
      obtain ⟨k1, v1⟩ := p
      intro h
      rcases lt_trichotomy k k1 with c | c | c
      · simp only [mapUpd, c, if_true, keys, List.map_cons, List.mem_cons]
        simp only [keys, List.map_cons, List.mem_cons] at h
        tauto
      · subst c
        simp only [mapUpd, lt_irrefl, if_false, keys, List.map_cons, List.mem_cons]
        simp only [keys, List.map_cons, List.mem_cons] at h
        tauto
      · simp only [mapUpd, not_lt_of_gt c, c, if_true, if_false, keys, List.map_cons,
          List.mem_cons]
        simp only [keys, List.map_cons, List.mem_cons] at h ih
        tauto

theorem mapUpd_zero_values {K : Type} [LinearOrder K] (k : K) {m : StdMap K}
    (h : ∀ p ∈ m, p.2 = 0) : ∀ p ∈ mapUpd k (fun _ => 0) m, p.2 = 0 := by
  induction m with
  | nil => intro p hp; simp [mapUpd] at hp; simp [hp]
  | cons q m ih =>
    obtain ⟨k1, v1⟩ := q
    have h1 : v1 = 0 := h (k1, v1) (List.mem_cons_self _ _)
    have h2 : ∀ p ∈ m, p.2 = 0 := fun p hp => h p (List.mem_cons_of_mem _ hp)
    intro p hp
    rcases lt_trichotomy k k1 with c | c | c
    · simp only [mapUpd, c, if_true, List.mem_cons] at hp
      rcases hp with rfl | rfl | hp
      · rfl
      · exact h1
      · exact h2 p hp
    · subst c
      simp only [mapUpd, lt_irrefl, if_false, List.mem_cons] at hp
      rcases hp with rfl | hp
      · rfl
      · exact h2 p hp
    · simp only [mapUpd, not_lt_of_gt c, c, if_true, if_false, List.mem_cons] at hp
      rcases hp with rfl | hp
      · exact h1
      · exact ih h2 p hp

theorem ZeroMap_nil : ZeroMap ([] : StdMap (List α)) :=
  ⟨MapWF_nil, fun _ h => absurd h (List.not_mem_nil _)⟩

theorem ZeroMap_mapUpd (X : List α) {C : StdMap (List α)} (h : ZeroMap C) :
    ZeroMap (mapUpd X (fun _ => 0) C) :=
  ⟨MapWF_mapUpd _ _ h.1, mapUpd_zero_values X h.2⟩

theorem mapFind_zeroMap {C : StdMap (List α)} (h : ZeroMap C) (X : List α) :
    mapFind X C = if X ∈ keys C then some 0 else none := by
  by_cases hX : X ∈ keys C
  · obtain ⟨v, hv⟩ := (mem_keys_iff X).1 hX
    have : v = 0 := h.2 (X, v) hv
    subst this
    simp [hX, (mapFind_eq_some_iff h.1 X 0).2 hv]
  · simp only [hX, if_false]
    cases e : mapFind X C with
    | none => rfl
    | some v => exact absurd ((mem_keys_iff_find h.1 X).2 ⟨v, e⟩) hX

/-- Two candidate maps with the same keys are the same map. -/
theorem zeroMap_ext {C₁ C₂ : StdMap (List α)} (h₁ : ZeroMap C₁) (h₂ : ZeroMap C₂)
    (h : ∀ X, X ∈ keys C₁ ↔ X ∈ keys C₂) : C₁ = C₂ := by
  apply map_ext h₁.1 h₂.1
  intro X
  rw [mapFind_zeroMap h₁, mapFind_zeroMap h₂]
  by_cases hX : X ∈ keys C₁
  · simp [hX, (h X).1 hX]
  · have hX' : X ∉ keys C₂ := fun h' => hX ((h X).2 h')
    simp [hX, hX']

theorem prefixCheck_eq (n : Nat) (A B : List α) (hA : n ≤ A.length) (hB : n ≤ B.length) :
    prefixCheck n A B = some (decide (A.take n = B.take n)) := by
  induction n generalizing A B with
  | zero => simp [prefixCheck]
  | succ n ih =>
    cases A with
    | nil => simp at hA
    | cons a A =>
      cases B with
      | nil => simp at hB
      | cons b B =>
        simp only [List.length_cons, Nat.add_le_add_iff_right] at hA hB
        simp only [prefixCheck, List.take_succ_cons, List.cons.injEq]
        by_cases h : a = b
        · subst h
          simp [ih A B hA hB]
        · simp [h]

theorem canJoin_eq {A B : List α} (h1 : 1 ≤ A.length) (h : B.length = A.length) :
    canJoin A B = some (decide (A.take (A.length - 1) = B.take (A.length - 1))) := by
  unfold canJoin
  rw [if_pos (by omega)]
  exact prefixCheck_eq _ A B (by omega) (by omega)

omit [LinearOrder α] in
theorem getLast?_isSome {B : List α} (h : 1 ≤ B.length) : ∃ b, B.getLast? = some b := by
  cases e : B.getLast? with
  | none => rw [List.getLast?_eq_none_iff] at e; subst e; simp at h
  | some b => exact ⟨b, rfl⟩

theorem joinInto_bodySpec {k : Nat} (hk : 1 ≤ k) : BodySpec (joinInto (α := α)) k := by
  intro A B C hA hB hC
  obtain ⟨b, hb⟩ := getLast?_isSome (B := B) (by omega)
  unfold joinInto
  rw [canJoin_eq (by omega) (by omega)]
  by_cases hj : A.take (A.length - 1) = B.take (A.length - 1)
  · simp only [hj, decide_True, pushCandidate, hb]
    refine ⟨_, rfl, ZeroMap_mapUpd _ hC, ?_⟩
    intro X
    rw [mem_keys_mapUpd]
    constructor
    · rintro (h | h)
      · exact Or.inr ⟨hj, b, hb, h⟩
      · exact Or.inl h
    · rintro (h | ⟨_, b', hb', h⟩)
      · exact Or.inr h
      · rw [hb] at hb'; cases hb'; exact Or.inl h
  · simp only [hj, decide_False]
    refine ⟨C, rfl, hC, ?_⟩
    intro X
    constructor
    · intro h; exact Or.inl h
    · rintro (h | ⟨h, _⟩)
      · exact h
      · exact absurd h hj

theorem joinIntoD_bodySpec {k : Nat} (hk : 1 ≤ k) : BodySpec (joinIntoD (α := α)) k := by
  intro A B C hA hB hC
  obtain ⟨b, hb⟩ := getLast?_isSome (B := B) (by omega)
  unfold joinIntoD
  rw [if_neg (by omega), prefixCheck_eq _ A B (by omega) (by omega)]
  by_cases hj : A.take (A.length - 1) = B.take (A.length - 1)
  · simp only [hj, decide_True, pushCandidate, hb]
    refine ⟨_, rfl, ZeroMap_mapUpd _ hC, ?_⟩
    intro X
    rw [mem_keys_mapUpd]
    constructor
    · rintro (h | h)
      · exact Or.inr ⟨hj, b, hb, h⟩
      · exact Or.inl h
    · rintro (h | ⟨_, b', hb', h⟩)
      · exact Or.inr h
      · rw [hb] at hb'; cases hb'; exact Or.inl h
  · simp only [hj, decide_False]
    refine ⟨C, rfl, hC, ?_⟩
    intro X
    constructor
    · intro h; exact Or.inl h
    · rintro (h | ⟨h, _⟩)
      · exact h
      · exact absurd h hj

theorem innerLoop_spec {body : List α → List α → StdMap (List α) → Option (StdMap (List α))}
    {k : Nat} (hbody : BodySpec body k) (A : List α) (hA : A.length = k)
    (rest : List (List α)) (hrest : ∀ B ∈ rest, B.length = k)
    (C : StdMap (List α)) (hC : ZeroMap C) :
    ∃ C', innerLoop body A rest C = some C' ∧ ZeroMap C' ∧
      ∀ X, X ∈ keys C' ↔ X ∈ keys C ∨ ∃ B ∈ rest, Joins A B X := by
  induction rest generalizing C with
  | nil => exact ⟨C, rfl, hC, by simp⟩
  | cons B rest ih =>
    obtain ⟨C₁, e₁, z₁, k₁⟩ := hbody A B C hA (hrest B (List.mem_cons_self _ _)) hC
    obtain ⟨C₂, e₂, z₂, k₂⟩ := ih (fun B' h => hrest B' (List.mem_cons_of_mem _ h)) C₁ z₁
    refine ⟨C₂, by simp [innerLoop, e₁, e₂], z₂, ?_⟩
    intro X
    rw [k₂, k₁]
    simp only [List.mem_cons, exists_eq_or_imp]
    tauto

omit [LinearOrder α] in
theorem pair_sublist_cons (A B A₀ : List α) (l : List (List α)) :
    [A, B].Sublist (A₀ :: l) ↔ (A = A₀ ∧ B ∈ l) ∨ [A, B].Sublist l := by
  constructor
  · intro h
    cases h with
    | cons _ h => exact Or.inr h
    | cons₂ _ h => exact Or.inl ⟨rfl, List.singleton_sublist.1 h⟩
  · rintro (⟨rfl, h⟩ | h)
    · exact List.Sublist.cons₂ _ (List.singleton_sublist.2 h)
    · exact List.Sublist.cons _ h

theorem outerLoop_spec {body : List α → List α → StdMap (List α) → Option (StdMap (List α))}
    {k : Nat} (hbody : BodySpec body k)
    (l : List (List α)) (hl : ∀ A ∈ l, A.length = k)
    (C : StdMap (List α)) (hC : ZeroMap C) :
    ∃ C', outerLoop body l C = some C' ∧ ZeroMap C' ∧
      ∀ X, X ∈ keys C' ↔ X ∈ keys C ∨ ∃ A B, [A, B].Sublist l ∧ Joins A B X := by
  induction l generalizing C with
  | nil => exact ⟨C, rfl, hC, by simp⟩
  | cons A l ih =>
    obtain ⟨C₁, e₁, z₁, k₁⟩ := innerLoop_spec hbody A (hl A (List.mem_cons_self _ _)) l
      (fun B h => hl B (List.mem_cons_of_mem _ h)) C hC
    obtain ⟨C₂, e₂, z₂, k₂⟩ := ih (fun B' h => hl B' (List.mem_cons_of_mem _ h)) C₁ z₁
    refine ⟨C₂, by simp [outerLoop, e₁, e₂], z₂, ?_⟩
    intro X
    rw [k₂, k₁]
    constructor
    · rintro ((h | ⟨B, hB, hj⟩) | ⟨A', B, hs, hj⟩)
      · exact Or.inl h
      · exact Or.inr ⟨A, B, (pair_sublist_cons _ _ _ _).2 (Or.inl ⟨rfl, hB⟩), hj⟩
      · exact Or.inr ⟨A', B, (pair_sublist_cons _ _ _ _).2 (Or.inr hs), hj⟩
    · rintro (h | ⟨A', B, hs, hj⟩)
      · exact Or.inl (Or.inl h)
      · rcases (pair_sublist_cons _ _ _ _).1 hs with ⟨rfl, hB⟩ | hs
        · exact Or.inl (Or.inr ⟨B, hB, hj⟩)
        · exact Or.inr ⟨A', B, hs, hj⟩

/-- In a strictly ascending list the pairs met by the double loop are the ordered
pairs of members. -/
theorem pair_sublist_iff {l : List (List α)} (hl : l.Pairwise (· < ·)) (A B : List α) :
    [A, B].Sublist l ↔ A ∈ l ∧ B ∈ l ∧ A < B := by
  induction l with
  | nil => simp
  | cons A₀ l ih =>
    rw [List.pairwise_cons] at hl
    rw [pair_sublist_cons, ih hl.2]
    constructor
    · rintro (⟨rfl, h⟩ | ⟨h1, h2, h3⟩)
      · exact ⟨List.mem_cons_self _ _, List.mem_cons_of_mem _ h, hl.1 B h⟩
      · exact ⟨List.mem_cons_of_mem _ h1, List.mem_cons_of_mem _ h2, h3⟩
    · rintro ⟨h1, h2, h3⟩
      rcases List.mem_cons.1 h1 with e1 | m1
      · rcases List.mem_cons.1 h2 with e2 | m2
        · rw [e1, e2] at h3; exact absurd h3 (lt_irrefl _)
        · exact Or.inl ⟨e1, m2⟩
      · rcases List.mem_cons.1 h2 with e2 | m2
        · rw [e2] at h3; exact absurd (h3.trans (hl.1 A m1)) (lt_irrefl _)
        · exact Or.inr ⟨m1, m2, h3⟩

theorem generateCandidates_spec {F : StdMap (List α)} {k : Nat} (hF : MapWF F) (hk : 1 ≤ k)
    (hlen : ∀ A ∈ keys F, A.length = k) :
    ∃ C, generateCandidates F = some C ∧ ZeroMap C ∧
      ∀ X, X ∈ keys C ↔ ∃ A B, A ∈ keys F ∧ B ∈ keys F ∧ A < B ∧ Joins A B X := by
  obtain ⟨C, e, z, hkeys⟩ := outerLoop_spec (joinInto_bodySpec hk) (keys F) hlen [] ZeroMap_nil
  refine ⟨C, e, z, ?_⟩
  intro X
  rw [hkeys]
  simp only [keys, List.map_nil, List.not_mem_nil, false_or]
  constructor
  · rintro ⟨A, B, hs, hj⟩
    obtain ⟨h1, h2, h3⟩ := (pair_sublist_iff hF A B).1 hs
    exact ⟨A, B, h1, h2, h3, hj⟩
  · rintro ⟨A, B, h1, h2, h3, hj⟩
    exact ⟨A, B, (pair_sublist_iff hF A B).2 ⟨h1, h2, h3⟩, hj⟩

theorem generateCandidatesD_eq {F : StdMap (List α)} {k : Nat} (hk : 1 ≤ k)
    (hlen : ∀ A ∈ keys F, A.length = k) :
    generateCandidatesD F = generateCandidates F := by
  obtain ⟨C, e, z, hkeys⟩ := outerLoop_spec (joinInto_bodySpec hk) (keys F) hlen [] ZeroMap_nil
  obtain ⟨C', e', z', hkeys'⟩ :=
    outerLoop_spec (joinIntoD_bodySpec hk) (keys F) hlen [] ZeroMap_nil
  unfold generateCandidatesD generateCandidates
  rw [e, e']
  congr 1
  apply zeroMap_ext z' z
  intro X
  rw [hkeys, hkeys']

end CandidateLemmas

/-! ## Joins of strictly ascending itemsets -/

section JoinLemmas

variable {α : Type} [LinearOrder α]

theorem cons_lt_cons_iff (a : α) (l₁ l₂ : List α) : a :: l₁ < a :: l₂ ↔ l₁ < l₂ := by
  constructor
  · intro h
    cases h with
    | cons h => exact h
    | rel h => exact absurd h (lt_irrefl _)
  · intro h; exact List.Lex.cons h

theorem append_lt_append_iff (P l₁ l₂ : List α) : P ++ l₁ < P ++ l₂ ↔ l₁ < l₂ := by
  induction P with
  | nil => simp
  | cons a P ih => rw [List.cons_append, List.cons_append, cons_lt_cons_iff, ih]

theorem sortItems_of_sorted {X : List α} (h : X.Pairwise (· < ·)) : sortItems X = X :=
  List.Sorted.insertionSort_eq (h.imp le_of_lt)

omit [LinearOrder α] in
theorem eq_take_append_last {A : List α} {a : α} (h : A.getLast? = some a) :
    A = A.take (A.length - 1) ++ [a] := by
  have := List.dropLast_append_getLast? a (by simpa using h)
  rw [List.dropLast_eq_take] at this
  exact this.symm

/-- A joinable ordered pair of strictly ascending `k`-itemsets: both are a common
prefix followed by one item, and the items are in order. -/
theorem joins_decompose {A B X : List α} (hA : 1 ≤ A.length) (hB : B.length = A.length)
    (hlt : A < B) (hj : Joins A B X) :
    ∃ P a b, A = P ++ [a] ∧ B = P ++ [b] ∧ a < b ∧ X = sortItems (P ++ [a, b]) := by
  obtain ⟨hpre, b, hb, hX⟩ := hj
  obtain ⟨a, ha⟩ := getLast?_isSome hA
  have eA := eq_take_append_last ha
  have eB := eq_take_append_last hb
  rw [hB, ← hpre] at eB
  refine ⟨A.take (A.length - 1), a, b, eA, eB, ?_, ?_⟩
  · rw [eA, eB, append_lt_append_iff, singleton_lt_singleton] at hlt
    exact hlt
  · rw [hX]
    congr 1
    conv_lhs => rw [eA]
    simp

theorem joins_shape {A B X : List α} (hA : 1 ≤ A.length) (hB : B.length = A.length)
    (sA : A.Pairwise (· < ·)) (sB : B.Pairwise (· < ·)) (hlt : A < B) (hj : Joins A B X) :
    X.length = A.length + 1 ∧ X.Pairwise (· < ·) ∧ (∀ i ∈ X, i ∈ A ∨ i ∈ B) ∧
      ∃ b, B.getLast? = some b ∧ X = A ++ [b] := by
  obtain ⟨P, a, b, eA, eB, hab, hX⟩ := joins_decompose hA hB hlt hj
  have hs : (P ++ [a, b]).Pairwise (· < ·) := by
    rw [eA, List.pairwise_append] at sA
    rw [eB, List.pairwise_append] at sB
    rw [List.pairwise_append]
    refine ⟨sA.1, by simp [hab], ?_⟩
    intro x hx y hy
    simp only [List.mem_cons, List.mem_singleton, List.not_mem_nil, or_false] at hy
    rcases hy with rfl | rfl
    · exact sA.2.2 x hx y (by simp)
    · exact sB.2.2 x hx y (by simp)
  rw [sortItems_of_sorted hs] at hX
  subst hX
  refine ⟨by simp [eA], hs, ?_, b, by simp [eB], by simp [eA]⟩
  intro i hi
  simp only [List.mem_append, List.mem_cons, List.mem_singleton, List.not_mem_nil,
    or_false] at hi
  rw [eA, eB]
  simp only [List.mem_append, List.mem_singleton]
  tauto

/-- Every strictly ascending itemset of size at least two is the join of two of
its subsets: itself without its last item, and without its last but one. -/
theorem exists_joins {X : List α} (hX : X.Pairwise (· < ·)) (h2 : 2 ≤ X.length) :
    ∃ A B, A.length + 1 = X.length ∧ B.length + 1 = X.length ∧
      A.Sublist X ∧ B.Sublist X ∧ A < B ∧ Joins A B X := by
  obtain ⟨b, hb⟩ := getLast?_isSome (B := X) (by omega)
  have eX := eq_take_append_last hb
  obtain ⟨a, ha⟩ := getLast?_isSome (B := X.take (X.length - 1))
    (by rw [List.length_take]; omega)
  have eA := eq_take_append_last ha
  generalize X.take (X.length - 1) = A at eX ha eA
  generalize A.take (A.length - 1) = P at eA
  subst eA
  subst eX
  rw [List.pairwise_append] at hX
  have hab : a < b := hX.2.2 a (by simp) b (by simp)
  refine ⟨P ++ [a], P ++ [b], by simp, by simp, ?_, ?_, ?_, ?_, b, by simp, ?_⟩
  · exact List.sublist_append_left _ _
  · rw [List.append_assoc]
    exact List.Sublist.append_left (List.Sublist.cons _ (List.Sublist.refl _)) _
  · rw [append_lt_append_iff, singleton_lt_singleton]; exact hab
  · simp
  · symm
    apply sortItems_of_sorted
    rw [List.pairwise_append]
    exact hX

end JoinLemmas

/-! ## Shape of the levels and termination of the level loop -/

section ShapeLemmas

variable {α : Type} [LinearOrder α]

theorem mem_generateFrequent1Itemsets (s : Int) (T : List (List α)) (X : List α) (n : Int) :
    (X, n) ∈ generateFrequent1Itemsets s T ↔
      ∃ x, X = [x] ∧ n = (T.flatten.count x : Int) ∧ 0 < T.flatten.count x ∧ s ≤ n := by
  unfold generateFrequent1Itemsets
  rw [mem_filterItems (MapWF_countItems T)]
  constructor
  · rintro ⟨x, rfl, h, hs⟩
    rw [mem_countItems] at h
    exact ⟨x, rfl, h.1, h.2, hs⟩
  · rintro ⟨x, rfl, h1, h2, hs⟩
    exact ⟨x, rfl, (mem_countItems T x n).2 ⟨h1, h2⟩, hs⟩

theorem shape_level1 (s : Int) (T : List (List α)) :
    Shape T 1 (generateFrequent1Itemsets s T) := by
  have key : ∀ X ∈ keys (generateFrequent1Itemsets s T), ∃ x, X = [x] ∧ x ∈ T.flatten := by
    intro X hX
    obtain ⟨n, hn⟩ := (mem_keys_iff X).1 hX
    obtain ⟨x, rfl, _, hpos, _⟩ := (mem_generateFrequent1Itemsets s T X n).1 hn
    exact ⟨x, rfl, List.count_pos_iff.1 hpos⟩
  refine ⟨MapWF_filterItems (MapWF_countItems T) s, ?_, ?_, ?_⟩
  · intro X hX
    obtain ⟨x, rfl, _⟩ := key X hX
    rfl
  · intro X hX
    obtain ⟨x, rfl, _⟩ := key X hX
    simp
  · intro X hX i hi
    obtain ⟨x, rfl, hx⟩ := key X hX
    simp only [List.mem_singleton] at hi
    exact hi ▸ hx

theorem shape_candidates {T : List (List α)} {k : Nat} {fk : StdMap (List α)}
    (h : Shape T k fk) (hk : 1 ≤ k) :
    ∃ C, generateCandidates fk = some C ∧ ZeroMap C ∧ Shape T (k + 1) C ∧
      ∀ X, X ∈ keys C ↔ ∃ A B, A ∈ keys fk ∧ B ∈ keys fk ∧ A < B ∧ Joins A B X := by
  obtain ⟨C, e, z, hkeys⟩ := generateCandidates_spec h.wf hk h.len
  refine ⟨C, e, z, ⟨z.1, ?_, ?_, ?_⟩, hkeys⟩
  · intro X hX
    obtain ⟨A, B, hA, hB, hlt, hj⟩ := (hkeys X).1 hX
    have := joins_shape (by rw [h.len A hA]; exact hk) (by rw [h.len A hA, h.len B hB])
      (h.sorted A hA) (h.sorted B hB) hlt hj
    rw [this.1, h.len A hA]
  · intro X hX
    obtain ⟨A, B, hA, hB, hlt, hj⟩ := (hkeys X).1 hX
    exact (joins_shape (by rw [h.len A hA]; exact hk) (by rw [h.len A hA, h.len B hB])
      (h.sorted A hA) (h.sorted B hB) hlt hj).2.1
  · intro X hX i hi
    obtain ⟨A, B, hA, hB, hlt, hj⟩ := (hkeys X).1 hX
    rcases (joins_shape (by rw [h.len A hA]; exact hk) (by rw [h.len A hA, h.len B hB])
      (h.sorted A hA) (h.sorted B hB) hlt hj).2.2.1 i hi with hi | hi
    · exact h.items A hA i hi
    · exact h.items B hB i hi

theorem mem_filter_count (s : Int) (T : List (List α)) {C : StdMap (List α)} (hC : MapWF C)
    (X : List α) (n : Int) :
    (X, n) ∈ filterBySupport s (countSupport T C) ↔
      X ∈ keys C ∧ n = supportCount T X ∧ s ≤ n := by
  rw [mem_filterBySupport (MapWF_countSupport T hC), countSupport_eq T hC]
  simp only [List.mem_map, Prod.mk.injEq, Prod.exists, keys]
  constructor
  · rintro ⟨⟨A, v, hmem, rfl, rfl⟩, hs⟩
    exact ⟨⟨A, v, hmem, rfl⟩, rfl, hs⟩
  · rintro ⟨⟨A, v, hmem, rfl⟩, rfl, hs⟩
    exact ⟨⟨A, v, hmem, rfl, rfl⟩, hs⟩

theorem shape_filter_count (s : Int) {T : List (List α)} {k : Nat} {C : StdMap (List α)}
    (h : Shape T k C) : Shape T k (filterBySupport s (countSupport T C)) := by
  have sub : ∀ X ∈ keys (filterBySupport s (countSupport T C)), X ∈ keys C := by
    intro X hX
    obtain ⟨n, hn⟩ := (mem_keys_iff X).1 hX
    exact ((mem_filter_count s T h.wf X n).1 hn).1
  exact ⟨MapWF_filterBySupport (MapWF_countSupport T h.wf) s,
    fun X hX => h.len X (sub X hX), fun X hX => h.sorted X (sub X hX),
    fun X hX => h.items X (sub X hX)⟩

theorem shape_length_le {T : List (List α)} {k : Nat} {C : StdMap (List α)}
    (h : Shape T k C) (hne : C ≠ []) : k ≤ T.flatten.length := by
  cases C with
  | nil => exact absurd rfl hne
  | cons p C =>
    have hp : p.1 ∈ keys (p :: C) := by simp [keys]
    rw [← h.len p.1 hp]
    have nd : p.1.Nodup := (h.sorted p.1 hp).imp (fun h => ne_of_lt h)
    exact (List.subperm_of_subset nd (fun i hi => h.items p.1 hp i hi)).length_le

omit [LinearOrder α] in
theorem isEmpty_eq_false_iff {β : Type} (l : List β) : l.isEmpty = false ↔ l ≠ [] := by
  cases l <;> simp

/-- The level loop returns: starting at level `k`, at most `|T| + 2 - k` iterations
are needed, where `|T|` is the number of item occurrences of the database. -/
theorem levelLoop_terminates (s : Int) (T : List (List α)) (n : Nat) :
    ∀ (k : Nat) (fk all : StdMap (List α)), Shape T k fk → 1 ≤ k →
      T.flatten.length + 1 ≤ n + k → ∃ r, levelLoop s T (n + 1) fk all = some r := by
  induction n with
  | zero =>
    intro k fk all h hk hn
    obtain ⟨C, e, _, hC, _⟩ := shape_candidates h hk
    unfold levelLoop
    by_cases h1 : fk.isEmpty = true
    · exact ⟨all, by simp [h1]⟩
    · by_cases h2 : C.isEmpty = true
      · exact ⟨all, by simp [h1, e, h2]⟩
      · have := shape_length_le hC (by simpa using h2)
        omega
  | succ n ih =>
    intro k fk all h hk hn
    obtain ⟨C, e, _, hC, _⟩ := shape_candidates h hk
    unfold levelLoop
    by_cases h1 : fk.isEmpty = true
    · exact ⟨all, by simp [h1]⟩
    · by_cases h2 : C.isEmpty = true
      · exact ⟨all, by simp [h1, e, h2]⟩
      · simp only [h1, e, h2, Bool.false_eq_true, if_false]
        exact ih (k + 1) _ _ (shape_filter_count s hC) (by omega) (by omega)

theorem runApriori_terminates (s : Int) (T : List (List α)) :
    ∃ r, runApriori (T.flatten.length + 1) s T = some r := by
  unfold runApriori
  exact levelLoop_terminates s T _ 1 _ _ (shape_level1 s T) (le_refl 1) (by omega)

/-- Invariant rule for the level loop. -/
theorem levelLoop_rule (s : Int) (T : List (List α))
    (Inv : Nat → StdMap (List α) → StdMap (List α) → Prop) (Post : StdMap (List α) → Prop)
    (hexit : ∀ k fk all, Inv k fk all → fk = [] → Post all)
    (hbreak : ∀ k fk all, Inv k fk all → fk ≠ [] → generateCandidates fk = some [] → Post all)
    (hstep : ∀ k fk all C, Inv k fk all → fk ≠ [] → generateCandidates fk = some C → C ≠ [] →
      Inv (k + 1) (filterBySupport s (countSupport T C))
        (mergeInto (filterBySupport s (countSupport T C)) all))
    (fuel : Nat) :
    ∀ k fk all r, Inv k fk all → levelLoop s T fuel fk all = some r → Post r := by
  induction fuel with
  | zero => intro k fk all r _ h; simp [levelLoop] at h
  | succ n ih =>
    intro k fk all r hinv h
    unfold levelLoop at h
    by_cases h1 : fk.isEmpty = true
    · simp only [h1, if_true, Option.some.injEq] at h
      subst h
      exact hexit k fk all hinv (by simpa using h1)
    · have hne : fk ≠ [] := by simpa using h1
      simp only [h1, Bool.false_eq_true, if_false] at h
      cases e : generateCandidates fk with
      | none => simp [e] at h
      | some C =>
        simp only [e] at h
        by_cases h2 : C.isEmpty = true
        · simp only [h2, if_true, Option.some.injEq] at h
          subst h
          have : C = [] := by simpa using h2
          subst this
          exact hbreak k fk all hinv hne e
        · simp only [h2, Bool.false_eq_true, if_false] at h
          exact ih (k + 1) _ _ r (hstep k fk all C hinv hne e (by simpa using h2)) h

end ShapeLemmas

/-! ## Soundness and completeness of the sequential result -/

section Correctness

variable {α : Type} [LinearOrder α]

theorem mem_keys_mergeInto {fk all : StdMap (List α)} (hfk : MapWF fk) (hall : MapWF all)
    (X : List α) : X ∈ keys (mergeInto fk all) ↔ X ∈ keys fk ∨ X ∈ keys all := by
  rw [mem_keys_iff_find (MapWF_mergeInto fk hall), mem_keys_iff_find hfk,
    mem_keys_iff_find hall]
  simp only [mapFind_mergeInto hfk]
  cases h1 : mapFind X fk with
  | none => simp
  | some v => simp

theorem mem_mergeInto {fk all : StdMap (List α)} (hfk : MapWF fk) (hall : MapWF all)
    (X : List α) (n : Int) :
    (X, n) ∈ mergeInto fk all → (X, n) ∈ fk ∨ (X, n) ∈ all := by
  rw [← mapFind_eq_some_iff (MapWF_mergeInto fk hall), ← mapFind_eq_some_iff hfk,
    ← mapFind_eq_some_iff hall, mapFind_mergeInto hfk]
  cases h1 : mapFind X fk with
  | none => simp
  | some v => intro h; exact Or.inl (by simpa using h)

theorem support_sublist (T : List (List α)) {X Y : List α} (h : Y.Sublist X) :
    support T X ≤ support T Y :=
  support_anti T (fun _ hi => h.subset hi)

theorem levelInv_init (s : Int) {T : List (List α)} (hT : ∀ t ∈ T, t.Pairwise (· < ·)) :
    LevelInv s T 1 (generateFrequent1Itemsets s T)
      (mergeInto (generateFrequent1Itemsets s T) []) := by
  have hsh := shape_level1 s T
  rw [mergeInto_nil hsh.wf]
  have hcount : ∀ X n, (X, n) ∈ generateFrequent1Itemsets s T →
      n = (support T X : Int) ∧ s ≤ n := by
    intro X n h
    obtain ⟨x, rfl, hn, _, hs⟩ := (mem_generateFrequent1Itemsets s T X n).1 h
    rw [count_flatten_eq_support hT] at hn
    exact ⟨hn, hs⟩
  have hlevel : 1 ≤ s → ∀ X : List α, X.Pairwise (· < ·) → X.length = 1 →
      s ≤ (support T X : Int) → X ∈ keys (generateFrequent1Itemsets s T) := by
    intro hs X _ hlen hsup
    obtain ⟨x, rfl⟩ := List.length_eq_one.1 hlen
    rw [mem_keys_iff]
    refine ⟨(support T [x] : Int), ?_⟩
    rw [mem_generateFrequent1Itemsets]
    refine ⟨x, rfl, by rw [count_flatten_eq_support hT], ?_, hsup⟩
    rw [count_flatten_eq_support hT]
    omega
  refine ⟨le_refl 1, hsh, hcount, hsh.wf, ?_, hlevel, ?_⟩
  · intro X n h
    have hk : X ∈ keys (generateFrequent1Itemsets s T) := (mem_keys_iff X).2 ⟨n, h⟩
    have hl := hsh.len X hk
    refine ⟨?_, hsh.sorted X hk, hcount X n h⟩
    intro e; rw [e] at hl; simp at hl
  · intro hs X hX h1 h2 hsup
    exact hlevel hs X hX (by omega) hsup

theorem levelInv_step (s : Int) {T : List (List α)} (hT : ∀ t ∈ T, t.Pairwise (· < ·))
    (k : Nat) (fk all C : StdMap (List α)) (h : LevelInv s T k fk all)
    (e : generateCandidates fk = some C) :
    LevelInv s T (k + 1) (filterBySupport s (countSupport T C))
      (mergeInto (filterBySupport s (countSupport T C)) all) := by
  obtain ⟨C', e', _, hC, hkeys⟩ := shape_candidates h.shape h.pos
  rw [e] at e'
  cases e'
  have hsh := shape_filter_count s hC
  have hcount : ∀ X n, (X, n) ∈ filterBySupport s (countSupport T C) →
      n = (support T X : Int) ∧ s ≤ n := by
    intro X n hmem
    obtain ⟨hX, hn, hs⟩ := (mem_filter_count s T hC.wf X n).1 hmem
    rw [supportCount_eq_support hT (hC.sorted X hX)] at hn
    exact ⟨hn, hs⟩
  have hlevel : 1 ≤ s → ∀ X : List α, X.Pairwise (· < ·) → X.length = k + 1 →
      s ≤ (support T X : Int) → X ∈ keys (filterBySupport s (countSupport T C)) := by
    intro hs X hX hlen hsup
    obtain ⟨A, B, hA, hB, sA, sB, hlt, hj⟩ := exists_joins hX (by have := h.pos; omega)
    have fA : A ∈ keys fk :=
      h.level hs A (hX.sublist sA) (by omega)
        (le_trans hsup (by exact_mod_cast support_sublist T sA))
    have fB : B ∈ keys fk :=
      h.level hs B (hX.sublist sB) (by omega)
        (le_trans hsup (by exact_mod_cast support_sublist T sB))
    have hXC : X ∈ keys C := (hkeys X).2 ⟨A, B, fA, fB, hlt, hj⟩
    rw [mem_keys_iff]
    refine ⟨supportCount T X, (mem_filter_count s T hC.wf X _).2 ⟨hXC, rfl, ?_⟩⟩
    rw [supportCount_eq_support hT hX]
    exact hsup
  refine ⟨by omega, hsh, hcount, MapWF_mergeInto _ h.wf, ?_, hlevel, ?_⟩
  · intro X n hmem
    rcases mem_mergeInto hsh.wf h.wf X n hmem with h1 | h1
    · have hk : X ∈ keys (filterBySupport s (countSupport T C)) := (mem_keys_iff X).2 ⟨n, h1⟩
      have hl := hsh.len X hk
      refine ⟨?_, hsh.sorted X hk, hcount X n h1⟩
      intro e; rw [e] at hl; simp at hl
    · exact h.sound X n h1
  · intro hs X hX h1 h2 hsup
    rw [mem_keys_mergeInto hsh.wf h.wf]
    rcases Nat.lt_or_ge k X.length with hlt | hge
    · exact Or.inl (hlevel hs X hX (by omega) hsup)
    · exact Or.inr (h.complete hs X hX h1 hge hsup)

theorem levelInv_exit (s : Int) {T : List (List α)}
    (k : Nat) (fk all : StdMap (List α)) (h : LevelInv s T k fk all) (e : fk = []) :
    ResultSpec s T all := by
  refine ⟨h.wf, h.sound, ?_⟩
  intro hs X hne hX hsup
  have h1 : 1 ≤ X.length := by
    cases X with
    | nil => exact absurd rfl hne
    | cons a X => simp
  rcases Nat.lt_or_ge k X.length with hlt | hge
  · have := h.level hs (X.take k) (hX.sublist (List.take_sublist _ _))
      (by rw [List.length_take]; omega)
      (le_trans hsup (by exact_mod_cast support_sublist T (List.take_sublist k X)))
    rw [e] at this
    simp [keys] at this
  · exact h.complete hs X hX h1 hge hsup

theorem levelInv_break (s : Int) {T : List (List α)}
    (k : Nat) (fk all : StdMap (List α)) (h : LevelInv s T k fk all)
    (e : generateCandidates fk = some []) : ResultSpec s T all := by
  obtain ⟨C', e', _, hC, hkeys⟩ := shape_candidates h.shape h.pos
  rw [e] at e'
  cases e'
  refine ⟨h.wf, h.sound, ?_⟩
  intro hs X hne hX hsup
  have h1 : 1 ≤ X.length := by
    cases X with
    | nil => exact absurd rfl hne
    | cons a X => simp
  rcases Nat.lt_or_ge k X.length with hlt | hge
  · exfalso
    have hY : (X.take (k + 1)).Pairwise (· < ·) := hX.sublist (List.take_sublist _ _)
    have hYs : s ≤ (support T (X.take (k + 1)) : Int) :=
      le_trans hsup (by exact_mod_cast support_sublist T (List.take_sublist (k + 1) X))
    have hYl : (X.take (k + 1)).length = k + 1 := by rw [List.length_take]; omega
    obtain ⟨A, B, hA, hB, sA, sB, hlt', hj⟩ := exists_joins hY (by have := h.pos; omega)
    have fA : A ∈ keys fk :=
      h.level hs A (hY.sublist sA) (by omega)
        (le_trans hYs (by exact_mod_cast support_sublist T sA))
    have fB : B ∈ keys fk :=
      h.level hs B (hY.sublist sB) (by omega)
        (le_trans hYs (by exact_mod_cast support_sublist T sB))
    have := (hkeys (X.take (k + 1))).2 ⟨A, B, fA, fB, hlt', hj⟩
    simp [keys] at this
  · exact h.complete hs X hX h1 hge hsup

/-- Every result of the sequential level loop is sound and, for a positive
threshold, complete. -/
theorem runApriori_resultSpec (s : Int) {T : List (List α)}
    (hT : ∀ t ∈ T, t.Pairwise (· < ·)) (fuel : Nat) (r : StdMap (List α))
    (h : runApriori fuel s T = some r) : ResultSpec s T r := by
  unfold runApriori at h
  exact levelLoop_rule s T (LevelInv s T) (ResultSpec s T)
    (fun k fk all hinv e => levelInv_exit s k fk all hinv e)
    (fun k fk all hinv _ e => levelInv_break s k fk all hinv e)
    (fun k fk all C hinv _ e _ => levelInv_step s hT k fk all C hinv e)
    fuel 1 _ _ r (levelInv_init s hT) h

end Correctness

/-! ## Claims on the sequential backend -/

section SequentialClaims

variable {α : Type} [LinearOrder α]

theorem levelLoop_fuel_succ (s : Int) (T : List (List α)) (fuel : Nat) :
    ∀ fk all r, levelLoop s T fuel fk all = some r → levelLoop s T (fuel + 1) fk all = some r := by
  induction fuel with
  | zero => intro fk all r h; simp [levelLoop] at h
  | succ n ih =>
    intro fk all r h
    rw [levelLoop] at h
    rw [levelLoop]
    by_cases h1 : fk.isEmpty = true
    · simpa [h1] using h
    · simp only [h1, Bool.false_eq_true, if_false] at h ⊢
      cases e : generateCandidates fk with
      | none => simp [e] at h
      | some C =>
        simp only [e] at h ⊢
        by_cases h2 : C.isEmpty = true
        · simpa [h2] using h
        · simp only [h2, Bool.false_eq_true, if_false] at h ⊢
          exact ih _ _ r h

theorem levelLoop_fuel_le (s : Int) (T : List (List α)) {f₁ f₂ : Nat} (hle : f₁ ≤ f₂)
    (fk all r : StdMap (List α)) (h : levelLoop s T f₁ fk all = some r) :
    levelLoop s T f₂ fk all = some r := by
  induction hle with
  | refl => exact h
  | step _ ih => exact levelLoop_fuel_succ s T _ fk all r ih

/-- The result of `runApriori` does not depend on the fuel that was enough. -/
theorem runApriori_fuel_unique (s : Int) (T : List (List α)) {f₁ f₂ : Nat}
    {r₁ r₂ : StdMap (List α)} (h₁ : runApriori f₁ s T = some r₁)
    (h₂ : runApriori f₂ s T = some r₂) : r₁ = r₂ := by
  unfold runApriori at h₁ h₂
  rcases Nat.le_total f₁ f₂ with hle | hle
  · have := levelLoop_fuel_le s T hle _ _ _ h₁
    rw [h₂] at this
    exact (Option.some.inj this).symm
  · have := levelLoop_fuel_le s T hle _ _ _ h₂
    rw [h₁] at this
    exact Option.some.inj this

/-- C3 (completeness).  For every database `T` of strictly ascending transactions
and every threshold `s ≥ 1`, `SequentialApriori::runApriori` returns, and every
non-empty strictly ascending itemset `X` whose support in `T` (the number of
transactions containing all items of `X`) is at least `s` is a key of the
returned map: neither the join without subset pruning nor the early loop exits
omit a frequent itemset. -/
theorem runApriori_complete (T : List (List α)) (s : Int)
    (hT : ∀ t ∈ T, t.Pairwise (· < ·)) (hs : 1 ≤ s) :
    (∃ fuel r, runApriori fuel s T = some r) ∧
      ∀ fuel r, runApriori fuel s T = some r →
        ∀ X : List α, X ≠ [] → X.Pairwise (· < ·) → s ≤ (support T X : Int) → X ∈ keys r := by
  refine ⟨⟨_, runApriori_terminates s T⟩, ?_⟩
  intro fuel r h
  exact (runApriori_resultSpec s hT fuel r h).complete hs

/-- Instance of C3 on the database `[[1,2],[1,2,3],[1],[2,3]]` with threshold 2. -/
theorem runApriori_complete_witness :
    (∃ fuel r, runApriori fuel 2 ([[1, 2], [1, 2, 3], [1], [2, 3]] : List (List Nat)) = some r) ∧
      ∀ fuel r, runApriori fuel 2 ([[1, 2], [1, 2, 3], [1], [2, 3]] : List (List Nat)) = some r →
        ∀ X : List Nat, X ≠ [] → X.Pairwise (· < ·) →
          (2 : Int) ≤ (support [[1, 2], [1, 2, 3], [1], [2, 3]] X : Int) → X ∈ keys r :=
  runApriori_complete [[1, 2], [1, 2, 3], [1], [2, 3]] 2 (by decide) (by decide)

/-- C4 (soundness).  For every database `T` of strictly ascending transactions and
every threshold `s`, `SequentialApriori::runApriori` returns, and every entry
`(X, n)` of the returned map has `X` non-empty, `n` equal to the number of
transactions of `T` that contain every item of `X`, and `n ≥ s`. -/
theorem runApriori_sound (T : List (List α)) (s : Int)
    (hT : ∀ t ∈ T, t.Pairwise (· < ·)) :
    (∃ fuel r, runApriori fuel s T = some r) ∧
      ∀ fuel r, runApriori fuel s T = some r →
        ∀ X n, (X, n) ∈ r → X ≠ [] ∧ n = (support T X : Int) ∧ s ≤ n := by
  refine ⟨⟨_, runApriori_terminates s T⟩, ?_⟩
  intro fuel r h X n hmem
  obtain ⟨h1, _, h3, h4⟩ := (runApriori_resultSpec s hT fuel r h).sound X n hmem
  exact ⟨h1, h3, h4⟩

/-- Instance of C4 on the database `[[1,2],[1,2,3],[1],[2,3]]` with threshold 0. -/
theorem runApriori_sound_witness :
    (∃ fuel r, runApriori fuel 0 ([[1, 2], [1, 2, 3], [1], [2, 3]] : List (List Nat)) = some r) ∧
      ∀ fuel r, runApriori fuel 0 ([[1, 2], [1, 2, 3], [1], [2, 3]] : List (List Nat)) = some r →
        ∀ X n, (X, n) ∈ r →
          X ≠ [] ∧ n = (support [[1, 2], [1, 2, 3], [1], [2, 3]] X : Int) ∧ 0 ≤ n :=
  runApriori_sound [[1, 2], [1, 2, 3], [1], [2, 3]] 0 (by decide)

/-- C9 (anti-monotonicity of the result).  For every database `T` of strictly
ascending transactions and every threshold `s ≥ 1`, `runApriori` returns, and if
`X` is a key of the returned map then every non-empty strictly ascending itemset
`Y` made of items of `X` is a key too; in particular every non-empty
sub-sequence of `X`. -/
theorem runApriori_downward_closed (T : List (List α)) (s : Int)
    (hT : ∀ t ∈ T, t.Pairwise (· < ·)) (hs : 1 ≤ s) :
    (∃ fuel r, runApriori fuel s T = some r) ∧
      ∀ fuel r, runApriori fuel s T = some r → ∀ X ∈ keys r,
        (∀ Y : List α, Y ≠ [] → Y.Pairwise (· < ·) → (∀ i ∈ Y, i ∈ X) → Y ∈ keys r) ∧
        (∀ Y : List α, Y ≠ [] → Y.Sublist X → Y ∈ keys r) := by
  refine ⟨⟨_, runApriori_terminates s T⟩, ?_⟩
  intro fuel r h X hX
  have spec := runApriori_resultSpec s hT fuel r h
  obtain ⟨n, hn⟩ := (mem_keys_iff X).1 hX
  obtain ⟨_, hsorted, hsup, hsn⟩ := spec.sound X n hn
  have main : ∀ Y : List α, Y ≠ [] → Y.Pairwise (· < ·) → (∀ i ∈ Y, i ∈ X) → Y ∈ keys r := by
    intro Y hne hY hsub
    apply spec.complete hs Y hne hY
    have : support T X ≤ support T Y := support_anti T hsub
    rw [hsup] at hsn
    exact le_trans hsn (by exact_mod_cast this)
  exact ⟨main, fun Y hne hsub => main Y hne (hsorted.sublist hsub) (fun i hi => hsub.subset hi)⟩

/-- Instance of C9 on the database `[[1,2],[1,2,3],[1],[2,3]]` with threshold 1. -/
theorem runApriori_downward_closed_witness :
    (∃ fuel r, runApriori fuel 1 ([[1, 2], [1, 2, 3], [1], [2, 3]] : List (List Nat)) = some r) ∧
      ∀ fuel r, runApriori fuel 1 ([[1, 2], [1, 2, 3], [1], [2, 3]] : List (List Nat)) = some r →
        ∀ X ∈ keys r,
          (∀ Y : List Nat, Y ≠ [] → Y.Pairwise (· < ·) → (∀ i ∈ Y, i ∈ X) → Y ∈ keys r) ∧
          (∀ Y : List Nat, Y ≠ [] → Y.Sublist X → Y ∈ keys r) :=
  runApriori_downward_closed [[1, 2], [1, 2, 3], [1], [2, 3]] 1 (by decide) (by decide)

/-- C10 (join definition).  For every level map `F` (a genuine map) whose keys all
have the same size `k ≥ 1`, `generateCandidates F` succeeds and its key set is
exactly the set of `A ++ [last B]` re-sorted, for keys `A` and `B` of `F` with `A`
before `B` in lexicographic order and the first `k-1` items of `A` equal to the
first `k-1` items of `B`. -/
theorem generateCandidates_keys (F : StdMap (List α)) (k : Nat) (hF : MapWF F) (hk : 1 ≤ k)
    (hlen : ∀ A ∈ keys F, A.length = k) :
    ∃ C, generateCandidates F = some C ∧
      ∀ X, X ∈ keys C ↔
        ∃ A B, A ∈ keys F ∧ B ∈ keys F ∧ A < B ∧ A.take (k - 1) = B.take (k - 1) ∧
          ∃ b, B.getLast? = some b ∧ X = sortItems (A ++ [b]) := by
  obtain ⟨C, e, _, hkeys⟩ := generateCandidates_spec hF hk hlen
  refine ⟨C, e, ?_⟩
  intro X
  rw [hkeys]
  constructor
  · rintro ⟨A, B, hA, hB, hlt, hpre, hb⟩
    rw [hlen A hA] at hpre
    exact ⟨A, B, hA, hB, hlt, hpre, hb⟩
  · rintro ⟨A, B, hA, hB, hlt, hpre, hb⟩
    refine ⟨A, B, hA, hB, hlt, ?_, hb⟩
    rw [hlen A hA]
    exact hpre

/-- Instance of C10 on the level-2 map with keys `[1,2]`, `[1,3]`, `[2,3]`. -/
theorem generateCandidates_keys_witness :
    ∃ C, generateCandidates ([([1, 2], 2), ([1, 3], 2), ([2, 3], 2)] : StdMap (List Nat)) = some C ∧
      ∀ X, X ∈ keys C ↔
        ∃ A B, A ∈ keys ([([1, 2], 2), ([1, 3], 2), ([2, 3], 2)] : StdMap (List Nat)) ∧
          B ∈ keys ([([1, 2], 2), ([1, 3], 2), ([2, 3], 2)] : StdMap (List Nat)) ∧ A < B ∧
          A.take (2 - 1) = B.take (2 - 1) ∧
          ∃ b, B.getLast? = some b ∧ X = sortItems (A ++ [b]) :=
  generateCandidates_keys [([1, 2], 2), ([1, 3], 2), ([2, 3], 2)] 2 (by decide) (by decide)
    (by decide)

/-- C8 (threshold boundary).  For every candidate-to-count map `m` and every
threshold `s`, `filterBySupport` returns a map that contains exactly the entries
of `m` whose count is at least `s`, with their counts unchanged and in the same
order; an entry with count exactly `s` is retained and an entry with count
`s - 1` is excluded. -/
theorem filterBySupport_threshold (m : StdMap (List α)) (s : Int) (hm : MapWF m) :
    MapWF (filterBySupport s m) ∧
      filterBySupport s m = m.filter (fun p => decide (s ≤ p.2)) ∧
      (∀ X n, (X, n) ∈ filterBySupport s m ↔ (X, n) ∈ m ∧ s ≤ n) ∧
      (∀ X, (X, s) ∈ m → (X, s) ∈ filterBySupport s m) ∧
      (∀ X, (X, s - 1) ∈ m → X ∉ keys (filterBySupport s m)) := by
  refine ⟨MapWF_filterBySupport hm s, filterBySupport_eq hm s, mem_filterBySupport hm s, ?_, ?_⟩
  · intro X h
    exact (mem_filterBySupport hm s X s).2 ⟨h, le_refl s⟩
  · intro X h hX
    obtain ⟨n, hn⟩ := (mem_keys_iff X).1 hX
    obtain ⟨hmem, hs⟩ := (mem_filterBySupport hm s X n).1 hn
    have e1 := (mapFind_eq_some_iff hm X n).2 hmem
    have e2 := (mapFind_eq_some_iff hm X (s - 1)).2 h
    rw [e1] at e2
    have := Option.some.inj e2
    omega

/-- Instance of C8 on a map with counts `1`, `2`, `3` and threshold `2`. -/
theorem filterBySupport_threshold_witness :
    MapWF (filterBySupport 2 ([([1], 3), ([2], 2), ([3], 1)] : StdMap (List Nat))) ∧
      filterBySupport 2 ([([1], 3), ([2], 2), ([3], 1)] : StdMap (List Nat)) =
        ([([1], 3), ([2], 2), ([3], 1)] : StdMap (List Nat)).filter (fun p => decide (2 ≤ p.2)) ∧
      (∀ X n, (X, n) ∈ filterBySupport 2 ([([1], 3), ([2], 2), ([3], 1)] : StdMap (List Nat)) ↔
        (X, n) ∈ ([([1], 3), ([2], 2), ([3], 1)] : StdMap (List Nat)) ∧ 2 ≤ n) ∧
      (∀ X, (X, 2) ∈ ([([1], 3), ([2], 2), ([3], 1)] : StdMap (List Nat)) →
        (X, 2) ∈ filterBySupport 2 ([([1], 3), ([2], 2), ([3], 1)] : StdMap (List Nat))) ∧
      (∀ X, (X, 2 - 1) ∈ ([([1], 3), ([2], 2), ([3], 1)] : StdMap (List Nat)) →
        X ∉ keys (filterBySupport 2 ([([1], 3), ([2], 2), ([3], 1)] : StdMap (List Nat)))) :=
  filterBySupport_threshold [([1], 3), ([2], 2), ([3], 1)] 2 (by decide)

end SequentialClaims

/-! ## The partition of the database -/

section Partition

theorem localStart_succ (N P i : Nat) :
    localStart N P (i + 1) = localStart N P i + localCount N P i := by
  unfold localStart localCount
  rw [Nat.add_mul, Nat.one_mul]
  by_cases h : i < N % P
  · rw [if_pos h, Nat.min_eq_left (by omega), Nat.min_eq_left (by omega)]; omega
  · rw [if_neg h, Nat.min_eq_right (by omega), Nat.min_eq_right (by omega)]; omega

theorem localStart_mono (N P : Nat) {i j : Nat} (h : i ≤ j) :
    localStart N P i ≤ localStart N P j := by
  induction h with
  | refl => exact le_refl _
  | step _ ih => rw [localStart_succ]; omega

theorem localStart_last (N P : Nat) (hP : 1 ≤ P) : localStart N P P = N := by
  unfold localStart
  have h1 : N % P < P := Nat.mod_lt _ (by omega)
  rw [Nat.min_eq_right (by omega)]
  exact Nat.div_add_mod N P

theorem exists_block_of_lt (N P x : Nat) :
    ∀ n, x < localStart N P n → ∃ i, i < n ∧ localStart N P i ≤ x ∧ x < localStart N P (i + 1) := by
  intro n
  induction n with
  | zero => intro h; simp [localStart] at h
  | succ n ih =>
    intro h
    by_cases hx : x < localStart N P n
    · obtain ⟨i, hi, h1, h2⟩ := ih hx
      exact ⟨i, by omega, h1, h2⟩
    · exact ⟨n, by omega, by omega, h⟩

/-- C5 (partition completeness).  For all `N` and `P ≥ 1`, with `count i = N/P +
(1 if i < N mod P else 0)` and `start i = i*(N/P) + min(i, N mod P)` as computed
by `loadAndDistributeData`: `start 0 = 0`, `start (i+1) = start i + count i`,
`start (P-1) + count (P-1) = N`; the index ranges `[start i, start i + count i)`
of the ranks `i < P` are pairwise disjoint and their union is `{0, ..., N-1}`. -/
theorem partition_complete (N P : Nat) (hP : 1 ≤ P) :
    localStart N P 0 = 0 ∧
    (∀ i, localStart N P (i + 1) = localStart N P i + localCount N P i) ∧
    localStart N P (P - 1) + localCount N P (P - 1) = N ∧
    (∀ i j, i < P → j < P → i ≠ j → ∀ x,
      ¬ ((localStart N P i ≤ x ∧ x < localStart N P i + localCount N P i) ∧
         (localStart N P j ≤ x ∧ x < localStart N P j + localCount N P j))) ∧
    (∀ x, x < N ↔
      ∃ i, i < P ∧ localStart N P i ≤ x ∧ x < localStart N P i + localCount N P i) := by
  have hlast : localStart N P (P - 1) + localCount N P (P - 1) = N := by
    rw [← localStart_succ, Nat.sub_add_cancel hP, localStart_last N P hP]
  refine ⟨by simp [localStart], localStart_succ N P, hlast, ?_, ?_⟩
  · intro i j _ _ hne x ⟨⟨h1, h2⟩, ⟨h3, h4⟩⟩
    rw [← localStart_succ] at h2 h4
    rcases Nat.lt_or_gt_of_ne hne with h | h
    · have := localStart_mono N P (show i + 1 ≤ j by omega)
      omega
    · have := localStart_mono N P (show j + 1 ≤ i by omega)
      omega
  · intro x
    constructor
    · intro hx
      rw [← localStart_last N P hP] at hx
      obtain ⟨i, hi, h1, h2⟩ := exists_block_of_lt N P x P hx
      rw [localStart_succ] at h2
      exact ⟨i, hi, h1, h2⟩
    · rintro ⟨i, hi, _, h2⟩
      rw [← localStart_succ] at h2
      have := localStart_mono N P (show i + 1 ≤ P by omega)
      rw [localStart_last N P hP] at this
      omega

/-- Instance of C5 for ten transactions on four processes. -/
theorem partition_complete_witness :
    localStart 10 4 0 = 0 ∧
    (∀ i, localStart 10 4 (i + 1) = localStart 10 4 i + localCount 10 4 i) ∧
    localStart 10 4 (4 - 1) + localCount 10 4 (4 - 1) = 10 ∧
    (∀ i j, i < 4 → j < 4 → i ≠ j → ∀ x,
      ¬ ((localStart 10 4 i ≤ x ∧ x < localStart 10 4 i + localCount 10 4 i) ∧
         (localStart 10 4 j ≤ x ∧ x < localStart 10 4 j + localCount 10 4 j))) ∧
    (∀ x, x < 10 ↔
      ∃ i, i < 4 ∧ localStart 10 4 i ≤ x ∧ x < localStart 10 4 i + localCount 10 4 i) :=
  partition_complete 10 4 (by decide)

theorem flatten_blocks_upto {β : Type} (T : List β) (P : Nat) (n : Nat) :
    ((List.range n).map (block T P)).flatten = T.take (localStart T.length P n) := by
  induction n with
  | zero => simp [localStart]
  | succ n ih =>
    rw [List.range_succ, List.map_append, List.flatten_append, ih, localStart_succ]
    simp only [List.map_cons, List.map_nil, List.flatten_cons, List.flatten_nil,
      List.append_nil, block]
    rw [List.take_add]

/-- The blocks of the ranks, one after the other, are the whole database. -/
theorem flatten_blocks {β : Type} (T : List β) (P : Nat) (hP : 1 ≤ P) :
    (blocks T P).flatten = T := by
  unfold blocks
  rw [flatten_blocks_upto, localStart_last _ _ hP, List.take_length]

theorem length_blocks {β : Type} (T : List β) (P : Nat) : (blocks T P).length = P := by
  simp [blocks]

end Partition

/-! ## Aggregation of the local supports -/

section Aggregation

theorem sum_supportCount_blocks {α : Type} [LinearOrder α] (bs : List (List (List α)))
    (c : List α) : (bs.map (fun b => supportCount b c)).sum = supportCount bs.flatten c := by
  induction bs with
  | nil => simp [supportCount]
  | cons b bs ih => simp [supportCount_append, ih]

theorem aggregateLoop_eq (bs : List (List (List Str))) (C : StdMap (List Str))
    (m : List Str → Int) (g : StdMap (List Str)) :
    aggregateLoop (C.map (fun p => (p.1, m p.1)))
        (bs.map (fun b => C.map (fun p => (p.1, supportCount b p.1)))) g =
      C.foldl (fun g p => mapUpd p.1 (fun _ => supportCount bs.flatten p.1) g) g := by
  induction C generalizing g with
  | nil => simp [aggregateLoop]
  | cons p C ih =>
    simp only [List.map_cons, aggregateLoop, List.map_map, List.foldl_cons]
    have h1 : (List.tail ∘ fun b => (p.1, supportCount b p.1) ::
        List.map (fun p => (p.1, supportCount b p.1)) C) =
        fun b => C.map (fun p => (p.1, supportCount b p.1)) := by
      funext b; simp
    have h2 : (headCount ∘ fun b => (p.1, supportCount b p.1) ::
        List.map (fun p => (p.1, supportCount b p.1)) C) =
        fun b => supportCount b p.1 := by
      funext b; simp [headCount]
    rw [h1, h2, sum_supportCount_blocks, ih]

theorem aggregateSupport_countLocal (bs : List (List (List Str))) {C : StdMap (List Str)}
    (hC : MapWF C) (b : List (List Str)) :
    aggregateSupport (bs.map (fun b => countLocalSupport b C)) (countLocalSupport b C) =
      some (countSupport bs.flatten C) := by
  unfold aggregateSupport countLocalSupport
  have hlen : ((bs.map (fun b => countSupport b C)).all
      (fun l => l.length == (countSupport b C).length)) = true := by
    rw [List.all_eq_true]
    intro l hl
    obtain ⟨b', _, rfl⟩ := List.mem_map.1 hl
    simp [countSupport_eq _ hC]
  rw [if_pos hlen]
  congr 1
  have e : (bs.map (fun b => countSupport b C)) =
      bs.map (fun b => C.map (fun p => (p.1, supportCount b p.1))) := by
    apply List.map_congr_left
    intro b' _
    exact countSupport_eq b' hC
  rw [e, countSupport_eq b hC, aggregateLoop_eq bs C (fun X => supportCount b X) []]
  rfl

/-- C6 (aggregator invariant).  For every candidate map `C`, every database `T`
and every `P ≥ 1`: on every process `aggregateSupport`, applied to the
`countLocalSupport` maps of the `P` blocks of `T`, returns the map
`SequentialApriori::countSupport` computes on the whole `T`; it has the keys of
`C`, and the value of each candidate `c` is the sum over the blocks of the
number of block transactions `t` with `isSubset(c, t)`, which is the number of
such transactions in `T`. -/
theorem aggregateSupport_global (C : StdMap (List Str)) (T : List (List Str)) (P : Nat)
    (hC : MapWF C) (hP : 1 ≤ P) :
    (∀ b ∈ blocks T P,
      aggregateSupport ((blocks T P).map (fun b => countLocalSupport b C))
        (countLocalSupport b C) = some (countSupport T C)) ∧
    keys (countSupport T C) = keys C ∧
    ∀ c n, (c, n) ∈ countSupport T C →
      n = ((blocks T P).map (fun b => (b.countP (fun t => isSubset c t) : Int))).sum ∧
      n = (T.countP (fun t => isSubset c t) : Int) := by
  refine ⟨?_, keys_countSupport T hC, ?_⟩
  · intro b _
    rw [aggregateSupport_countLocal _ hC, flatten_blocks T P hP]
  · intro c n h
    rw [countSupport_eq T hC] at h
    obtain ⟨p, _, hp⟩ := List.mem_map.1 h
    simp only [Prod.mk.injEq] at hp
    obtain ⟨rfl, rfl⟩ := hp
    refine ⟨?_, supportCount_eq T p.1⟩
    have := sum_supportCount_blocks (blocks T P) p.1
    rw [flatten_blocks T P hP] at this
    rw [← this]
    congr 1
    apply List.map_congr_left
    intro b _
    exact supportCount_eq b p.1

end Aggregation

/-! ## The shared-memory backend computes what the sequential one does -/

section ParallelLemmas

variable {α : Type} [LinearOrder α]

theorem sum_map_ite_eq {M : Type} [AddCommMonoid M] (order : List Nat) (a : Nat) (c : M)
    (g : Nat → M) :
    (order.map (fun t => if a = t then c + g t else g t)).sum =
      order.count a • c + (order.map g).sum := by
  induction order with
  | nil => simp
  | cons t o ih =>
    simp only [List.map_cons, List.sum_cons, ih, List.count_cons]
    by_cases h : a = t
    · subst h
      simp only [if_true, beq_self_eq_true, add_nsmul, one_nsmul]
      abel
    · have h' : (t == a) = false := by simpa using fun e => h e.symm
      simp only [h, if_false, h', Bool.false_eq_true, add_zero]
      abel

/-- Every iteration is executed by exactly one thread: a sum over the threads of
the sums over their shares is the sum over all iterations. -/
theorem sum_threadShare {β M : Type} [AddCommMonoid M] (f : β → M) {n : Nat} {sch : Sched}
    (h : SchedOK n sch) (l : List β) (i₀ : Nat) :
    (sch.order.map (fun t => ((threadShare sch.assign t i₀ l).map f).sum)).sum =
      (l.map f).sum := by
  induction l generalizing i₀ with
  | nil => simp [threadShare]
  | cons y l ih =>
    have hc : sch.order.count (sch.assign i₀) = 1 := by
      rw [h.2.count_eq]
      exact List.count_eq_one_of_mem (List.nodup_range n) (List.mem_range.2 (h.1 i₀))
    have e : (fun t => ((threadShare sch.assign t i₀ (y :: l)).map f).sum) =
        fun t => if sch.assign i₀ = t then
          f y + ((threadShare sch.assign t (i₀ + 1) l).map f).sum
          else ((threadShare sch.assign t (i₀ + 1) l).map f).sum := by
      funext t
      by_cases ht : sch.assign i₀ = t
      · simp [threadShare, ht]
      · simp [threadShare, ht]
    rw [e, sum_map_ite_eq, hc, one_nsmul, ih]
    simp

omit [LinearOrder α] in
theorem threadShare_subset {β : Type} (assign : Nat → Nat) (t : Nat) (l : List β) (i₀ : Nat) :
    ∀ x ∈ threadShare assign t i₀ l, x ∈ l := by
  induction l generalizing i₀ with
  | nil => intro x hx; simp [threadShare] at hx
  | cons y l ih =>
    intro x hx
    unfold threadShare at hx
    split at hx
    · rcases List.mem_cons.1 hx with rfl | hx
      · exact List.mem_cons_self _ _
      · exact List.mem_cons_of_mem _ (ih _ x hx)
    · exact List.mem_cons_of_mem _ (ih _ x hx)

omit [LinearOrder α] in
theorem mem_threadShare_of_mem {β : Type} {n : Nat} {sch : Sched} (h : SchedOK n sch)
    (l : List β) (i₀ : Nat) (x : β) (hx : x ∈ l) :
    ∃ t ∈ sch.order, x ∈ threadShare sch.assign t i₀ l := by
  induction l generalizing i₀ with
  | nil => simp at hx
  | cons y l ih =>
    rcases List.mem_cons.1 hx with rfl | hx
    · refine ⟨sch.assign i₀, ?_, by simp [threadShare]⟩
      exact h.2.mem_iff.2 (List.mem_range.2 (h.1 i₀))
    · obtain ⟨t, ht, hmem⟩ := ih (i₀ + 1) hx
      refine ⟨t, ht, ?_⟩
      unfold threadShare
      split
      · exact List.mem_cons_of_mem _ hmem
      · exact hmem

theorem mapFind_mergeCounts {lc : StdMap α} (hlc : MapWF lc) (ic : StdMap α) (x : α) :
    mapFind x (mergeCounts lc ic) =
      match mapFind x lc with
      | none => mapFind x ic
      | some v => some ((mapFind x ic).getD 0 + v) := by
  unfold mergeCounts
  induction lc generalizing ic with
  | nil => simp [mapFind]
  | cons p lc ih =>
    obtain ⟨k, v⟩ := p
    rw [MapWF_cons] at hlc
    simp only [List.foldl_cons]
    rw [ih hlc.2, mapFind_mapUpd]
    rcases lt_trichotomy x k with h | h | h
    · have hn : mapFind x lc = none :=
        mapFind_eq_none_of_lt (fun y hy => h.trans (hlc.1 y hy))
      simp [mapFind, h, hn, ne_of_lt h]
    · subst h
      have hn : mapFind x lc = none := mapFind_eq_none_of_lt hlc.1
      simp [mapFind, hn]
    · simp [mapFind, h, not_lt_of_gt h, ne_of_gt h]

theorem MapWF_mergeCounts (lc : StdMap α) {ic : StdMap α} (h : MapWF ic) :
    MapWF (mergeCounts lc ic) := by
  unfold mergeCounts
  induction lc generalizing ic with
  | nil => exact h
  | cons p lc ih => exact ih (MapWF_mapUpd _ _ h)

theorem mergeCounts_fold (T : List (List α)) (assign : Nat → Nat) (x : α) (o : List Nat) :
    ∀ (ic : StdMap α) (c : Nat), MapWF ic →
      mapFind x ic = (if c = 0 then none else some (c : Int)) →
      MapWF (o.foldl (fun ic t => mergeCounts (countItems (threadShare assign t 0 T)) ic) ic) ∧
      mapFind x (o.foldl (fun ic t => mergeCounts (countItems (threadShare assign t 0 T)) ic) ic) =
        (if c + (o.map (fun t => ((threadShare assign t 0 T).map (List.count x)).sum)).sum = 0
          then none
          else some ((c + (o.map
            (fun t => ((threadShare assign t 0 T).map (List.count x)).sum)).sum : Nat) : Int)) := by
  induction o with
  | nil => intro ic c hwf h; simpa using ⟨hwf, h⟩
  | cons t o ih =>
    intro ic c hwf h
    simp only [List.foldl_cons, List.map_cons, List.sum_cons]
    have hstep : mapFind x (mergeCounts (countItems (threadShare assign t 0 T)) ic) =
        (if c + ((threadShare assign t 0 T).map (List.count x)).sum = 0 then none
         else some ((c + ((threadShare assign t 0 T).map (List.count x)).sum : Nat) : Int)) := by
      rw [mapFind_mergeCounts (MapWF_countItems _), mapFind_countItems, List.count_flatten, h]
      by_cases h0 : ((threadShare assign t 0 T).map (List.count x)).sum = 0
      · simp [h0]
      · by_cases hc : c = 0
        · simp [h0, hc]
        · simp [h0, hc]
    have := ih _ _ (MapWF_mergeCounts _ hwf) hstep
    simpa [Nat.add_assoc] using this

theorem MapWF_mergeCounts_fold (T : List (List α)) (assign : Nat → Nat) (o : List Nat)
    {ic : StdMap α} (h : MapWF ic) :
    MapWF (o.foldl (fun ic t => mergeCounts (countItems (threadShare assign t 0 T)) ic) ic) := by
  induction o generalizing ic with
  | nil => exact h
  | cons t o ih => exact ih (MapWF_mergeCounts _ h)

theorem mergedCounts_eq (T : List (List α)) {n : Nat} {sch : Sched} (h : SchedOK n sch) :
    sch.order.foldl (fun ic t => mergeCounts (countItems (threadShare sch.assign t 0 T)) ic) [] =
      countItems T := by
  apply map_ext (MapWF_mergeCounts_fold T sch.assign sch.order MapWF_nil) (MapWF_countItems T)
  intro x
  rw [(mergeCounts_fold T sch.assign x sch.order [] 0 MapWF_nil (by simp [mapFind])).2,
    sum_threadShare (List.count x) h T 0, mapFind_countItems, List.count_flatten]
  simp

theorem generateFrequent1ItemsetsP_eq (s : Int) (T : List (List α)) {n : Nat} {sch : Sched}
    (h : SchedOK n sch) :
    generateFrequent1ItemsetsP s T sch = generateFrequent1Itemsets s T := by
  unfold generateFrequent1ItemsetsP generateFrequent1Itemsets
  simp only [mergedCounts_eq T h]

end ParallelLemmas

section ParallelCandidates

variable {α : Type} [LinearOrder α]

omit [LinearOrder α] in
theorem mem_suffixes_subset {β : Type} (l : List β) :
    ∀ suf ∈ suffixes l, ∀ x ∈ suf, x ∈ l := by
  induction l with
  | nil => intro suf h; simp [suffixes] at h
  | cons y l ih =>
    intro suf h x hx
    simp only [suffixes, List.mem_cons] at h
    rcases h with rfl | h
    · exact hx
    · exact List.mem_cons_of_mem _ (ih suf h x hx)

omit [LinearOrder α] in
theorem pair_sublist_iff_suffixes (l : List (List α)) (A B : List α) :
    [A, B].Sublist l ↔ ∃ rest, (A :: rest) ∈ suffixes l ∧ B ∈ rest := by
  induction l with
  | nil => simp [suffixes]
  | cons A₀ l ih =>
    rw [pair_sublist_cons, ih]
    simp only [suffixes, List.mem_cons, List.cons.injEq]
    constructor
    · rintro (⟨rfl, h⟩ | ⟨rest, h1, h2⟩)
      · exact ⟨l, Or.inl ⟨rfl, rfl⟩, h⟩
      · exact ⟨rest, Or.inr h1, h2⟩
    · rintro ⟨rest, (⟨rfl, rfl⟩ | h1), h2⟩
      · exact Or.inl ⟨rfl, h2⟩
      · exact Or.inr ⟨rest, h1, h2⟩

theorem threadLoop_spec {k : Nat} (hk : 1 ≤ k) (sufs : List (List (List α)))
    (hsufs : ∀ suf ∈ sufs, ∀ A ∈ suf, A.length = k)
    (C : StdMap (List α)) (hC : ZeroMap C) :
    ∃ C', threadLoop sufs C = some C' ∧ ZeroMap C' ∧
      ∀ X, X ∈ keys C' ↔
        X ∈ keys C ∨ ∃ A rest, (A :: rest) ∈ sufs ∧ ∃ B ∈ rest, Joins A B X := by
  induction sufs generalizing C with
  | nil => exact ⟨C, rfl, hC, by simp⟩
  | cons suf sufs ih =>
    have hrec := fun C hC => ih (fun s hs => hsufs s (List.mem_cons_of_mem _ hs)) C hC
    cases suf with
    | nil =>
      obtain ⟨C', e, z, hkeys⟩ := hrec C hC
      refine ⟨C', by simp [threadLoop, e], z, ?_⟩
      intro X
      rw [hkeys]
      simp
    | cons A rest =>
      have hA := hsufs (A :: rest) (List.mem_cons_self _ _)
      obtain ⟨C₁, e₁, z₁, k₁⟩ := innerLoop_spec (joinInto_bodySpec hk) A
        (hA A (List.mem_cons_self _ _)) rest (fun B hB => hA B (List.mem_cons_of_mem _ hB)) C hC
      obtain ⟨C₂, e₂, z₂, k₂⟩ := hrec C₁ z₁
      refine ⟨C₂, by simp [threadLoop, e₁, e₂], z₂, ?_⟩
      intro X
      rw [k₂, k₁]
      simp only [List.mem_cons, List.cons.injEq]
      constructor
      · rintro ((h | ⟨B, hB, hj⟩) | ⟨A', rest', hmem, hj⟩)
        · exact Or.inl h
        · exact Or.inr ⟨A, rest, Or.inl ⟨rfl, rfl⟩, B, hB, hj⟩
        · exact Or.inr ⟨A', rest', Or.inr hmem, hj⟩
      · rintro (h | ⟨A', rest', (⟨rfl, rfl⟩ | hmem), hj⟩)
        · exact Or.inl (Or.inl h)
        · exact Or.inl (Or.inr hj)
        · exact Or.inr ⟨A', rest', hmem, hj⟩

theorem mergeCandidates_spec (lc : StdMap (List α)) {C : StdMap (List α)} (hC : ZeroMap C) :
    ZeroMap (mergeCandidates lc C) ∧
      ∀ X, X ∈ keys (mergeCandidates lc C) ↔ X ∈ keys lc ∨ X ∈ keys C := by
  unfold mergeCandidates
  induction lc generalizing C with
  | nil => exact ⟨hC, by simp [keys]⟩
  | cons p lc ih =>
    obtain ⟨z, hkeys⟩ := ih (ZeroMap_mapUpd p.1 hC)
    refine ⟨z, ?_⟩
    intro X
    simp only [List.foldl_cons]
    rw [hkeys, mem_keys_mapUpd]
    simp only [keys, List.map_cons, List.mem_cons]
    tauto

theorem generateCandidatesP_fold {k : Nat} (hk : 1 ≤ k) (l : List (List α))
    (hl : ∀ A ∈ l, A.length = k) (assign : Nat → Nat) (o : List Nat) :
    ∀ C, ZeroMap C →
      ∃ C', o.foldl
          (fun acc t =>
            match acc, threadLoop (threadShare assign t 0 (suffixes l)) [] with
            | some candidates, some local_candidates =>
              some (mergeCandidates local_candidates candidates)
            | _, _ => none)
          (some C) = some C' ∧ ZeroMap C' ∧
        ∀ X, X ∈ keys C' ↔ X ∈ keys C ∨
          ∃ t ∈ o, ∃ A rest, (A :: rest) ∈ threadShare assign t 0 (suffixes l) ∧
            ∃ B ∈ rest, Joins A B X := by
  induction o with
  | nil => intro C hC; exact ⟨C, rfl, hC, by simp⟩
  | cons t o ih =>
    intro C hC
    obtain ⟨L, eL, _, kL⟩ := threadLoop_spec hk (threadShare assign t 0 (suffixes l))
      (fun suf hs A hA =>
        hl A (mem_suffixes_subset l suf (threadShare_subset assign t _ 0 suf hs) A hA))
      [] ZeroMap_nil
    obtain ⟨zM, kM⟩ := mergeCandidates_spec L hC
    obtain ⟨C', e, z, hkeys⟩ := ih _ zM
    refine ⟨C', by simp only [List.foldl_cons, eL]; exact e, z, ?_⟩
    intro X
    rw [hkeys, kM, kL]
    simp only [keys, List.map_nil, List.not_mem_nil, false_or, List.mem_cons, exists_eq_or_imp]
    constructor
    · rintro ((h | h) | h)
      · exact Or.inr (Or.inl h)
      · exact Or.inl h
      · exact Or.inr (Or.inr h)
    · rintro (h | h | h)
      · exact Or.inl (Or.inr h)
      · exact Or.inl (Or.inl h)
      · exact Or.inr h

theorem generateCandidatesP_eq {F : StdMap (List α)} {k : Nat} (hk : 1 ≤ k)
    (hlen : ∀ A ∈ keys F, A.length = k) {n : Nat} {sch : Sched} (h : SchedOK n sch) :
    generateCandidatesP F sch = generateCandidates F := by
  obtain ⟨C, e, z, hkeys⟩ := outerLoop_spec (joinInto_bodySpec hk) (keys F) hlen [] ZeroMap_nil
  obtain ⟨C', e', z', hkeys'⟩ :=
    generateCandidatesP_fold hk (keys F) hlen sch.assign sch.order [] ZeroMap_nil
  unfold generateCandidatesP generateCandidates
  rw [e, e']
  congr 1
  apply zeroMap_ext z' z
  intro X
  rw [hkeys, hkeys']
  simp only [keys, List.map_nil, List.not_mem_nil, false_or]
  constructor
  · rintro ⟨t, _, A, rest, hmem, B, hB, hj⟩
    exact ⟨A, B, (pair_sublist_iff_suffixes _ A B).2
      ⟨rest, threadShare_subset _ _ _ _ _ hmem, hB⟩, hj⟩
  · rintro ⟨A, B, hs, hj⟩
    obtain ⟨rest, hmem, hB⟩ := (pair_sublist_iff_suffixes _ A B).1 hs
    obtain ⟨t, ht, hmem'⟩ := mem_threadShare_of_mem h _ 0 _ hmem
    exact ⟨t, ht, A, rest, hmem', B, hB, hj⟩

theorem mapFind_foldl_assign {K : Type} [LinearOrder K] (g : K → Int) (l : List K)
    (m : StdMap K) (x : K) :
    mapFind x (l.foldl (fun sc c => mapUpd c (fun _ => g c) sc) m) =
      if x ∈ l then some (g x) else mapFind x m := by
  induction l generalizing m with
  | nil => simp
  | cons c l ih =>
    simp only [List.foldl_cons]
    rw [ih, mapFind_mapUpd]
    by_cases h1 : x ∈ l
    · simp [h1]
    · by_cases h2 : x = c
      · subst h2; simp [h1]
      · simp [h1, h2]

theorem MapWF_foldl_assign {K : Type} [LinearOrder K] (g : K → Int) (l : List K)
    {m : StdMap K} (h : MapWF m) :
    MapWF (l.foldl (fun sc c => mapUpd c (fun _ => g c) sc) m) := by
  induction l generalizing m with
  | nil => exact h
  | cons c l ih => exact ih (MapWF_mapUpd _ _ h)

theorem supportCount_eq_sum (T : List (List α)) (X : List α) :
    supportCount T X = (T.map (fun t => if isSubset X t then (1 : Int) else 0)).sum := by
  induction T with
  | nil => simp [supportCount]
  | cons t T ih =>
    rw [show t :: T = [t] ++ T from rfl, supportCount_append, ih]
    simp [supportCount]

theorem countSupportP_eq (T : List (List α)) {n : Nat} {C : StdMap (List α)} {sch : Sched}
    (h : SchedOK n sch) :
    countSupportP T n C sch = some (countSupport T C) := by
  unfold countSupportP
  have hall : ((List.range T.length).all (fun i => decide (sch.assign i < n))) = true := by
    rw [List.all_eq_true]
    intro i _
    simpa using h.1 i
  simp only [hall, if_true]
  congr 1
  have hsum : ∀ c : List α,
      ((List.range n).map (fun t => supportCount (threadShare sch.assign t 0 T) c)).sum =
        supportCount T c := by
    intro c
    have := sum_threadShare (fun t => if isSubset c t then (1 : Int) else 0) h T 0
    rw [← supportCount_eq_sum] at this
    simp only [← supportCount_eq_sum] at this
    rw [← this]
    exact (h.2.map _).sum_eq.symm
  simp only [hsum]
  have e1 : countSupport T C =
      (keys C).foldl (fun sc c => mapUpd c (fun _ => supportCount T c) sc) [] := by
    unfold countSupport keys
    rw [List.foldl_map]
  have e0 : C.foldl (fun sc p => mapUpd p.1 (fun _ => (0 : Int)) sc) [] =
      (keys C).foldl (fun sc c => mapUpd c (fun _ => (0 : Int)) sc) [] := by
    unfold keys
    rw [List.foldl_map]
  rw [e1, e0]
  apply map_ext
  · exact MapWF_foldl_assign _ _ (MapWF_foldl_assign _ _ MapWF_nil)
  · exact MapWF_foldl_assign _ _ MapWF_nil
  · intro X
    rw [mapFind_foldl_assign, mapFind_foldl_assign, mapFind_foldl_assign]
    by_cases hX : X ∈ keys C
    · simp [hX]
    · simp [hX]

theorem levelLoopP_eq (s : Int) (T : List (List α)) (n : Nat) (schedC schedS : Nat → Sched)
    (hC : ∀ k, SchedOK n (schedC k)) (hS : ∀ k, SchedOK n (schedS k)) (fuel : Nat) :
    ∀ (j k : Nat) (fk all : StdMap (List α)), Shape T k fk → 1 ≤ k →
      levelLoopP s T n schedC schedS fuel j fk all = levelLoop s T fuel fk all := by
  induction fuel with
  | zero => intro j k fk all _ _; rfl
  | succ f ih =>
    intro j k fk all hsh hk
    obtain ⟨C, e, _, hCs, _⟩ := shape_candidates hsh hk
    unfold levelLoopP levelLoop
    rw [generateCandidatesP_eq hk hsh.len (hC j), e]
    by_cases h1 : fk.isEmpty = true
    · simp [h1]
    · by_cases h2 : C.isEmpty = true
      · simp [h1, h2]
      · simp only [h1, h2, Bool.false_eq_true, if_false, countSupportP_eq T (hS j)]
        exact ih (j + 1) (k + 1) _ _ (shape_filter_count s hCs) (by omega)

end ParallelCandidates

/-! ## The distributed level 1 -/

section DistributedLevel1

theorem setInsert_of_lt {K : Type} [LinearOrder K] {x : K} {s : List K}
    (h : ∀ y ∈ s, y < x) : setInsert x s = s ++ [x] := by
  induction s with
  | nil => rfl
  | cons y s ih =>
    have hy : y < x := h y (List.mem_cons_self _ _)
    simp only [setInsert, not_lt_of_gt hy, hy, if_true, if_false, List.cons_append]
    rw [ih (fun z hz => h z (List.mem_cons_of_mem _ hz))]

theorem foldl_setInsert_sorted {K : Type} [LinearOrder K] (l acc : List K)
    (h : (acc ++ l).Pairwise (· < ·)) :
    l.foldl (fun s x => setInsert x s) acc = acc ++ l := by
  induction l generalizing acc with
  | nil => simp
  | cons x l ih =>
    simp only [List.foldl_cons]
    have h' := h
    rw [List.pairwise_append] at h'
    rw [setInsert_of_lt (fun y hy => h'.2.2 y hy x (List.mem_cons_self _ _)), ih]
    · simp
    · simpa using h

theorem mem_setInsert {K : Type} [LinearOrder K] (x y : K) (s : List K) :
    y ∈ setInsert x s ↔ y = x ∨ y ∈ s := by
  induction s with
  | nil => simp [setInsert]
  | cons z s ih =>
    rcases lt_trichotomy x z with h | h | h
    · simp [setInsert, h]
    · subst h
      simp [setInsert]
    · simp only [setInsert, not_lt_of_gt h, h, if_true, if_false, List.mem_cons, ih]
      tauto

theorem sorted_setInsert {K : Type} [LinearOrder K] (x : K) {s : List K}
    (hs : s.Pairwise (· < ·)) : (setInsert x s).Pairwise (· < ·) := by
  induction s with
  | nil => simp [setInsert]
  | cons z s ih =>
    rw [List.pairwise_cons] at hs
    rcases lt_trichotomy x z with h | h | h
    · simp only [setInsert, h, if_true]
      rw [List.pairwise_cons]
      refine ⟨?_, List.pairwise_cons.2 hs⟩
      intro y hy
      rcases List.mem_cons.1 hy with rfl | hy
      · exact h
      · exact h.trans (hs.1 y hy)
    · subst h
      simp only [setInsert, lt_irrefl, if_false]
      exact List.pairwise_cons.2 hs
    · simp only [setInsert, not_lt_of_gt h, h, if_true, if_false]
      rw [List.pairwise_cons]
      refine ⟨?_, ih hs.2⟩
      intro y hy
      rcases (mem_setInsert x y s).1 hy with rfl | hy
      · exact h
      · exact hs.1 y hy

/-- Reading a comma-free text: the characters join the item being read. -/
theorem getlineLoop_append (x : Str) (hx : ',' ∉ x) (cur rest : Str) :
    getlineLoop cur (x ++ rest) = getlineLoop (cur ++ x) rest := by
  induction x generalizing cur with
  | nil => simp
  | cons c x ih =>
    have hc : c ≠ ',' := fun e => hx (e ▸ List.mem_cons_self _ _)
    have hx' : ',' ∉ x := fun h => hx (List.mem_cons_of_mem _ h)
    rw [List.cons_append, getlineLoop, if_neg hc, ih hx']
    simp

/-- Splitting the comma-joined text of non-empty comma-free items gives the items back. -/
theorem getlineLoop_joinComma (items : List Str)
    (h : ∀ x ∈ items, x ≠ [] ∧ ',' ∉ x) : getlineLoop [] (joinComma items) = items := by
  induction items with
  | nil => simp [joinComma, getlineLoop]
  | cons x items ih =>
    have hx := h x (List.mem_cons_self _ _)
    have ih' := ih (fun y hy => h y (List.mem_cons_of_mem _ hy))
    cases items with
    | nil =>
      have := getlineLoop_append x hx.2 [] []
      simp only [List.append_nil, List.nil_append] at this
      rw [joinComma, this]
      cases x with
      | nil => exact absurd rfl hx.1
      | cons c x => simp [getlineLoop]
    | cons y items =>
      rw [joinComma, getlineLoop_append x hx.2, List.nil_append]
      simp only [getlineLoop, if_true]
      rw [ih']

theorem parseGathered_fold (strs : List Str) (pre post : Str) (all : List Str) :
    ((displacements pre.length (strs.map List.length)).zip (strs.map List.length)).foldl
      (fun all dl =>
        if dl.2 > 0 then
          (getlineLoop [] (((pre ++ strs.flatten ++ post).drop dl.1).take dl.2)).foldl
            (fun all item => if item.isEmpty then all else setInsert item all) all
        else all) all =
    strs.foldl
      (fun all str =>
        (getlineLoop [] str).foldl
          (fun all item => if item.isEmpty then all else setInsert item all) all) all := by
  induction strs generalizing pre all with
  | nil => simp [displacements]
  | cons str strs ih =>
    simp only [List.map_cons, displacements, List.zip_cons_cons, List.foldl_cons,
      List.flatten_cons]
    have e1 : ((pre ++ (str ++ strs.flatten) ++ post).drop pre.length).take str.length = str := by
      rw [List.append_assoc, List.drop_left, List.append_assoc, List.take_left]
    have e2 : pre ++ (str ++ strs.flatten) ++ post = (pre ++ str) ++ strs.flatten ++ post := by
      simp
    rw [e1, e2]
    have e3 : pre.length + str.length = (pre ++ str).length := by simp
    rw [e3, ih]
    congr 1
    by_cases h : str.length > 0
    · rw [if_pos h]
    · rw [if_neg h]
      have : str = [] := by
        cases str with
        | nil => rfl
        | cons c s => simp at h
      subst this
      simp [getlineLoop]

end DistributedLevel1

section DistributedLevel1Main

theorem foldl_insert_spec (items : List Str) (hne : ∀ x ∈ items, x ≠ []) :
    ∀ all : List Str, all.Pairwise (· < ·) →
      (items.foldl (fun all item => if item.isEmpty then all else setInsert item all)
          all).Pairwise (· < ·) ∧
      ∀ y, y ∈ items.foldl (fun all item => if item.isEmpty then all else setInsert item all) all ↔
        y ∈ all ∨ y ∈ items := by
  induction items with
  | nil => intro all h; simpa using h
  | cons x items ih =>
    intro all h
    have hx : x.isEmpty = false := by
      have := hne x (List.mem_cons_self _ _)
      cases x with
      | nil => exact absurd rfl this
      | cons c x => rfl
    simp only [List.foldl_cons, hx, Bool.false_eq_true, if_false]
    obtain ⟨h1, h2⟩ := ih (fun y hy => hne y (List.mem_cons_of_mem _ hy)) _ (sorted_setInsert x h)
    refine ⟨h1, ?_⟩
    intro y
    rw [h2, mem_setInsert, List.mem_cons]
    tauto

theorem foldl_keys_spec (locals : List (StdMap Str))
    (hne : ∀ lc ∈ locals, ∀ x ∈ keys lc, x ≠ []) :
    ∀ all : List Str, all.Pairwise (· < ·) →
      (locals.foldl (fun all lc => (keys lc).foldl
          (fun all item => if item.isEmpty then all else setInsert item all) all)
        all).Pairwise (· < ·) ∧
      ∀ y, y ∈ locals.foldl (fun all lc => (keys lc).foldl
          (fun all item => if item.isEmpty then all else setInsert item all) all) all ↔
        y ∈ all ∨ ∃ lc ∈ locals, y ∈ keys lc := by
  induction locals with
  | nil => intro all h; simpa using h
  | cons lc locals ih =>
    intro all h
    obtain ⟨h1, h2⟩ := foldl_insert_spec (keys lc) (hne lc (List.mem_cons_self _ _)) all h
    obtain ⟨h3, h4⟩ := ih (fun l hl => hne l (List.mem_cons_of_mem _ hl)) _ h1
    refine ⟨h3, ?_⟩
    intro y
    simp only [List.foldl_cons]
    rw [h4, h2]
    simp only [List.mem_cons, exists_eq_or_imp]
    tauto

theorem mapFind_map_of_sorted {K : Type} [LinearOrder K] (g : K → Int) {U : List K}
    (hU : U.Pairwise (· < ·)) (x : K) :
    mapFind x (U.map (fun y => (y, g y))) = if x ∈ U then some (g x) else none := by
  induction U with
  | nil => simp [mapFind]
  | cons y U ih =>
    rw [List.pairwise_cons] at hU
    simp only [List.map_cons, mapFind, List.mem_cons]
    rcases lt_trichotomy x y with h | h | h
    · have : x ∉ U := fun hx => absurd (h.trans (hU.1 x hx)) (lt_irrefl _)
      simp [h, ne_of_lt h, this]
    · subst h
      simp
    · simp [h, not_lt_of_gt h, ne_of_gt h, ih hU.2]

theorem mem_keys_countItems {α : Type} [LinearOrder α] (T : List (List α)) (x : α) :
    x ∈ keys (countItems T) ↔ x ∈ T.flatten := by
  rw [mem_keys_iff]
  constructor
  · rintro ⟨n, hn⟩
    exact List.count_pos_iff.1 ((mem_countItems T x n).1 hn).2
  · intro hx
    exact ⟨_, (mem_countItems T x _).2 ⟨rfl, List.count_pos_iff.2 hx⟩⟩

theorem keys_countItems_subset {α : Type} [LinearOrder α] (T : List (List α)) :
    ∀ x ∈ keys (countItems T), x ∈ T.flatten :=
  fun x hx => (mem_keys_countItems T x).1 hx

theorem sum_local_counts {α : Type} [LinearOrder α] (bs : List (List (List α))) (x : α) :
    ((bs.map countItems).map (fun lc => (mapFind x lc).getD 0)).sum =
      (bs.flatten.flatten.count x : Int) := by
  induction bs with
  | nil => simp
  | cons b bs ih =>
    simp only [List.map_cons, List.sum_cons, List.flatten_cons, List.flatten_append,
      List.count_append, ih, mapFind_countItems]
    by_cases h0 : b.flatten.count x = 0
    · simp [h0]
    · simp [h0]

/-- A strictly ascending vocabulary holding exactly the items of `T`, each with
its number of occurrences, is the item-count map of `T`. -/
theorem countItems_eq_map {α : Type} [LinearOrder α] (T : List (List α)) {U : List α}
    (hsorted : U.Pairwise (· < ·)) (hmem : ∀ x, x ∈ U ↔ x ∈ T.flatten) :
    countItems T = U.map (fun x => (x, (T.flatten.count x : Int))) := by
  apply map_ext (MapWF_countItems _)
  · unfold MapWF keys
    rw [List.map_map]
    simpa [Function.comp_def] using hsorted
  · intro x
    rw [mapFind_countItems, mapFind_map_of_sorted _ hsorted]
    by_cases hx : x ∈ U
    · have : T.flatten.count x ≠ 0 :=
        Nat.pos_iff_ne_zero.1 (List.count_pos_iff.2 ((hmem x).1 hx))
      simp [hx, this]
    · have : T.flatten.count x = 0 := by
        rw [List.count_eq_zero]
        exact fun h => hx ((hmem x).2 h)
      simp [hx, this]

theorem filter_vocabulary_eq {α : Type} [LinearOrder α] (s : Int) (T : List (List α))
    {U : List α} (hsorted : U.Pairwise (· < ·)) (hmem : ∀ x, x ∈ U ↔ x ∈ T.flatten) :
    U.foldl
      (fun g item =>
        if (T.flatten.count item : Int) ≥ s then
          mapUpd [item] (fun _ => (T.flatten.count item : Int)) g
        else g) [] = generateFrequent1Itemsets s T := by
  have hfold := foldl_mapUpd_sorted (fun x : α => [x])
    (fun x => (T.flatten.count x : Int))
    (fun x => decide (s ≤ (T.flatten.count x : Int))) U ([] : StdMap (List α)) (by
      simp only [keys, List.map_nil, List.nil_append]
      rw [List.pairwise_map]
      exact hsorted.imp (fun h => singleton_lt_singleton.2 h))
  simp only [decide_eq_true_eq, List.nil_append] at hfold
  simp only [ge_iff_le]
  rw [hfold]
  unfold generateFrequent1Itemsets
  rw [filterItems_eq (MapWF_countItems _), countItems_eq_map T hsorted hmem, List.filter_map,
    List.map_map]
  rfl

/-- On comma-free non-empty items the gathered vocabulary and the reduced counts
of `aggregateC1` are the item counts of the whole database. -/
theorem aggregateC1_eq (s : Int) (bs : List (List (List Str)))
    (hitems : ∀ b ∈ bs, ∀ t ∈ b, ∀ x ∈ t, x ≠ [] ∧ ',' ∉ x) :
    aggregateC1 s (bs.map generateLocalC1) = generateFrequent1Itemsets s bs.flatten := by
  have hkeys : ∀ lc ∈ bs.map generateLocalC1, ∀ x ∈ keys lc, x ≠ [] ∧ ',' ∉ x := by
    intro lc hlc x hx
    obtain ⟨b, hb, rfl⟩ := List.mem_map.1 hlc
    have := keys_countItems_subset b x hx
    obtain ⟨t, ht, hxt⟩ := List.mem_flatten.1 this
    exact hitems b hb t ht x hxt
  have hwf : ∀ lc ∈ bs.map generateLocalC1, MapWF lc := by
    intro lc hlc
    obtain ⟨b, _, rfl⟩ := List.mem_map.1 hlc
    exact MapWF_countItems b
  generalize hU : (bs.map generateLocalC1).foldl (fun all lc => (keys lc).foldl
      (fun all item => if item.isEmpty then all else setInsert item all) all) [] = U
  have hparse : parseGathered
      ((bs.map generateLocalC1).map
        (fun lc => joinComma ((keys lc).foldl (fun s x => setInsert x s) []))).flatten
      ((displacements 0 (((bs.map generateLocalC1).map
        (fun lc => joinComma ((keys lc).foldl (fun s x => setInsert x s) []))).map
          List.length)).zip
        (((bs.map generateLocalC1).map
          (fun lc => joinComma ((keys lc).foldl (fun s x => setInsert x s) []))).map
            List.length)) = U := by
    unfold parseGathered
    have := parseGathered_fold ((bs.map generateLocalC1).map
        (fun lc => joinComma ((keys lc).foldl (fun s x => setInsert x s) []))) [] [] []
    simp only [List.length_nil, List.nil_append, List.append_nil] at this
    rw [this, List.foldl_map, ← hU]
    apply List.foldl_ext
    intro all lc hlc
    rw [foldl_setInsert_sorted _ _ (by simpa using hwf lc hlc), List.nil_append,
      getlineLoop_joinComma _ (hkeys lc hlc)]
  obtain ⟨hsorted, hmem⟩ := foldl_keys_spec (bs.map generateLocalC1)
    (fun lc hlc x hx => (hkeys lc hlc x hx).1) [] List.Pairwise.nil
  rw [hU] at hsorted hmem
  have hmem' : ∀ x, x ∈ U ↔ x ∈ bs.flatten.flatten := by
    intro x
    rw [hmem]
    simp only [List.not_mem_nil, false_or]
    constructor
    · rintro ⟨lc, hlc, hx⟩
      obtain ⟨b, hb, rfl⟩ := List.mem_map.1 hlc
      have := keys_countItems_subset b x hx
      obtain ⟨t, ht, hxt⟩ := List.mem_flatten.1 this
      exact List.mem_flatten.2 ⟨t, List.mem_flatten.2 ⟨b, hb, ht⟩, hxt⟩
    · intro hx
      obtain ⟨t, ht, hxt⟩ := List.mem_flatten.1 hx
      obtain ⟨b, hb, htb⟩ := List.mem_flatten.1 ht
      refine ⟨generateLocalC1 b, List.mem_map.2 ⟨b, hb, rfl⟩, ?_⟩
      exact (mem_keys_countItems b x).2 (List.mem_flatten.2 ⟨t, htb, hxt⟩)
  have hgc : ∀ x : Str, ((bs.map generateLocalC1).map (fun lc => (mapFind x lc).getD 0)).sum =
      ((bs.map countItems).map (fun lc => (mapFind x lc).getD 0)).sum := fun _ => rfl
  unfold aggregateC1
  simp only []
  rw [hparse]
  simp only [hgc, sum_local_counts]
  exact filter_vocabulary_eq s bs.flatten hsorted hmem'

end DistributedLevel1Main

/-! ## The distributed level loop follows the sequential one -/

section DistributedLoop

theorem all_map_const {β γ : Type} (bs : List β) (c : γ) (p : γ → Bool) :
    (bs.map (fun _ => c)).all p = (bs.isEmpty || p c) := by
  induction bs with
  | nil => rfl
  | cons b bs ih => cases bs <;> simp_all

theorem any_map_const {β γ : Type} (bs : List β) (c : γ) (p : γ → Bool) :
    (bs.map (fun _ => c)).any p = (!bs.isEmpty && p c) := by
  induction bs with
  | nil => rfl
  | cons b bs ih => cases bs <;> simp_all

theorem distLevelLoop_some (s : Int) (fuel : Nat) (bs : List (List (List Str)))
    (fk all : StdMap (List Str)) (c : StdMap (List Str)) (hc : c.isEmpty = true)
    (h : (if fk.isEmpty then some [] else generateCandidatesD fk) = some c) :
    distLevelLoop s (fuel + 1) (agreeing bs fk all) = some (agreeing bs fk all) := by
  have hc' : c = [] := by simpa using hc
  subst hc'
  unfold distLevelLoop agreeing
  simp only [List.map_map, Function.comp_def, procCandidates, h, any_map_const, all_map_const]
  simp

theorem distLevelLoop_step (s : Int) (fuel : Nat) (bs : List (List (List Str)))
    (hbs : bs ≠ []) (fk all C : StdMap (List Str)) (hfk : fk.isEmpty = false)
    (h : generateCandidatesD fk = some C) (hC : C.isEmpty = false) (hwf : MapWF C) :
    distLevelLoop s (fuel + 1) (agreeing bs fk all) =
      distLevelLoop s fuel
        (agreeing bs (filterBySupport s (countSupport bs.flatten C))
          (mergeInto (filterBySupport s (countSupport bs.flatten C)) all)) := by
  have hne : bs.isEmpty = false := by simpa using hbs
  have hlocals : List.zipWith (fun (p : Proc) c => countLocalSupport p.local_transactions c)
      (bs.map (fun b => (⟨b, fk, all⟩ : Proc)))
      (bs.map (fun _ => C)) = bs.map (fun b => countLocalSupport b C) := by
    rw [List.zipWith_map, List.zipWith_same]
  have hglobals : (bs.map (fun b => countLocalSupport b C)).map
      (aggregateSupport (bs.map (fun b => countLocalSupport b C))) =
      bs.map (fun _ => some (countSupport bs.flatten C)) := by
    rw [List.map_map]
    apply List.map_congr_left
    intro b _
    exact aggregateSupport_countLocal bs hwf b
  have hadv : List.zipWith (fun (p : Proc) (g : Option (StdMap (List Str))) =>
        procAdvance s p (g.getD []))
      (bs.map (fun b => (⟨b, fk, all⟩ : Proc)))
      (bs.map (fun _ => some (countSupport bs.flatten C))) =
      agreeing bs (filterBySupport s (countSupport bs.flatten C))
        (mergeInto (filterBySupport s (countSupport bs.flatten C)) all) := by
    rw [List.zipWith_map, List.zipWith_same]
    rfl
  rw [distLevelLoop]
  unfold agreeing
  simp only [List.map_map, Function.comp_def, procCandidates, hfk, Bool.false_eq_true,
    if_false, h, any_map_const, all_map_const, hne, Option.isNone_some, Option.getD_some, hC,
    Bool.not_false, Bool.and_false, Bool.or_false]
  simp only [hlocals, hglobals, any_map_const, hne, Option.isNone_some, Bool.and_false,
    Bool.false_eq_true, if_false, hadv]
  rfl

theorem distLevelLoop_none (s : Int) (bs : List (List (List Str)))
    (hbs : bs ≠ []) (fk all : StdMap (List Str)) (hfk : fk.isEmpty = false)
    (h : generateCandidatesD fk = none) (fuel : Nat) :
    distLevelLoop s (fuel + 1) (agreeing bs fk all) = none := by
  have hne : bs.isEmpty = false := by simpa using hbs
  unfold distLevelLoop agreeing
  simp only [List.map_map, Function.comp_def, procCandidates, hfk, Bool.false_eq_true,
    if_false, h, any_map_const, hne]
  simp

/-- Lockstep simulation: from agreeing processes the distributed loop returns
agreeing processes holding the sequential result, with the same fuel. -/
theorem distLevelLoop_eq (s : Int) (bs : List (List (List Str))) (hbs : bs ≠ [])
    (fuel : Nat) :
    ∀ (k : Nat) (fk all : StdMap (List Str)), Shape bs.flatten k fk → 1 ≤ k →
      (∀ r, levelLoop s bs.flatten fuel fk all = some r →
        ∃ fkf, distLevelLoop s fuel (agreeing bs fk all) = some (agreeing bs fkf r)) ∧
      (levelLoop s bs.flatten fuel fk all = none →
        distLevelLoop s fuel (agreeing bs fk all) = none) := by
  induction fuel with
  | zero =>
    intro k fk all _ _
    exact ⟨fun r h => by simp [levelLoop] at h, fun _ => rfl⟩
  | succ f ih =>
    intro k fk all hsh hk
    obtain ⟨C, e, zC, hCs, _⟩ := shape_candidates hsh hk
    have eD : generateCandidatesD fk = some C := by
      rw [generateCandidatesD_eq hk hsh.len, e]
    rw [levelLoop]
    by_cases h1 : fk.isEmpty = true
    · have hd := distLevelLoop_some s f bs fk all [] rfl (by simp [h1])
      simp only [h1, if_true]
      refine ⟨fun r h => ⟨fk, ?_⟩, fun h => by simp at h⟩
      rw [hd]
      cases h
      rfl
    · have h1' : fk.isEmpty = false := by simpa using h1
      simp only [h1, Bool.false_eq_true, if_false, e]
      by_cases h2 : C.isEmpty = true
      · have hd := distLevelLoop_some s f bs fk all C h2 (by simp [h1', eD])
        simp only [h2, if_true]
        refine ⟨fun r h => ⟨fk, ?_⟩, fun h => by simp at h⟩
        rw [hd]
        cases h
        rfl
      · have h2' : C.isEmpty = false := by simpa using h2
        simp only [h2, Bool.false_eq_true, if_false]
        rw [distLevelLoop_step s f bs hbs fk all C h1' eD h2' zC.1]
        exact ih (k + 1) _ _ (shape_filter_count s hCs) (by omega)

end DistributedLoop

/-! ## Claims on the worked example and on the equivalence of the backends -/

section BackendClaims

variable {α : Type} [LinearOrder α]

theorem cons_lt_cons_of_ne {a b : α} (l₁ l₂ : List α) (h : a ≠ b) :
    a :: l₁ < b :: l₂ ↔ a < b := by
  constructor
  · intro h'
    cases h' with
    | cons _ => exact absurd rfl h
    | rel h'' => exact h''
  · intro h'; exact List.Lex.rel h'

theorem not_cons_lt_nil (a : α) (l : List α) : ¬ (a :: l < ([] : List α)) := by
  intro h; cases h

theorem nil_lt_cons_self (a : α) (l : List α) : ([] : List α) < a :: l := List.Lex.nil

theorem worked_run (a b c : α) (hab : a < b) (hbc : b < c) :
    runApriori 2 2 [[a, b], [a, b, c], [a], [b, c]] =
      some [([a], 3), ([a, b], 2), ([b], 3), ([b, c], 2), ([c], 2)] := by
  have hac : a < c := hab.trans hbc
  have nba : ¬ b < a := not_lt_of_gt hab
  have ncb : ¬ c < b := not_lt_of_gt hbc
  have nca : ¬ c < a := not_lt_of_gt hac
  have eab : a ≠ b := ne_of_lt hab
  have ebc : b ≠ c := ne_of_lt hbc
  have eac : a ≠ c := ne_of_lt hac
  have eba : b ≠ a := eab.symm
  have ecb : c ≠ b := ebc.symm
  have eca : c ≠ a := eac.symm
  have f1 : generateFrequent1Itemsets 2 [[a, b], [a, b, c], [a], [b, c]] =
      [([a], 3), ([b], 3), ([c], 2)] := by
    simp [generateFrequent1Itemsets, countItems, filterItems, mapUpd, hab, hbc, hac, nba, ncb, nca,
      cons_lt_cons_of_ne, eab, ebc, eac, eba, ecb, eca, cons_lt_cons_iff, not_cons_lt_nil]
  have c2 : generateCandidates ([([a], 3), ([b], 3), ([c], 2)] : StdMap (List α)) =
      some [([a, b], 0), ([a, c], 0), ([b, c], 0)] := by
    simp [generateCandidates, keys, outerLoop, innerLoop, joinInto, canJoin, prefixCheck,
      pushCandidate, sortItems, mapUpd, hab, hbc, hac, nba, ncb, nca, le_of_lt,
      cons_lt_cons_of_ne, eab, ebc, eac, eba, ecb, eca, cons_lt_cons_iff, not_cons_lt_nil]
  have s2 : filterBySupport 2 (countSupport [[a, b], [a, b, c], [a], [b, c]]
      ([([a, b], 0), ([a, c], 0), ([b, c], 0)] : StdMap (List α))) =
      [([a, b], 2), ([b, c], 2)] := by
    simp [filterBySupport, countSupport, supportCount, isSubset, includes,
      mapUpd, hab, hbc, hac, nba, ncb, nca,
      cons_lt_cons_of_ne, eab, ebc, eac, eba, ecb, eca, cons_lt_cons_iff, not_cons_lt_nil]
  have c3 : generateCandidates ([([a, b], 2), ([b, c], 2)] : StdMap (List α)) = some [] := by
    simp [generateCandidates, keys, outerLoop, innerLoop, joinInto, canJoin, prefixCheck,
      eab]
  have m1 : mergeInto ([([a, b], 2), ([b, c], 2)] : StdMap (List α))
      (mergeInto [([a], 3), ([b], 3), ([c], 2)] []) =
      [([a], 3), ([a, b], 2), ([b], 3), ([b, c], 2), ([c], 2)] := by
    simp [mergeInto, mapUpd, hab, hbc, hac, nba, ncb, nca,
      cons_lt_cons_of_ne, eab, ebc, eac, eba, ecb, eca, cons_lt_cons_iff, not_cons_lt_nil,
      nil_lt_cons_self]
  simp [runApriori, levelLoop, f1, c2, s2, c3, m1]

/-- C7 (worked example).  For items `a < b < c`, `T = [[a,b],[a,b,c],[a],[b,c]]`
and `min_support = 2`, `SequentialApriori::runApriori` returns exactly the map
`{[a]:3, [a,b]:2, [b]:3, [b,c]:2, [c]:2}` (listed in key order), with no other
key. -/
theorem worked_example (a b c : α) (hab : a < b) (hbc : b < c) :
    (∃ fuel, runApriori fuel 2 [[a, b], [a, b, c], [a], [b, c]] =
      some [([a], 3), ([a, b], 2), ([b], 3), ([b, c], 2), ([c], 2)]) ∧
    ∀ fuel r, runApriori fuel 2 [[a, b], [a, b, c], [a], [b, c]] = some r →
      r = [([a], 3), ([a, b], 2), ([b], 3), ([b, c], 2), ([c], 2)] :=
  ⟨⟨2, worked_run a b c hab hbc⟩,
    fun _ _ h => runApriori_fuel_unique 2 _ h (worked_run a b c hab hbc)⟩

/-- Instance of C7 with the strings `"a"`, `"b"`, `"c"` as items. -/
theorem worked_example_witness :
    (∃ fuel, runApriori fuel 2 ([[['a'], ['b']], [['a'], ['b'], ['c']], [['a']],
        [['b'], ['c']]] : List (List Str)) =
      some [([['a']], 3), ([['a'], ['b']], 2), ([['b']], 3), ([['b'], ['c']], 2),
        ([['c']], 2)]) ∧
    ∀ fuel r, runApriori fuel 2 ([[['a'], ['b']], [['a'], ['b'], ['c']], [['a']],
        [['b'], ['c']]] : List (List Str)) = some r →
      r = [([['a']], 3), ([['a'], ['b']], 2), ([['b']], 3), ([['b'], ['c']], 2),
        ([['c']], 2)] :=
  worked_example (['a'] : Str) ['b'] ['c'] (by decide) (by decide)

/-- Instance of C6 on the worked example split over three processes. -/
theorem aggregateSupport_global_witness :
    (∀ b ∈ blocks ([[['a'], ['b']], [['a'], ['b'], ['c']], [['a']], [['b'], ['c']]] :
        List (List Str)) 3,
      aggregateSupport
        ((blocks ([[['a'], ['b']], [['a'], ['b'], ['c']], [['a']], [['b'], ['c']]] :
          List (List Str)) 3).map
          (fun b => countLocalSupport b [([['a'], ['b']], 0), ([['b'], ['c']], 0)]))
        (countLocalSupport b [([['a'], ['b']], 0), ([['b'], ['c']], 0)]) =
      some (countSupport [[['a'], ['b']], [['a'], ['b'], ['c']], [['a']], [['b'], ['c']]]
        [([['a'], ['b']], 0), ([['b'], ['c']], 0)])) ∧
    keys (countSupport ([[['a'], ['b']], [['a'], ['b'], ['c']], [['a']], [['b'], ['c']]] :
        List (List Str)) [([['a'], ['b']], 0), ([['b'], ['c']], 0)]) =
      keys ([([['a'], ['b']], 0), ([['b'], ['c']], 0)] : StdMap (List Str)) ∧
    ∀ c n, (c, n) ∈ countSupport
        ([[['a'], ['b']], [['a'], ['b'], ['c']], [['a']], [['b'], ['c']]] : List (List Str))
        [([['a'], ['b']], 0), ([['b'], ['c']], 0)] →
      n = ((blocks ([[['a'], ['b']], [['a'], ['b'], ['c']], [['a']], [['b'], ['c']]] :
        List (List Str)) 3).map
          (fun b => (b.countP (fun t => isSubset c t) : Int))).sum ∧
      n = (([[['a'], ['b']], [['a'], ['b'], ['c']], [['a']], [['b'], ['c']]] :
        List (List Str)).countP (fun t => isSubset c t) : Int) :=
  aggregateSupport_global [([['a'], ['b']], 0), ([['b'], ['c']], 0)]
    [[['a'], ['b']], [['a'], ['b'], ['c']], [['a']], [['b'], ['c']]] 3 (by decide) (by decide)

/-- C2 (shared-memory backend).  For every database `T`, every threshold `s`,
every number of threads and every legal execution of the parallel regions (any
assignment of the loop iterations to the threads, any order of the critical
sections), `ParallelApriori::runApriori` returns what
`SequentialApriori::runApriori` returns on `T` and `s`, and both return. -/
theorem runAprioriP_eq_runApriori (T : List (List α)) (s : Int) (num_threads : Nat)
    (sched1 : Sched) (schedC schedS : Nat → Sched) (h1 : SchedOK num_threads sched1)
    (hC : ∀ k, SchedOK num_threads (schedC k)) (hS : ∀ k, SchedOK num_threads (schedS k)) :
    (∀ fuel, runAprioriP fuel s T num_threads sched1 schedC schedS = runApriori fuel s T) ∧
    ∃ fuel r, runAprioriP fuel s T num_threads sched1 schedC schedS = some r ∧
      runApriori fuel s T = some r := by
  have main : ∀ fuel,
      runAprioriP fuel s T num_threads sched1 schedC schedS = runApriori fuel s T := by
    intro fuel
    unfold runAprioriP runApriori
    simp only [generateFrequent1ItemsetsP_eq s T h1]
    exact levelLoopP_eq s T num_threads schedC schedS hC hS fuel 1 1 _ _ (shape_level1 s T)
      (le_refl 1)
  refine ⟨main, ?_⟩
  obtain ⟨r, hr⟩ := runApriori_terminates s T
  exact ⟨_, r, by rw [main, hr], hr⟩

/-- Instance of C2: three threads, round-robin assignment, critical sections
passed in the order 2, 0, 1. -/
theorem runAprioriP_eq_runApriori_witness :
    (∀ fuel, runAprioriP fuel 2 ([[1, 2], [1, 2, 3], [1], [2, 3]] : List (List Nat)) 3
        ⟨fun i => i % 3, [2, 0, 1]⟩ (fun _ => ⟨fun i => i % 3, [2, 0, 1]⟩)
        (fun _ => ⟨fun i => i % 3, [2, 0, 1]⟩) =
      runApriori fuel 2 [[1, 2], [1, 2, 3], [1], [2, 3]]) ∧
    ∃ fuel r, runAprioriP fuel 2 ([[1, 2], [1, 2, 3], [1], [2, 3]] : List (List Nat)) 3
        ⟨fun i => i % 3, [2, 0, 1]⟩ (fun _ => ⟨fun i => i % 3, [2, 0, 1]⟩)
        (fun _ => ⟨fun i => i % 3, [2, 0, 1]⟩) = some r ∧
      runApriori fuel 2 ([[1, 2], [1, 2, 3], [1], [2, 3]] : List (List Nat)) = some r :=
  runAprioriP_eq_runApriori [[1, 2], [1, 2, 3], [1], [2, 3]] 2 3
    ⟨fun i => i % 3, [2, 0, 1]⟩ (fun _ => ⟨fun i => i % 3, [2, 0, 1]⟩)
    (fun _ => ⟨fun i => i % 3, [2, 0, 1]⟩)
    ⟨fun i => Nat.mod_lt i (by decide), (by decide : [2, 0, 1].Perm (List.range 3))⟩
    (fun _ => ⟨fun i => Nat.mod_lt i (by decide), (by decide : [2, 0, 1].Perm (List.range 3))⟩)
    (fun _ => ⟨fun i => Nat.mod_lt i (by decide), (by decide : [2, 0, 1].Perm (List.range 3))⟩)

theorem initProcs_eq (T : List (List Str)) (P : Nat) : initProcs T P = agreeing (blocks T P) [] [] :=
  rfl

/-- The distributed backend on items that survive the exchange of level 1.  For
every database `T` whose items are non-empty and contain no comma, every
threshold `s` and every process count `P ≥ 1`: the distributed level loop run
over the `P` contiguous blocks of `T` returns exactly when
`SequentialApriori::runApriori` does, and then every process holds in
`frequent_itemsets` the map the sequential run returns. -/
theorem runDistributedApriori_eq (T : List (List Str)) (s : Int) (P : Nat) (hP : 1 ≤ P)
    (hitems : ∀ t ∈ T, ∀ x ∈ t, x ≠ [] ∧ ',' ∉ x) :
    (∃ fuel r, runApriori fuel s T = some r) ∧
    (∀ fuel r, runApriori fuel s T = some r →
      ∃ ps, runDistributedApriori fuel s (initProcs T P) = some ps ∧ ps.length = P ∧
        ∀ p ∈ ps, p.frequent_itemsets = r) ∧
    (∀ fuel ps, runDistributedApriori fuel s (initProcs T P) = some ps →
      ∃ r, runApriori fuel s T = some r ∧ ps.length = P ∧
        ∀ p ∈ ps, p.frequent_itemsets = r) := by
  have hflat := flatten_blocks T P hP
  have hne : blocks T P ≠ [] := by
    intro h
    have := length_blocks T P
    rw [h] at this
    simp at this
    omega
  have hitems' : ∀ b ∈ blocks T P, ∀ t ∈ b, ∀ x ∈ t, x ≠ [] ∧ ',' ∉ x := by
    intro b hb t ht x hx
    refine hitems t ?_ x hx
    rw [← hflat]
    exact List.mem_flatten.2 ⟨b, hb, ht⟩
  have hstart : ∀ fuel, runDistributedApriori fuel s (initProcs T P) =
      distLevelLoop s fuel (agreeing (blocks T P) (generateFrequent1Itemsets s T)
        (mergeInto (generateFrequent1Itemsets s T) [])) := by
    intro fuel
    unfold runDistributedApriori
    have e : (initProcs T P).map (fun p => generateLocalC1 p.local_transactions) =
        (blocks T P).map generateLocalC1 := by
      simp [initProcs, List.map_map, Function.comp_def]
    simp only [e, aggregateC1_eq s (blocks T P) hitems', hflat]
    simp [initProcs, agreeing, List.map_map, Function.comp_def]
  have hloop := fun fuel => distLevelLoop_eq s (blocks T P) hne fuel 1
    (generateFrequent1Itemsets s T) (mergeInto (generateFrequent1Itemsets s T) [])
    (by rw [hflat]; exact shape_level1 s T) (le_refl 1)
  simp only [hflat] at hloop
  have hall : ∀ (fk r : StdMap (List Str)),
      (agreeing (blocks T P) fk r).length = P ∧
        ∀ p ∈ agreeing (blocks T P) fk r, p.frequent_itemsets = r := by
    intro fk r
    refine ⟨by simp [agreeing, length_blocks], ?_⟩
    intro p hp
    obtain ⟨b, _, rfl⟩ := List.mem_map.1 hp
    rfl
  refine ⟨⟨_, runApriori_terminates s T⟩, ?_, ?_⟩
  · intro fuel r h
    obtain ⟨fkf, hd⟩ := (hloop fuel).1 r h
    exact ⟨_, by rw [hstart, hd], hall fkf r⟩
  · intro fuel ps h
    rw [hstart] at h
    cases hr : runApriori fuel s T with
    | none =>
      have := (hloop fuel).2 hr
      rw [this] at h
      cases h
    | some r =>
      obtain ⟨fkf, hd⟩ := (hloop fuel).1 r hr
      rw [hd] at h
      cases h
      exact ⟨r, rfl, hall fkf r⟩

/-- Instance of `runDistributedApriori_eq` on the worked example with three
processes. -/
theorem runDistributedApriori_eq_witness :
    (∃ fuel r, runApriori fuel 2 ([[['a'], ['b']], [['a'], ['b'], ['c']], [['a']],
        [['b'], ['c']]] : List (List Str)) = some r) ∧
    (∀ fuel r, runApriori fuel 2 ([[['a'], ['b']], [['a'], ['b'], ['c']], [['a']],
        [['b'], ['c']]] : List (List Str)) = some r →
      ∃ ps, runDistributedApriori fuel 2 (initProcs [[['a'], ['b']], [['a'], ['b'], ['c']],
          [['a']], [['b'], ['c']]] 3) = some ps ∧ ps.length = 3 ∧
        ∀ p ∈ ps, p.frequent_itemsets = r) ∧
    (∀ fuel ps, runDistributedApriori fuel 2 (initProcs [[['a'], ['b']],
        [['a'], ['b'], ['c']], [['a']], [['b'], ['c']]] 3) = some ps →
      ∃ r, runApriori fuel 2 ([[['a'], ['b']], [['a'], ['b'], ['c']], [['a']],
          [['b'], ['c']]] : List (List Str)) = some r ∧ ps.length = 3 ∧
        ∀ p ∈ ps, p.frequent_itemsets = r) :=
  runDistributedApriori_eq [[['a'], ['b']], [['a'], ['b'], ['c']], [['a']], [['b'], ['c']]]
    2 3 (by decide) (by decide)

/-- The hypothesis of `runDistributedApriori_eq` on the items cannot be dropped
from that lemma: on a member `transactions` holding the single transaction
`["a,b"]`, which no loader run stores since the loaders split every line at the
commas, with threshold 1 and one process, the sequential run returns
`{["a,b"]: 1}`, while in the distributed run `aggregateC1` splits the encoded
vocabulary at the comma, no item reaches the threshold, and `frequent_itemsets`
stays empty. -/
theorem runDistributedApriori_comma_item :
    (∀ t ∈ ([[['a', ',', 'b']]] : List (List Str)), t.Pairwise (· < ·)) ∧
    runApriori 2 1 ([[['a', ',', 'b']]] : List (List Str)) =
      some [([['a', ',', 'b']], 1)] ∧
    runDistributedApriori 2 1 (initProcs [[['a', ',', 'b']]] 1) =
      some [⟨[[['a', ',', 'b']]], [], []⟩] ∧
    ¬ ∃ r ps, runApriori 2 1 ([[['a', ',', 'b']]] : List (List Str)) = some r ∧
      runDistributedApriori 2 1 (initProcs [[['a', ',', 'b']]] 1) = some ps ∧
      ∀ p ∈ ps, p.frequent_itemsets = r := by
  have h1 : runApriori 2 1 ([[['a', ',', 'b']]] : List (List Str)) =
      some [([['a', ',', 'b']], 1)] := by decide
  have h2 : runDistributedApriori 2 1 (initProcs [[['a', ',', 'b']]] 1) =
      some [⟨[[['a', ',', 'b']]], [], []⟩] := by decide
  refine ⟨by decide, h1, h2, ?_⟩
  rintro ⟨r, ps, e1, e2, h⟩
  rw [h1] at e1
  rw [h2] at e2
  cases e1
  cases e2
  have := h _ (List.mem_singleton.2 rfl)
  simp at this

end BackendClaims

/-! ## The loader -/

section LoaderLemmas

theorem foldl_push_filter {β γ : Type} (f : β → γ) (p : γ → Bool) (l : List β) (acc : List γ) :
    l.foldl (fun acc x => if p (f x) then acc ++ [f x] else acc) acc =
      acc ++ (l.map f).filter p := by
  induction l generalizing acc with
  | nil => simp
  | cons x l ih =>
    simp only [List.foldl_cons, List.map_cons]
    rw [ih]
    by_cases h : p (f x) = true
    · simp [h, List.filter_cons_of_pos]
    · simp [h]

theorem trimItem_nil : trimItem [] = [] := by
  simp [trimItem, List.rdropWhile_nil]

theorem lineItems_eq (line : Str) :
    lineItems line =
      ((getlineLoop [] line).map trimItem).filter (fun f => !f.isEmpty && f ≠ ['-', '1']) := by
  unfold lineItems
  have := foldl_push_filter trimItem (fun f => !f.isEmpty && decide (f ≠ ['-', '1']))
    (getlineLoop [] line) []
  simpa using this

/-- The fields read by `getline` and the fields of the specification differ at
most by a last empty field, which is never kept. -/
theorem kept_getlineLoop (s : Str) :
    ∀ cur : Str,
      ((getlineLoop cur s).map trimItem).filter (fun f => !f.isEmpty && f ≠ ['-', '1']) =
      ((splitFields cur s).map trimItem).filter (fun f => !f.isEmpty && f ≠ ['-', '1']) := by
  induction s with
  | nil =>
    intro cur
    cases cur with
    | nil => simp [getlineLoop, splitFields, trimItem_nil]
    | cons c cur => simp [getlineLoop, splitFields]
  | cons c s ih =>
    intro cur
    by_cases h : c = ','
    · simp only [getlineLoop, splitFields, h, if_true, List.map_cons, List.filter_cons, ih []]
    · simp only [getlineLoop, splitFields, h, if_false, ih (cur ++ [c])]

theorem lineItems_eq_keptFields (line : Str) : lineItems line = keptFields line := by
  rw [lineItems_eq, kept_getlineLoop, keptFields]

theorem keptFields_nil : keptFields [] = [] := by
  simp [keptFields, splitFields, trimItem_nil]

theorem parseLine_eq (line : Str) :
    parseLine line =
      if keptFields line = [] then none else some (sortItems (keptFields line)) := by
  unfold parseLine
  rw [lineItems_eq_keptFields]
  by_cases h0 : line = []
  · subst h0
    simp [keptFields_nil]
  · have h1 : line.isEmpty = false := by
      cases line with
      | nil => exact absurd rfl h0
      | cons c l => rfl
    simp only [h1, Bool.false_eq_true, if_false, List.isEmpty_iff]

theorem loadTransactions_eq (text : Str) :
    loadTransactions text = (getLines [] text).filterMap parseLine := by
  unfold loadTransactions
  generalize getLines [] text = lines
  suffices h : ∀ acc : List (List Str),
      lines.foldl
        (fun transactions line =>
          match parseLine line with
          | none => transactions
          | some transaction => transactions ++ [transaction]) acc =
        acc ++ lines.filterMap parseLine by
    simpa using h []
  induction lines with
  | nil => intro acc; simp
  | cons line lines ih =>
    intro acc
    simp only [List.foldl_cons]
    rw [ih]
    cases h : parseLine line with
    | none => simp [List.filterMap_cons, h]
    | some y => simp [List.filterMap_cons, h]

theorem mem_loadTransactions (text : Str) (t : List Str) :
    t ∈ loadTransactions text ↔ ∃ line ∈ getLines [] text, parseLine line = some t := by
  rw [loadTransactions_eq, List.mem_filterMap]

theorem sortItems_sorted {α : Type} [LinearOrder α] (l : List α) :
    (sortItems l).Pairwise (· ≤ ·) :=
  List.sorted_insertionSort (· ≤ ·) l

theorem sortItems_perm {α : Type} [LinearOrder α] (l : List α) : (sortItems l).Perm l :=
  List.perm_insertionSort (· ≤ ·) l

theorem parseLine_some {line : Str} {t : List Str} (h : parseLine line = some t) :
    t = sortItems (keptFields line) ∧ keptFields line ≠ [] ∧ t ≠ [] ∧
      t.Pairwise (· ≤ ·) ∧ t.Perm (keptFields line) := by
  rw [parseLine_eq] at h
  by_cases h0 : keptFields line = []
  · simp [h0] at h
  · simp only [h0, if_false, Option.some.injEq] at h
    subst h
    refine ⟨rfl, h0, ?_, sortItems_sorted _, sortItems_perm _⟩
    intro e
    have := (sortItems_perm (keptFields line)).length_eq
    rw [e] at this
    exact h0 (List.length_eq_zero.1 this.symm)

end LoaderLemmas

/-! ## The wire format of transactions -/

section WireLemmas

theorem trimItem_of_wireItem {x : Str} (h : WireItem x) : trimItem x = x := by
  obtain ⟨hne, _, hhead, hlast⟩ := h
  unfold trimItem
  have h1 : x.dropWhile isBlank = x := by
    cases x with
    | nil => rfl
    | cons c r =>
      have hc : ¬ isBlank c = true := by
        intro e
        apply hhead
        simp [e]
      exact List.dropWhile_cons_of_neg hc
  rw [h1, List.rdropWhile_eq_self_iff]
  intro hl e
  apply hlast
  rw [List.getLast?_eq_getLast _ hl]
  simp [e]

theorem deserializeItemset_eq (str : Str) :
    deserializeItemset str =
      ((getlineLoop [] str).map trimItem).filter (fun f => !f.isEmpty) := by
  unfold deserializeItemset
  have := foldl_push_filter trimItem (fun f => !f.isEmpty) (getlineLoop [] str) []
  simpa using this

/-- Round trip of the wire format on items that are non-empty, comma-free and
without leading or trailing blank. -/
theorem deserialize_serialize {t : List Str} (h : ∀ x ∈ t, WireItem x) :
    deserializeItemset (serializeItemset t) = t := by
  rw [deserializeItemset_eq, serializeItemset,
    getlineLoop_joinComma t (fun x hx => ⟨(h x hx).1, (h x hx).2.1⟩)]
  have e1 : t.map trimItem = t := by
    conv_rhs => rw [← List.map_id t]
    apply List.map_congr_left
    intro x hx
    exact trimItem_of_wireItem (h x hx)
  rw [e1, List.filter_eq_self]
  intro x hx
  have := (h x hx).1
  cases x with
  | nil => exact absurd rfl this
  | cons c r => rfl

theorem joinComma_eq_intercalate (items : List Str) :
    joinComma items = List.intercalate [','] items := by
  induction items with
  | nil => rfl
  | cons x items ih =>
    cases items with
    | nil => simp [joinComma, List.intercalate]
    | cons y items =>
      rw [joinComma, ih]
      simp [List.intercalate, List.intersperse]

theorem mem_joinComma (items : List Str) (c : Char) (h : c ∈ joinComma items) :
    c = ',' ∨ ∃ x ∈ items, c ∈ x := by
  induction items with
  | nil => simp [joinComma] at h
  | cons x items ih =>
    cases items with
    | nil =>
      simp only [joinComma] at h
      exact Or.inr ⟨x, List.mem_cons_self _ _, h⟩
    | cons y items =>
      rw [joinComma, List.mem_append, List.mem_cons] at h
      rcases h with h | h | h
      · exact Or.inr ⟨x, List.mem_cons_self _ _, h⟩
      · exact Or.inl h
      · rcases ih h with h' | ⟨z, hz, hc⟩
        · exact Or.inl h'
        · exact Or.inr ⟨z, List.mem_cons_of_mem _ hz, hc⟩

theorem cString_of_no_nul {s : Str} (h : Char.ofNat 0 ∉ s) : cString s = s := by
  unfold cString
  rw [List.takeWhile_eq_self_iff]
  intro c hc
  simp only [ne_eq, decide_not, Bool.not_eq_eq_eq_not, Bool.not_true, decide_eq_false_iff_not]
  intro e
  exact h (e ▸ hc)

/-- A transaction of wire items without NUL character arrives unchanged. -/
theorem recv_send {t : List Str} (h : ∀ x ∈ t, WireItem x ∧ Char.ofNat 0 ∉ x) :
    recvTransaction (sendTransaction t) = t := by
  unfold recvTransaction sendTransaction
  simp only [List.take_length]
  rw [cString_of_no_nul, deserialize_serialize (fun x hx => (h x hx).1)]
  intro hmem
  rcases mem_joinComma t _ hmem with e | ⟨x, hx, hc⟩
  · exact absurd e (by decide)
  · exact (h x hx).2 hc

theorem block_zero {β : Type} (T : List β) (P : Nat) :
    block T P 0 = T.take (localCount T.length P 0) := by
  simp [block, localStart]

/-- When no item holds a NUL character, every rank ends with its block. -/
theorem distribute_eq_blocks {T : List (List Str)} (P : Nat) (hT : T ≠ [])
    (h : ∀ t ∈ T, ∀ x ∈ t, WireItem x ∧ Char.ofNat 0 ∉ x) :
    distribute T P = some (blocks T P) := by
  unfold distribute
  have hlen : ¬ T.length = 0 := fun e => hT (List.length_eq_zero.1 e)
  rw [if_neg hlen]
  congr 1
  unfold blocks
  apply List.map_congr_left
  intro rank _
  by_cases h0 : rank = 0
  · subst h0
    simp [block_zero]
  · rw [if_neg h0]
    conv_rhs => rw [← List.map_id (block T P rank)]
    apply List.map_congr_left
    intro t ht
    have htT : t ∈ T := by
      unfold block at ht
      exact List.mem_of_mem_drop (List.mem_of_mem_take ht)
    exact recv_send (h t htT)

end WireLemmas

/-! ## The vocabulary and the reduced counts of the distributed level 1 -/

section Vocabulary

/-- On comma-free non-empty items the gathered vocabulary is strictly ascending
and holds exactly the items seen by some process. -/
theorem allUniqueItems_spec (bs : List (List (List Str)))
    (hitems : ∀ b ∈ bs, ∀ t ∈ b, ∀ x ∈ t, x ≠ [] ∧ ',' ∉ x) :
    (allUniqueItems (bs.map generateLocalC1)).Pairwise (· < ·) ∧
      ∀ x, x ∈ allUniqueItems (bs.map generateLocalC1) ↔ ∃ b ∈ bs, ∃ t ∈ b, x ∈ t := by
  have hkeys : ∀ lc ∈ bs.map generateLocalC1, ∀ x ∈ keys lc, x ≠ [] ∧ ',' ∉ x := by
    intro lc hlc x hx
    obtain ⟨b, hb, rfl⟩ := List.mem_map.1 hlc
    obtain ⟨t, ht, hxt⟩ := List.mem_flatten.1 (keys_countItems_subset b x hx)
    exact hitems b hb t ht x hxt
  have hwf : ∀ lc ∈ bs.map generateLocalC1, MapWF lc := by
    intro lc hlc
    obtain ⟨b, _, rfl⟩ := List.mem_map.1 hlc
    exact MapWF_countItems b
  have hparse : allUniqueItems (bs.map generateLocalC1) =
      (bs.map generateLocalC1).foldl (fun all lc => (keys lc).foldl
        (fun all item => if item.isEmpty then all else setInsert item all) all) [] := by
    unfold allUniqueItems parseGathered
    have := parseGathered_fold ((bs.map generateLocalC1).map
        (fun lc => joinComma ((keys lc).foldl (fun s x => setInsert x s) []))) [] [] []
    simp only [List.length_nil, List.nil_append, List.append_nil] at this
    simp only []
    rw [this, List.foldl_map]
    apply List.foldl_ext
    intro all lc hlc
    rw [foldl_setInsert_sorted _ _ (by simpa using hwf lc hlc), List.nil_append,
      getlineLoop_joinComma _ (hkeys lc hlc)]
  obtain ⟨hsorted, hmem⟩ := foldl_keys_spec (bs.map generateLocalC1)
    (fun lc hlc x hx => (hkeys lc hlc x hx).1) [] List.Pairwise.nil
  rw [← hparse] at hsorted hmem
  refine ⟨hsorted, ?_⟩
  intro x
  rw [hmem]
  simp only [List.not_mem_nil, false_or]
  constructor
  · rintro ⟨lc, hlc, hx⟩
    obtain ⟨b, hb, rfl⟩ := List.mem_map.1 hlc
    obtain ⟨t, ht, hxt⟩ := List.mem_flatten.1 (keys_countItems_subset b x hx)
    exact ⟨b, hb, t, ht, hxt⟩
  · rintro ⟨b, hb, t, ht, hxt⟩
    exact ⟨generateLocalC1 b, List.mem_map.2 ⟨b, hb, rfl⟩,
      (mem_keys_countItems b x).2 (List.mem_flatten.2 ⟨t, ht, hxt⟩)⟩

theorem getD_mapFind_countItems {α : Type} [LinearOrder α] (T : List (List α)) (x : α) :
    (mapFind x (countItems T)).getD 0 = (occurrences x T : Int) := by
  rw [mapFind_countItems, occurrences]
  by_cases h0 : T.flatten.count x = 0
  · simp [h0]
  · simp [h0]

theorem occurrences_flatten {α : Type} [LinearOrder α] (bs : List (List (List α))) (x : α) :
    (bs.map (fun b => (occurrences x b : Int))).sum = (occurrences x bs.flatten : Int) := by
  induction bs with
  | nil => simp [occurrences]
  | cons b bs ih =>
    simp only [List.map_cons, List.sum_cons, ih]
    simp only [occurrences, List.flatten_cons, List.flatten_append, List.count_append]
    push_cast
    rfl

theorem globalCount_eq (bs : List (List (List Str))) (x : Str) :
    globalCount (bs.map generateLocalC1) x = (bs.map (fun b => (occurrences x b : Int))).sum := by
  unfold globalCount
  rw [List.map_map]
  congr 1
  apply List.map_congr_left
  intro b _
  exact getD_mapFind_countItems b x

theorem aggregateC1_eq_foldl (s : Int) (locals : List (StdMap Str)) :
    aggregateC1 s locals =
      (allUniqueItems locals).foldl
        (fun g item =>
          if globalCount locals item ≥ s then
            mapUpd [item] (fun _ => globalCount locals item) g
          else g) [] :=
  rfl

end Vocabulary

/-! ## Claims on candidates, the subset test, the wire format and the loader -/

section ShapeAndLoaderClaims

variable {α : Type} [LinearOrder α]

/-- C11 (candidate shape).  For every level map `F` (a genuine map) whose keys are
strictly ascending itemsets all of size `k ≥ 1`, `SequentialApriori::generateCandidates`
and `DistributedApriori::generateCandidates` succeed with the same map, in which
every key has size exactly `k + 1` and is strictly ascending, every value is `0`,
and no itemset occurs as a key twice. -/
theorem generateCandidates_shape (F : StdMap (List α)) (k : Nat) (hF : MapWF F) (hk : 1 ≤ k)
    (hlen : ∀ A ∈ keys F, A.length = k) (hsorted : ∀ A ∈ keys F, A.Pairwise (· < ·)) :
    ∃ C, generateCandidates F = some C ∧ generateCandidatesD F = some C ∧
      (∀ X ∈ keys C, X.length = k + 1 ∧ X.Pairwise (· < ·)) ∧
      (∀ p ∈ C, p.2 = 0) ∧ (keys C).Nodup ∧ MapWF C := by
  obtain ⟨C, e, z, hkeys⟩ := generateCandidates_spec hF hk hlen
  refine ⟨C, e, by rw [generateCandidatesD_eq hk hlen, e], ?_, z.2,
    z.1.imp (fun h => ne_of_lt h), z.1⟩
  intro X hX
  obtain ⟨A, B, hA, hB, hlt, hj⟩ := (hkeys X).1 hX
  have := joins_shape (by rw [hlen A hA]; exact hk) (by rw [hlen A hA, hlen B hB])
    (hsorted A hA) (hsorted B hB) hlt hj
  exact ⟨by rw [this.1, hlen A hA], this.2.1⟩

/-- Instance of C11 on the level-2 map with keys `[1,2]`, `[1,3]`, `[2,3]`. -/
theorem generateCandidates_shape_witness :
    ∃ C, generateCandidates ([([1, 2], 2), ([1, 3], 2), ([2, 3], 2)] : StdMap (List Nat)) = some C ∧
      generateCandidatesD ([([1, 2], 2), ([1, 3], 2), ([2, 3], 2)] : StdMap (List Nat)) = some C ∧
      (∀ X ∈ keys C, X.length = 2 + 1 ∧ X.Pairwise (· < ·)) ∧
      (∀ p ∈ C, p.2 = 0) ∧ (keys C).Nodup ∧ MapWF C :=
  generateCandidates_shape [([1, 2], 2), ([1, 3], 2), ([2, 3], 2)] 2 (by decide) (by decide)
    (by decide) (by decide)

/-- C12 (subset test).  For every strictly ascending itemset `X` and every
strictly ascending transaction `t`, `isSubset(X, t)` is true if and only if
every item of `X` occurs in `t`; and on every candidate map `C`, `countSupport`
keeps exactly the keys of `C` and maps each one to the number of transactions
of `T` for which `isSubset` is true. -/
theorem isSubset_countSupport (X t : List α) (T : List (List α)) (C : StdMap (List α))
    (hX : X.Pairwise (· < ·)) (ht : t.Pairwise (· < ·)) (hC : MapWF C) :
    (isSubset X t = true ↔ ∀ i ∈ X, i ∈ t) ∧
    keys (countSupport T C) = keys C ∧
    ∀ c n, (c, n) ∈ countSupport T C ↔
      c ∈ keys C ∧ n = (T.countP (fun t => isSubset c t) : Int) := by
  refine ⟨isSubset_iff ht hX, keys_countSupport T hC, ?_⟩
  intro c n
  rw [countSupport_eq T hC]
  simp only [List.mem_map, Prod.mk.injEq, keys]
  constructor
  · rintro ⟨p, hp, rfl, rfl⟩
    exact ⟨⟨p, hp, rfl⟩, supportCount_eq T p.1⟩
  · rintro ⟨⟨p, hp, rfl⟩, rfl⟩
    exact ⟨p, hp, rfl, supportCount_eq T p.1⟩

/-- Instance of C12: the itemset `[1,3]`, the transaction `[1,2,3]`, and two
candidates counted on the worked example. -/
theorem isSubset_countSupport_witness :
    (isSubset [1, 3] [1, 2, 3] = true ↔ ∀ i ∈ ([1, 3] : List Nat), i ∈ ([1, 2, 3] : List Nat)) ∧
    keys (countSupport [[1, 2], [1, 2, 3], [1], [2, 3]]
      ([([1, 2], 0), ([2, 3], 0)] : StdMap (List Nat))) =
      keys ([([1, 2], 0), ([2, 3], 0)] : StdMap (List Nat)) ∧
    ∀ c n, (c, n) ∈ countSupport [[1, 2], [1, 2, 3], [1], [2, 3]]
        ([([1, 2], 0), ([2, 3], 0)] : StdMap (List Nat)) ↔
      c ∈ keys ([([1, 2], 0), ([2, 3], 0)] : StdMap (List Nat)) ∧
        n = (([[1, 2], [1, 2, 3], [1], [2, 3]] : List (List Nat)).countP
          (fun t => isSubset c t) : Int) :=
  isSubset_countSupport [1, 3] [1, 2, 3] [[1, 2], [1, 2, 3], [1], [2, 3]]
    [([1, 2], 0), ([2, 3], 0)] (by decide) (by decide) (by decide)

/-- C13 (wire round trip).  For every transaction `t` whose items are non-empty,
contain no comma and have no leading or trailing space or tab,
`deserializeItemset (serializeItemset t) = t`; `serializeItemset t` is the items
joined by single commas with no trailing comma, and the length sent before the
characters is the length of that string. -/
theorem wire_round_trip (t : List Str) (h : ∀ x ∈ t, WireItem x) :
    deserializeItemset (serializeItemset t) = t ∧
    serializeItemset t = List.intercalate [','] t ∧
    (sendTransaction t).2 = serializeItemset t ∧
    (sendTransaction t).1 = (serializeItemset t).length :=
  ⟨deserialize_serialize h, joinComma_eq_intercalate t, rfl, rfl⟩

/-- Instance of C13 on the transaction `["a", "b c", "-1"]`. -/
theorem wire_round_trip_witness :
    deserializeItemset (serializeItemset [['a'], ['b', ' ', 'c'], ['-', '1']]) =
      [['a'], ['b', ' ', 'c'], ['-', '1']] ∧
    serializeItemset [['a'], ['b', ' ', 'c'], ['-', '1']] =
      List.intercalate [','] [['a'], ['b', ' ', 'c'], ['-', '1']] ∧
    (sendTransaction [['a'], ['b', ' ', 'c'], ['-', '1']]).2 =
      serializeItemset [['a'], ['b', ' ', 'c'], ['-', '1']] ∧
    (sendTransaction [['a'], ['b', ' ', 'c'], ['-', '1']]).1 =
      (serializeItemset [['a'], ['b', ' ', 'c'], ['-', '1']]).length :=
  wire_round_trip [['a'], ['b', ' ', 'c'], ['-', '1']] (by decide)

/-- When no item holds a NUL character, the local transactions of the ranks, one
after the other, are the loaded list. -/
theorem distribute_flatten {T : List (List Str)} (P : Nat) (hP : 1 ≤ P) (hT : T ≠ [])
    (h : ∀ t ∈ T, ∀ x ∈ t, WireItem x ∧ Char.ofNat 0 ∉ x) :
    ∃ L, distribute T P = some L ∧ L.length = P ∧ L.flatten = T :=
  ⟨blocks T P, distribute_eq_blocks P hT h, length_blocks T P, flatten_blocks T P hP⟩

/-- C14 fails on the code.  The file with the lines `a` and `b\0c` loads as
`[["a"], ["b\0c"]]` (items non-empty, comma-free, without leading or trailing
blank); on two processes rank 1 converts
the received buffer as a C string, which ends at the NUL character, and stores
`["b"]`; the concatenation of the local transactions is not the loaded list. -/
theorem distribute_nul_truncates :
    loadTransactions ['a', '\n', 'b', Char.ofNat 0, 'c', '\n'] =
      [[['a']], [['b', Char.ofNat 0, 'c']]] ∧
    (∀ t ∈ ([[['a']], [['b', Char.ofNat 0, 'c']]] : List (List Str)), ∀ x ∈ t, WireItem x) ∧
    distribute [[['a']], [['b', Char.ofNat 0, 'c']]] 2 = some [[[['a']]], [[['b']]]] ∧
    ([[[['a']]], [[['b']]]] : List (List (List Str))).flatten ≠
      [[['a']], [['b', Char.ofNat 0, 'c']]] := by
  decide

/-- C15 (level 1).  For every database `T` and threshold `s`,
`generateFrequent1Itemsets` returns a genuine map whose entries are exactly the
pairs `([x], n)` where `x` is an item of `T`, `n` is the total number of
occurrences of `x` over all transactions of `T`, and `n ≥ s`; for `s ≥ 1` the
keys are the `[x]` with at least `s` occurrences. -/
theorem generateFrequent1Itemsets_spec (T : List (List α)) (s : Int) :
    MapWF (generateFrequent1Itemsets s T) ∧
    (∀ X n, (X, n) ∈ generateFrequent1Itemsets s T ↔
      ∃ x, X = [x] ∧ x ∈ T.flatten ∧ n = (occurrences x T : Int) ∧ s ≤ n) ∧
    (1 ≤ s → ∀ x, [x] ∈ keys (generateFrequent1Itemsets s T) ↔ s ≤ (occurrences x T : Int)) := by
  have main : ∀ X n, (X, n) ∈ generateFrequent1Itemsets s T ↔
      ∃ x, X = [x] ∧ x ∈ T.flatten ∧ n = (occurrences x T : Int) ∧ s ≤ n := by
    intro X n
    rw [mem_generateFrequent1Itemsets]
    constructor
    · rintro ⟨x, rfl, hn, hpos, hs⟩
      exact ⟨x, rfl, List.count_pos_iff.1 hpos, hn, hs⟩
    · rintro ⟨x, rfl, hx, hn, hs⟩
      exact ⟨x, rfl, hn, List.count_pos_iff.2 hx, hs⟩
  refine ⟨(shape_level1 s T).wf, main, ?_⟩
  intro hs x
  rw [mem_keys_iff]
  constructor
  · rintro ⟨n, hn⟩
    obtain ⟨y, e, _, hn', hsn⟩ := (main [x] n).1 hn
    cases e
    rw [← hn']
    exact hsn
  · intro h
    refine ⟨(occurrences x T : Int), (main [x] _).2 ⟨x, rfl, ?_, rfl, h⟩⟩
    apply List.count_pos_iff.1
    have : (0 : Int) < (occurrences x T : Int) := by omega
    exact_mod_cast this

/-- Instance of C15 on the worked example with threshold 3. -/
theorem generateFrequent1Itemsets_spec_witness :
    MapWF (generateFrequent1Itemsets 3 ([[1, 2], [1, 2, 3], [1], [2, 3]] : List (List Nat))) ∧
    (∀ X n, (X, n) ∈ generateFrequent1Itemsets 3
        ([[1, 2], [1, 2, 3], [1], [2, 3]] : List (List Nat)) ↔
      ∃ x, X = [x] ∧ x ∈ ([[1, 2], [1, 2, 3], [1], [2, 3]] : List (List Nat)).flatten ∧
        n = (occurrences x [[1, 2], [1, 2, 3], [1], [2, 3]] : Int) ∧ 3 ≤ n) ∧
    (∀ x, [x] ∈ keys (generateFrequent1Itemsets 3
        ([[1, 2], [1, 2, 3], [1], [2, 3]] : List (List Nat))) ↔
      (3 : Int) ≤ (occurrences x [[1, 2], [1, 2, 3], [1], [2, 3]] : Int)) :=
  ⟨(generateFrequent1Itemsets_spec [[1, 2], [1, 2, 3], [1], [2, 3]] 3).1,
    (generateFrequent1Itemsets_spec [[1, 2], [1, 2, 3], [1], [2, 3]] 3).2.1,
    (generateFrequent1Itemsets_spec [[1, 2], [1, 2, 3], [1], [2, 3]] 3).2.2 (by decide)⟩

/-- C16 (distributed level 1).  For every split `bs` of `T` into blocks whose
items are non-empty and comma-free: the vocabulary `aggregateC1` computes from
the `generateLocalC1` maps is the (ascending, duplicate-free) union of the items
seen by any process; the reduced count of an item is the sum of its local
occurrence counts, a process that has not seen it contributing `0`;
`aggregateC1` keeps the vocabulary items whose reduced count reaches the
threshold, and returns on every process exactly the map
`SequentialApriori::generateFrequent1Itemsets` returns on the whole `T`. -/
theorem aggregateC1_spec (T : List (List Str)) (bs : List (List (List Str))) (s : Int)
    (hsplit : bs.flatten = T)
    (hitems : ∀ b ∈ bs, ∀ t ∈ b, ∀ x ∈ t, x ≠ [] ∧ ',' ∉ x) :
    (allUniqueItems (bs.map generateLocalC1)).Pairwise (· < ·) ∧
    (∀ x, x ∈ allUniqueItems (bs.map generateLocalC1) ↔ ∃ b ∈ bs, ∃ t ∈ b, x ∈ t) ∧
    (∀ x, ∀ b ∈ bs, (mapFind x (generateLocalC1 b)).getD 0 = (occurrences x b : Int)) ∧
    (∀ x, globalCount (bs.map generateLocalC1) x =
      (bs.map (fun b => (occurrences x b : Int))).sum) ∧
    (∀ x, globalCount (bs.map generateLocalC1) x = (occurrences x T : Int)) ∧
    aggregateC1 s (bs.map generateLocalC1) =
      (allUniqueItems (bs.map generateLocalC1)).foldl
        (fun g item =>
          if globalCount (bs.map generateLocalC1) item ≥ s then
            mapUpd [item] (fun _ => globalCount (bs.map generateLocalC1) item) g
          else g) [] ∧
    aggregateC1 s (bs.map generateLocalC1) = generateFrequent1Itemsets s T := by
  obtain ⟨h1, h2⟩ := allUniqueItems_spec bs hitems
  refine ⟨h1, h2, fun x b _ => getD_mapFind_countItems b x, globalCount_eq bs, ?_,
    aggregateC1_eq_foldl s _, ?_⟩
  · intro x
    rw [globalCount_eq, occurrences_flatten, hsplit]
  · rw [aggregateC1_eq s bs hitems, hsplit]

/-- Instance of C16: the worked example split into the blocks of three processes. -/
theorem aggregateC1_spec_witness :
    (allUniqueItems (([[[['a'], ['b']], [['a'], ['b'], ['c']]], [[['a']]], [[['b'], ['c']]]] :
      List (List (List Str))).map generateLocalC1)).Pairwise (· < ·) ∧
    (∀ x, x ∈ allUniqueItems (([[[['a'], ['b']], [['a'], ['b'], ['c']]], [[['a']]],
        [[['b'], ['c']]]] : List (List (List Str))).map generateLocalC1) ↔
      ∃ b ∈ ([[[['a'], ['b']], [['a'], ['b'], ['c']]], [[['a']]], [[['b'], ['c']]]] :
        List (List (List Str))), ∃ t ∈ b, x ∈ t) ∧
    (∀ x, ∀ b ∈ ([[[['a'], ['b']], [['a'], ['b'], ['c']]], [[['a']]], [[['b'], ['c']]]] :
        List (List (List Str))),
      (mapFind x (generateLocalC1 b)).getD 0 = (occurrences x b : Int)) ∧
    (∀ x, globalCount (([[[['a'], ['b']], [['a'], ['b'], ['c']]], [[['a']]],
        [[['b'], ['c']]]] : List (List (List Str))).map generateLocalC1) x =
      (([[[['a'], ['b']], [['a'], ['b'], ['c']]], [[['a']]], [[['b'], ['c']]]] :
        List (List (List Str))).map (fun b => (occurrences x b : Int))).sum) ∧
    (∀ x, globalCount (([[[['a'], ['b']], [['a'], ['b'], ['c']]], [[['a']]],
        [[['b'], ['c']]]] : List (List (List Str))).map generateLocalC1) x =
      (occurrences x [[['a'], ['b']], [['a'], ['b'], ['c']], [['a']], [['b'], ['c']]] : Int)) ∧
    aggregateC1 2 (([[[['a'], ['b']], [['a'], ['b'], ['c']]], [[['a']]], [[['b'], ['c']]]] :
        List (List (List Str))).map generateLocalC1) =
      (allUniqueItems (([[[['a'], ['b']], [['a'], ['b'], ['c']]], [[['a']]],
        [[['b'], ['c']]]] : List (List (List Str))).map generateLocalC1)).foldl
        (fun g item =>
          if globalCount (([[[['a'], ['b']], [['a'], ['b'], ['c']]], [[['a']]],
              [[['b'], ['c']]]] : List (List (List Str))).map generateLocalC1) item ≥ 2 then
            mapUpd [item] (fun _ => globalCount (([[[['a'], ['b']], [['a'], ['b'], ['c']]],
              [[['a']]], [[['b'], ['c']]]] : List (List (List Str))).map generateLocalC1)
              item) g
          else g) [] ∧
    aggregateC1 2 (([[[['a'], ['b']], [['a'], ['b'], ['c']]], [[['a']]], [[['b'], ['c']]]] :
        List (List (List Str))).map generateLocalC1) =
      generateFrequent1Itemsets 2 [[['a'], ['b']], [['a'], ['b'], ['c']], [['a']],
        [['b'], ['c']]] :=
  aggregateC1_spec [[['a'], ['b']], [['a'], ['b'], ['c']], [['a']], [['b'], ['c']]]
    [[[['a'], ['b']], [['a'], ['b'], ['c']]], [[['a']]], [[['b'], ['c']]]] 2
    (by decide) (by decide)

/-- C17 as stated fails: the input text `a,a` stores the transaction `["a", "a"]`,
in which `"a"` occurs twice. -/
theorem loadTransactions_duplicate_counterexample :
    loadTransactions ['a', ',', 'a'] = [[['a'], ['a']]] ∧
    ∃ t ∈ loadTransactions ['a', ',', 'a'], ¬ t.Nodup := by
  decide

/-- C17, as amended (transaction store).  For every input text, every transaction
stored by `loadTransactions` is in ascending item order (each item at most the
next one) and is the sorted list of the items kept from one line of the text;
it is duplicate-free exactly when no item is kept twice from that line, since
the loader sorts without removing repetitions. -/
theorem loadTransactions_sorted (text : Str) (t : List Str) (ht : t ∈ loadTransactions text) :
    t.Pairwise (· ≤ ·) ∧
    ∃ line ∈ getLines [] text, t = sortItems (keptFields line) ∧ t.Perm (keptFields line) ∧
      (t.Nodup ↔ (keptFields line).Nodup) := by
  obtain ⟨line, hline, hp⟩ := (mem_loadTransactions text t).1 ht
  obtain ⟨h1, _, _, h4, h5⟩ := parseLine_some hp
  exact ⟨h4, line, hline, h1, h5, h5.nodup_iff⟩

/-- Instance of the amended C17 on the text `b,a` / `a,a` (two lines). -/
theorem loadTransactions_sorted_witness :
    ([['a'], ['b']] : List Str).Pairwise (· ≤ ·) ∧
    ∃ line ∈ getLines [] ['b', ',', 'a', '\n', 'a', ',', 'a'],
      ([['a'], ['b']] : List Str) = sortItems (keptFields line) ∧
      ([['a'], ['b']] : List Str).Perm (keptFields line) ∧
      (([['a'], ['b']] : List Str).Nodup ↔ (keptFields line).Nodup) :=
  loadTransactions_sorted ['b', ',', 'a', '\n', 'a', ',', 'a'] [['a'], ['b']] (by decide)

/-- C18 (configuration error).  For every minimum support value `≤ 0`, the `main`
of each of the three programs ends with exit status 1 without having called any
member function: no transaction is loaded and no level is computed.  For every
value `≥ 1` the check does not stop the run: the first call, the load, is made. -/
theorem main_rejects_nonpositive_support (min_support mode : Int) (file : Option Str) :
    (min_support ≤ 0 →
      mainSequential min_support file = (1, []) ∧
      mainParallel min_support mode file = (1, []) ∧
      mainDistributed min_support mode file = (1, [])) ∧
    (1 ≤ min_support →
      (mainSequential min_support file).2.head? = some Call.loadTransactions ∧
      (mainParallel min_support mode file).2.head? = some Call.loadTransactions ∧
      (mainDistributed min_support mode file).2.head? = some Call.loadAndDistributeData) := by
  constructor
  · intro h
    simp [mainSequential, mainParallel, mainDistributed, h]
  · intro h
    have h' : ¬ min_support ≤ 0 := by omega
    unfold mainSequential mainParallel mainDistributed
    simp only [h', if_false]
    cases file with
    | none => simp
    | some text =>
      refine ⟨rfl, ?_, ?_⟩
      · simp only []
        split <;> rfl
      · simp only []
        split
        · rfl
        · split <;> rfl

/-- Instance of C18: the values `0` and `2`, mode 1, a data file with one line. -/
theorem main_rejects_nonpositive_support_witness :
    (mainSequential 0 (some ['a', ',', 'b']) = (1, []) ∧
      mainParallel 0 1 (some ['a', ',', 'b']) = (1, []) ∧
      mainDistributed 0 1 (some ['a', ',', 'b']) = (1, [])) ∧
    ((mainSequential 2 (some ['a', ',', 'b'])).2.head? = some Call.loadTransactions ∧
      (mainParallel 2 1 (some ['a', ',', 'b'])).2.head? = some Call.loadTransactions ∧
      (mainDistributed 2 1 (some ['a', ',', 'b'])).2.head? = some Call.loadAndDistributeData) :=
  ⟨(main_rejects_nonpositive_support 0 1 (some ['a', ',', 'b'])).1 (by decide),
    (main_rejects_nonpositive_support 2 1 (some ['a', ',', 'b'])).2 (by decide)⟩

/-- C19 (line parsing).  For every input line, the transaction stored for it is
the ascending sort of the line's comma-separated fields after removing leading
and trailing spaces and tabs from each field and omitting the fields that are
then empty or equal to `"-1"`; a line that yields no item, in particular a blank
line, stores no transaction, so every transaction stored by `loadTransactions`
is non-empty. -/
theorem parseLine_spec (line text : Str) :
    parseLine line =
      (if keptFields line = [] then none else some (sortItems (keptFields line))) ∧
    (sortItems (keptFields line)).Pairwise (· ≤ ·) ∧
    (sortItems (keptFields line)).Perm (keptFields line) ∧
    parseLine [] = none ∧
    (∀ t, parseLine line = some t → t ≠ []) ∧
    loadTransactions text = (getLines [] text).filterMap parseLine ∧
    (∀ t ∈ loadTransactions text, t ≠ []) := by
  refine ⟨parseLine_eq line, sortItems_sorted _, sortItems_perm _, rfl,
    fun t h => (parseLine_some h).2.2.1, loadTransactions_eq text, ?_⟩
  intro t ht
  obtain ⟨l, _, hp⟩ := (mem_loadTransactions text t).1 ht
  exact (parseLine_some hp).2.2.1

/-- Instance of C19 on the line ` b , a ,-1,,` and a text with a blank line. -/
theorem parseLine_spec_witness :
    parseLine [' ', 'b', ' ', ',', ' ', 'a', ' ', ',', '-', '1', ',', ','] = some [['a'], ['b']] ∧
    loadTransactions ['b', ',', 'a', '\n', '\n', ' ', '\t', '\n', 'c'] =
      [[['a'], ['b']], [['c']]] ∧
    (∀ t ∈ loadTransactions ['b', ',', 'a', '\n', '\n', ' ', '\t', '\n', 'c'], t ≠ []) :=
  ⟨(parseLine_spec [' ', 'b', ' ', ',', ' ', 'a', ' ', ',', '-', '1', ',', ','] []).1.trans
      (by decide),
    (parseLine_spec [] ['b', ',', 'a', '\n', '\n', ' ', '\t', '\n', 'c']).2.2.2.2.2.1.trans
      (by decide),
    (parseLine_spec [] ['b', ',', 'a', '\n', '\n', ' ', '\t', '\n', 'c']).2.2.2.2.2.2⟩

/-- C20 (empty level).  `generateCandidates` applied to an empty level map returns
an empty candidate map; and on a database in which no item reaches the
threshold, level 1 is empty and `runApriori` returns the empty map at the first
test of the loop condition, without any counting level (one unit of fuel is
enough). -/
theorem empty_level (T : List (List α)) (s : Int)
    (h : ∀ x ∈ T.flatten, (occurrences x T : Int) < s) :
    generateCandidates ([] : StdMap (List α)) = some [] ∧
    generateFrequent1Itemsets s T = [] ∧
    ∀ fuel, runApriori (fuel + 1) s T = some [] := by
  have h1 : generateFrequent1Itemsets s T = [] := by
    rw [List.eq_nil_iff_forall_not_mem]
    rintro ⟨X, n⟩ hmem
    obtain ⟨x, _, hn, hpos, hs⟩ := (mem_generateFrequent1Itemsets s T X n).1 hmem
    have := h x (List.count_pos_iff.1 hpos)
    rw [occurrences, ← hn] at this
    omega
  refine ⟨rfl, h1, ?_⟩
  intro fuel
  simp [runApriori, h1, levelLoop, mergeInto]

/-- Instance of C20: no item occurs twice in `[[1,2],[3]]`, threshold 2. -/
theorem empty_level_witness :
    generateCandidates ([] : StdMap (List Nat)) = some [] ∧
    generateFrequent1Itemsets 2 ([[1, 2], [3]] : List (List Nat)) = [] ∧
    ∀ fuel, runApriori (fuel + 1) 2 ([[1, 2], [3]] : List (List Nat)) = some [] :=
  empty_level [[1, 2], [3]] 2 (by decide)

end ShapeAndLoaderClaims

/-! ## Claims on the subset test, the join and the last level of the worked example -/

section JoinClaims

variable {α : Type} [LinearOrder α]

theorem supportCount_anti (T : List (List α)) (hT : ∀ t ∈ T, t.Pairwise (· ≤ ·))
    {X Y : List α} (hX : X.Pairwise (· < ·)) (hY : Y.Pairwise (· < ·))
    (hsub : ∀ i ∈ X, i ∈ Y) : supportCount T Y ≤ supportCount T X := by
  rw [supportCount_eq, supportCount_eq]
  have : T.countP (fun t => isSubset Y t) ≤ T.countP (fun t => isSubset X t) := by
    apply List.countP_mono_left
    intro t ht h
    have hy := (includes_iff (hT t ht) hY).1 h
    exact (includes_iff (hT t ht) hX).2 (fun i hi => hy i (hsub i hi))
  exact_mod_cast this

theorem levels_worked (a b c : α) (hab : a < b) (hbc : b < c) :
    runLevels 2 2 [[a, b], [a, b, c], [a], [b, c]] =
      some [[([a], 3), ([b], 3), ([c], 2)], [([a, b], 2), ([b, c], 2)]] := by
  have hac : a < c := hab.trans hbc
  have nba : ¬ b < a := not_lt_of_gt hab
  have ncb : ¬ c < b := not_lt_of_gt hbc
  have nca : ¬ c < a := not_lt_of_gt hac
  have eab : a ≠ b := ne_of_lt hab
  have ebc : b ≠ c := ne_of_lt hbc
  have eac : a ≠ c := ne_of_lt hac
  have eba : b ≠ a := eab.symm
  have ecb : c ≠ b := ebc.symm
  have eca : c ≠ a := eac.symm
  have f1 : generateFrequent1Itemsets 2 [[a, b], [a, b, c], [a], [b, c]] =
      [([a], 3), ([b], 3), ([c], 2)] := by
    simp [generateFrequent1Itemsets, countItems, filterItems, mapUpd, hab, hbc, hac, nba, ncb, nca,
      cons_lt_cons_of_ne, eab, ebc, eac, eba, ecb, eca, cons_lt_cons_iff, not_cons_lt_nil]
  have c2 : generateCandidates ([([a], 3), ([b], 3), ([c], 2)] : StdMap (List α)) =
      some [([a, b], 0), ([a, c], 0), ([b, c], 0)] := by
    simp [generateCandidates, keys, outerLoop, innerLoop, joinInto, canJoin, prefixCheck,
      pushCandidate, sortItems, mapUpd, hab, hbc, hac, nba, ncb, nca, le_of_lt,
      cons_lt_cons_of_ne, eab, ebc, eac, eba, ecb, eca, cons_lt_cons_iff, not_cons_lt_nil]
  have s2 : filterBySupport 2 (countSupport [[a, b], [a, b, c], [a], [b, c]]
      ([([a, b], 0), ([a, c], 0), ([b, c], 0)] : StdMap (List α))) =
      [([a, b], 2), ([b, c], 2)] := by
    simp [filterBySupport, countSupport, supportCount, isSubset, includes,
      mapUpd, hab, hbc, hac, nba, ncb, nca,
      cons_lt_cons_of_ne, eab, ebc, eac, eba, ecb, eca, cons_lt_cons_iff, not_cons_lt_nil]
  have c3 : generateCandidates ([([a, b], 2), ([b, c], 2)] : StdMap (List α)) = some [] := by
    simp [generateCandidates, keys, outerLoop, innerLoop, joinInto, canJoin, prefixCheck,
      eab]
  simp [runLevels, levelLoopLevels, f1, c2, s2, c3]

/-- C30 (subset test with repeated items).  For every strictly increasing
itemset `X` and every transaction `t` sorted ascending, repeated items allowed,
`SequentialApriori::isSubset(X, t)` is true exactly when every item of `X`
occurs in `t`. -/
theorem isSubset_repeated_items (X t : List α) (hX : X.Pairwise (· < ·))
    (ht : t.Pairwise (· ≤ ·)) : isSubset X t = true ↔ ∀ i ∈ X, i ∈ t :=
  includes_iff ht hX

/-- Instance of C30: the itemset `[1, 3]` in the transaction `[1, 1, 2, 3, 3]`. -/
theorem isSubset_repeated_items_witness :
    isSubset [1, 3] [1, 1, 2, 3, 3] = true ↔ ∀ i ∈ [1, 3], i ∈ [1, 1, 2, 3, 3] :=
  isSubset_repeated_items [1, 3] [1, 1, 2, 3, 3] (by decide) (by decide)

/-- C25 (support is anti-monotone).  For every list `T` of ascending
transactions and all strictly increasing itemsets `X`, `Y` with every item of
`X` occurring in `Y`: the count the loops of `countSupport` compute for `X` is
at least the one for `Y`, and so are the values `countSupport` stores under the
keys `X` and `Y` of any candidate map. -/
theorem countSupport_antimonotone (T : List (List α)) (X Y : List α)
    (hT : ∀ t ∈ T, t.Pairwise (· ≤ ·)) (hX : X.Pairwise (· < ·)) (hY : Y.Pairwise (· < ·))
    (hsub : ∀ i ∈ X, i ∈ Y) :
    supportCount T Y ≤ supportCount T X ∧
    ∀ candidates nX nY, MapWF candidates → (X, nX) ∈ countSupport T candidates →
      (Y, nY) ∈ countSupport T candidates → nY ≤ nX := by
  have h := supportCount_anti T hT hX hY hsub
  refine ⟨h, ?_⟩
  intro C nX nY hC h1 h2
  rw [countSupport_eq T hC] at h1 h2
  obtain ⟨p, _, e1⟩ := List.mem_map.1 h1
  obtain ⟨q, _, e2⟩ := List.mem_map.1 h2
  simp only [Prod.mk.injEq] at e1 e2
  rw [← e1.2, ← e2.2, e1.1, e2.1]
  exact h

/-- Instance of C25: `X = [1]`, `Y = [1, 2]` over a database with a repeated
item. -/
theorem countSupport_antimonotone_witness :
    supportCount [[1, 1, 2], [1, 3], [2, 3]] [1, 2] ≤ supportCount [[1, 1, 2], [1, 3], [2, 3]] [1] ∧
    ∀ candidates nX nY, MapWF candidates →
      ([1], nX) ∈ countSupport [[1, 1, 2], [1, 3], [2, 3]] candidates →
      ([1, 2], nY) ∈ countSupport [[1, 1, 2], [1, 3], [2, 3]] candidates → nY ≤ nX :=
  countSupport_antimonotone [[1, 1, 2], [1, 3], [2, 3]] [1] [1, 2] (by decide) (by decide)
    (by decide) (by decide)

/-- C27 (the re-sort in the join is the identity).  For strictly increasing
itemsets `A`, `B` of the same size `k ≥ 1` with `A < B` lexicographically and
equal first `k - 1` items, `A ++ [B.back()]` is strictly increasing and
`std::sort` returns it unchanged; and if a second such pair `A'`, `B'` gives
the same candidate, then `A = A'` and `B = B'`. -/
theorem join_sort_identity (k : Nat) (A B A' B' : List α) (b b' : α) (hk : 1 ≤ k)
    (lA : A.length = k) (lB : B.length = k) (sA : A.Pairwise (· < ·))
    (sB : B.Pairwise (· < ·)) (hlt : A < B) (hpre : A.take (k - 1) = B.take (k - 1))
    (hb : B.getLast? = some b)
    (lA' : A'.length = k) (lB' : B'.length = k) (sA' : A'.Pairwise (· < ·))
    (sB' : B'.Pairwise (· < ·)) (hlt' : A' < B') (hpre' : A'.take (k - 1) = B'.take (k - 1))
    (hb' : B'.getLast? = some b') :
    (A ++ [b]).Pairwise (· < ·) ∧ sortItems (A ++ [b]) = A ++ [b] ∧
    (sortItems (A ++ [b]) = sortItems (A' ++ [b']) → A = A' ∧ B = B') := by
  have key : ∀ (A B : List α) (b : α), A.length = k → B.length = k → A.Pairwise (· < ·) →
      B.Pairwise (· < ·) → A < B → A.take (k - 1) = B.take (k - 1) → B.getLast? = some b →
      (A ++ [b]).Pairwise (· < ·) ∧ sortItems (A ++ [b]) = A ++ [b] := by
    intro A B b lA lB sA sB hlt hpre hb
    have hj : Joins A B (sortItems (A ++ [b])) := ⟨by rw [lA]; exact hpre, b, hb, rfl⟩
    obtain ⟨_, hs, _, b2, hb2, hX⟩ :=
      joins_shape (by omega) (by omega) sA sB hlt hj
    rw [hb] at hb2
    cases hb2
    rw [hX] at hs
    exact ⟨hs, hX⟩
  obtain ⟨h1, h2⟩ := key A B b lA lB sA sB hlt hpre hb
  obtain ⟨_, h2'⟩ := key A' B' b' lA' lB' sA' sB' hlt' hpre' hb'
  refine ⟨h1, h2, ?_⟩
  intro h
  rw [h2, h2'] at h
  obtain ⟨eA, eb⟩ := List.append_inj' h rfl
  refine ⟨eA, ?_⟩
  have e1 := eq_take_append_last hb
  have e2 := eq_take_append_last hb'
  rw [lB, ← hpre] at e1
  rw [lB', ← hpre'] at e2
  rw [e1, e2, eA, eb]

/-- Instance of C27: the pairs `([1, 2], [1, 3])` and `([1, 2], [1, 4])`. -/
theorem join_sort_identity_witness :
    ([1, 2] ++ [3]).Pairwise (· < ·) ∧ sortItems ([1, 2] ++ [3]) = [1, 2] ++ [3] ∧
    (sortItems ([1, 2] ++ [3]) = sortItems ([1, 2] ++ [4]) →
      [1, 2] = [1, 2] ∧ [1, 3] = [1, 4]) :=
  join_sort_identity 2 [1, 2] [1, 3] [1, 2] [1, 4] 3 4 (by decide) rfl rfl (by decide)
    (by decide) (by decide) (by decide) rfl rfl rfl (by decide) (by decide) (by decide)
    (by decide) rfl

/-- C28 (the three `generateCandidates` agree).  For every FrequentLevel whose
keys are all non-empty and of the same size, `DistributedApriori::generateCandidates`
and `ParallelApriori::generateCandidates`, for any assignment of the outer
indices to the threads and any order of the critical sections, return the map
`SequentialApriori::generateCandidates` returns, and that call returns a map. -/
theorem generateCandidates_agree (F : StdMap (List α)) (num_threads : Nat) (sch : Sched)
    (hne : ∀ A ∈ keys F, A ≠ []) (hsame : ∀ A ∈ keys F, ∀ B ∈ keys F, A.length = B.length)
    (hsch : SchedOK num_threads sch) :
    (∃ C, generateCandidates F = some C) ∧
    generateCandidatesD F = generateCandidates F ∧
    generateCandidatesP F sch = generateCandidates F := by
  have hk : ∃ k, 1 ≤ k ∧ ∀ A ∈ keys F, A.length = k := by
    cases hF : keys F with
    | nil => exact ⟨1, le_refl 1, fun A hA => absurd hA (List.not_mem_nil A)⟩
    | cons A0 rest =>
      have hA0 : A0 ∈ keys F := by rw [hF]; exact List.mem_cons_self _ _
      refine ⟨A0.length, ?_, fun A hA => ?_⟩
      · have := hne A0 hA0
        cases A0 with
        | nil => exact absurd rfl this
        | cons x xs => simp
      · rw [← hF] at hA
        exact hsame A hA A0 hA0
  obtain ⟨k, hk1, hlen⟩ := hk
  obtain ⟨C, e, _, _⟩ := outerLoop_spec (joinInto_bodySpec hk1) (keys F) hlen [] ZeroMap_nil
  exact ⟨⟨C, e⟩, generateCandidatesD_eq hk1 hlen, generateCandidatesP_eq hk1 hlen hsch⟩

/-- Instance of C28: the level `{[1], [2], [3]}` with three threads. -/
theorem generateCandidates_agree_witness :
    (∃ C, generateCandidates ([([1], 3), ([2], 3), ([3], 2)] : StdMap (List Nat)) = some C) ∧
    generateCandidatesD ([([1], 3), ([2], 3), ([3], 2)] : StdMap (List Nat)) =
      generateCandidates [([1], 3), ([2], 3), ([3], 2)] ∧
    generateCandidatesP ([([1], 3), ([2], 3), ([3], 2)] : StdMap (List Nat))
        ⟨fun i => i % 3, [2, 0, 1]⟩ =
      generateCandidates [([1], 3), ([2], 3), ([3], 2)] :=
  generateCandidates_agree [([1], 3), ([2], 3), ([3], 2)] 3 ⟨fun i => i % 3, [2, 0, 1]⟩
    (by decide) (by decide)
    ⟨fun i => Nat.mod_lt i (by decide), (by decide : [2, 0, 1].Perm (List.range 3))⟩

/-- C24 (worked example, last level).  For items `a < b < c`,
`T = [[a,b],[a,b,c],[a],[b,c]]` and `min_support = 2`: the levels of the run are
`{[a]:3, [b]:3, [c]:2}` and `{[a,b]:2, [b,c]:2}` and no third one; on the second
`generateCandidates` returns the empty map, `[a,c]` and `[a,b,c]` are counted in
one transaction only, the run returns, and `[a,b,c]` is no key of its result. -/
theorem last_level_example (a b c : α) (hab : a < b) (hbc : b < c) :
    runLevels 2 2 [[a, b], [a, b, c], [a], [b, c]] =
      some [[([a], 3), ([b], 3), ([c], 2)], [([a, b], 2), ([b, c], 2)]] ∧
    generateCandidates ([([a, b], 2), ([b, c], 2)] : StdMap (List α)) = some [] ∧
    supportCount [[a, b], [a, b, c], [a], [b, c]] [a, c] = 1 ∧
    supportCount [[a, b], [a, b, c], [a], [b, c]] [a, b, c] = 1 ∧
    (∃ r, runApriori 2 2 [[a, b], [a, b, c], [a], [b, c]] = some r) ∧
    ∀ fuel r, runApriori fuel 2 [[a, b], [a, b, c], [a], [b, c]] = some r →
      [a, b, c] ∉ keys r := by
  have hac : a < c := hab.trans hbc
  have nba : ¬ b < a := not_lt_of_gt hab
  have ncb : ¬ c < b := not_lt_of_gt hbc
  have nca : ¬ c < a := not_lt_of_gt hac
  have eab : a ≠ b := ne_of_lt hab
  have ebc : b ≠ c := ne_of_lt hbc
  have eac : a ≠ c := ne_of_lt hac
  refine ⟨levels_worked a b c hab hbc, ?_, ?_, ?_, ⟨_, worked_run a b c hab hbc⟩, ?_⟩
  · simp [generateCandidates, keys, outerLoop, innerLoop, joinInto, canJoin, prefixCheck, eab]
  · simp [supportCount, isSubset, includes, hab, hbc, hac, nba, ncb, nca, eab, ebc, eac,
      eab.symm, ebc.symm, eac.symm]
  · simp [supportCount, isSubset, includes, hab, hbc, hac, nba, ncb, nca, eab, ebc, eac,
      eab.symm, ebc.symm, eac.symm]
  · intro fuel r h
    rw [runApriori_fuel_unique 2 _ h (worked_run a b c hab hbc)]
    simp [keys, eab, ebc, eac, eab.symm, ebc.symm, eac.symm]

/-- Instance of C24 with the strings `"a"`, `"b"`, `"c"` as items. -/
theorem last_level_example_witness :
    runLevels 2 2 ([[['a'], ['b']], [['a'], ['b'], ['c']], [['a']], [['b'], ['c']]] :
        List (List Str)) =
      some [[([['a']], 3), ([['b']], 3), ([['c']], 2)],
        [([['a'], ['b']], 2), ([['b'], ['c']], 2)]] ∧
    generateCandidates ([([['a'], ['b']], 2), ([['b'], ['c']], 2)] : StdMap (List Str)) =
      some [] ∧
    supportCount ([[['a'], ['b']], [['a'], ['b'], ['c']], [['a']], [['b'], ['c']]] :
        List (List Str)) [['a'], ['c']] = 1 ∧
    supportCount ([[['a'], ['b']], [['a'], ['b'], ['c']], [['a']], [['b'], ['c']]] :
        List (List Str)) [['a'], ['b'], ['c']] = 1 ∧
    (∃ r, runApriori 2 2 ([[['a'], ['b']], [['a'], ['b'], ['c']], [['a']], [['b'], ['c']]] :
        List (List Str)) = some r) ∧
    ∀ fuel r, runApriori fuel 2 ([[['a'], ['b']], [['a'], ['b'], ['c']], [['a']],
        [['b'], ['c']]] : List (List Str)) = some r →
      [['a'], ['b'], ['c']] ∉ keys r :=
  last_level_example (['a'] : Str) ['b'] ['c'] (by decide) (by decide)

end JoinClaims

/-! ## The levels of a run and their accumulation -/

section LevelsLemmas

variable {α : Type} [LinearOrder α]

theorem levelLoop_eq_levels (s : Int) (T : List (List α)) (fuel : Nat) :
    ∀ fk all, levelLoop s T fuel fk all =
      (levelLoopLevels s T fuel fk).map (fun ls => mergeAll ls all) := by
  induction fuel with
  | zero => intro fk all; rfl
  | succ n ih =>
    intro fk all
    unfold levelLoop levelLoopLevels
    by_cases h1 : fk.isEmpty = true
    · simp [h1, mergeAll]
    · simp only [h1, Bool.false_eq_true, if_false]
      cases e : generateCandidates fk with
      | none => rfl
      | some C =>
        by_cases h2 : C.isEmpty = true
        · simp [h2, mergeAll]
        · simp only [h2, Bool.false_eq_true, if_false, ih, Option.map_map]
          rfl

theorem runApriori_eq_levels (fuel : Nat) (s : Int) (T : List (List α)) :
    runApriori fuel s T = (runLevels fuel s T).map (fun ls => mergeAll ls []) := by
  unfold runApriori runLevels
  simp only [levelLoop_eq_levels, Option.map_map]
  rfl

theorem shape_filter_count_of (s : Int) (T : List (List α)) {V : List (List α)} {k : Nat}
    {C : StdMap (List α)} (h : Shape V k C) :
    Shape V k (filterBySupport s (countSupport T C)) := by
  have sub : ∀ X ∈ keys (filterBySupport s (countSupport T C)), X ∈ keys C := by
    intro X hX
    obtain ⟨n, hn⟩ := (mem_keys_iff X).1 hX
    exact ((mem_filter_count s T h.wf X n).1 hn).1
  exact ⟨MapWF_filterBySupport (MapWF_countSupport T h.wf) s,
    fun X hX => h.len X (sub X hX), fun X hX => h.sorted X (sub X hX),
    fun X hX => h.items X (sub X hX)⟩

theorem levelLoopLevels_shape (s : Int) (T V : List (List α)) (fuel : Nat) :
    ∀ k fk ls, Shape V k fk → 1 ≤ k → levelLoopLevels s T fuel fk = some ls →
      LevelsFrom (k + 1) ls := by
  induction fuel with
  | zero => intro k fk ls _ _ h; simp [levelLoopLevels] at h
  | succ n ih =>
    intro k fk ls hsh hk h
    obtain ⟨C, e, _, hC, _⟩ := shape_candidates hsh hk
    unfold levelLoopLevels at h
    by_cases h1 : fk.isEmpty = true
    · simp only [h1, if_true, Option.some.injEq] at h
      subst h
      trivial
    · simp only [h1, Bool.false_eq_true, if_false, e] at h
      by_cases h2 : C.isEmpty = true
      · simp only [h2, if_true, Option.some.injEq] at h
        subst h
        trivial
      · simp only [h2, Bool.false_eq_true, if_false, Option.map_eq_some'] at h
        obtain ⟨ls', hls', rfl⟩ := h
        have hsh' := shape_filter_count_of s T hC
        exact ⟨hsh'.wf, hsh'.len, ih (k + 1) _ ls' hsh' (by omega) hls'⟩

theorem levelsFrom_wf : ∀ (k : Nat) (ls : List (StdMap (List α))), LevelsFrom k ls →
    ∀ l ∈ ls, MapWF l
  | _, [], _ => fun l hl => absurd hl (List.not_mem_nil l)
  | k, l0 :: ls, h => by
    intro l hl
    rcases List.mem_cons.1 hl with rfl | hl
    · exact h.1
    · exact levelsFrom_wf (k + 1) ls h.2.2 l hl

theorem levelsFrom_le : ∀ (k : Nat) (ls : List (StdMap (List α))), LevelsFrom k ls →
    ∀ l ∈ ls, ∀ X ∈ keys l, k ≤ X.length
  | _, [], _ => fun l hl => absurd hl (List.not_mem_nil l)
  | k, l0 :: ls, h => by
    intro l hl X hX
    rcases List.mem_cons.1 hl with rfl | hl
    · rw [h.2.1 X hX]
    · have := levelsFrom_le (k + 1) ls h.2.2 l hl X hX
      omega

theorem levelsFrom_pairwise : ∀ (k : Nat) (ls : List (StdMap (List α))), LevelsFrom k ls →
    ls.Pairwise (fun l₁ l₂ => ∀ X ∈ keys l₁, X ∉ keys l₂)
  | _, [], _ => List.Pairwise.nil
  | k, l0 :: ls, h => by
    refine List.Pairwise.cons ?_ (levelsFrom_pairwise (k + 1) ls h.2.2)
    intro l hl X hX hX'
    have h1 := h.2.1 X hX
    have h2 := levelsFrom_le (k + 1) ls h.2.2 l hl X hX'
    omega

theorem levelsFrom_append : ∀ (k : Nat) (pre : List (StdMap (List α))) (l : StdMap (List α))
    (post : List (StdMap (List α))), LevelsFrom k (pre ++ l :: post) →
    LevelsFrom k pre ∧ MapWF l ∧ ∀ X ∈ keys l, X.length = k + pre.length
  | k, [], l, post, h => ⟨trivial, h.1, by simpa using h.2.1⟩
  | k, p :: pre, l, post, h => by
    obtain ⟨h1, h2, h3⟩ := levelsFrom_append (k + 1) pre l post h.2.2
    refine ⟨⟨h.1, h.2.1, h1⟩, h2, ?_⟩
    intro X hX
    rw [h3 X hX, List.length_cons]
    omega

theorem length_mapUpd_new {K : Type} [LinearOrder K] (k : K) (f : Int → Int) (m : StdMap K)
    (h : k ∉ keys m) : (mapUpd k f m).length = m.length + 1 := by
  induction m with
  | nil => simp [mapUpd]
  | cons p m ih =>
    obtain ⟨k1, v1⟩ := p
    have hne : k ≠ k1 := by
      intro e; apply h; simp [keys, e]
    have hm : k ∉ keys m := by
      intro e; apply h; simp only [keys, List.map_cons, List.mem_cons]; exact Or.inr e
    rcases lt_or_gt_of_ne hne with h1 | h1
    · simp [mapUpd, h1]
    · simp [mapUpd, not_lt_of_gt h1, h1, ih hm]

theorem length_mergeInto_disjoint {fk : StdMap (List α)} (hfk : MapWF fk) :
    ∀ all : StdMap (List α), (∀ X ∈ keys fk, X ∉ keys all) →
      (mergeInto fk all).length = all.length + fk.length := by
  unfold mergeInto
  induction fk with
  | nil => intro all _; simp
  | cons p fk ih =>
    obtain ⟨k, v⟩ := p
    rw [MapWF_cons] at hfk
    intro all hdis
    simp only [List.foldl_cons, List.length_cons]
    rw [ih hfk.2]
    · rw [length_mapUpd_new k _ all (hdis k (by simp [keys]))]
      omega
    · intro X hX hX'
      rcases (mem_keys_mapUpd k _ all X).1 hX' with e | e
      · exact absurd (hfk.1 X hX) (by rw [e]; exact lt_irrefl k)
      · exact hdis X (by simp only [keys, List.map_cons, List.mem_cons]; exact Or.inr hX) e

theorem mem_mergeInto_disjoint {fk all : StdMap (List α)} (hfk : MapWF fk) (hall : MapWF all)
    (hdis : ∀ X ∈ keys fk, X ∉ keys all) (e : List α × Int) :
    e ∈ mergeInto fk all ↔ e ∈ all ∨ e ∈ fk := by
  obtain ⟨X, n⟩ := e
  rw [← mapFind_eq_some_iff (MapWF_mergeInto fk hall), ← mapFind_eq_some_iff hfk,
    ← mapFind_eq_some_iff hall, mapFind_mergeInto hfk]
  cases h1 : mapFind X fk with
  | none => simp
  | some v =>
    have hX : X ∈ keys fk := (mem_keys_iff X).2 ⟨v, (mapFind_eq_some_iff hfk X v).1 h1⟩
    have h2 : mapFind X all = none := by
      cases h3 : mapFind X all with
      | none => rfl
      | some w =>
        exact absurd ((mem_keys_iff X).2 ⟨w, (mapFind_eq_some_iff hall X w).1 h3⟩) (hdis X hX)
    simp [h2]

theorem mergeAll_spec : ∀ (ls : List (StdMap (List α))) (k : Nat) (all : StdMap (List α)),
    LevelsFrom k ls → MapWF all → (∀ X ∈ keys all, X.length < k) →
    MapWF (mergeAll ls all) ∧ (∀ X ∈ keys (mergeAll ls all), X.length < k + ls.length) ∧
    (∀ e, e ∈ mergeAll ls all ↔ e ∈ all ∨ ∃ l ∈ ls, e ∈ l) ∧
    (mergeAll ls all).length = all.length + (ls.map List.length).sum
  | [], k, all, _, hall, hlen => by
    refine ⟨hall, by simpa using hlen, ?_, by simp [mergeAll]⟩
    intro e
    simp [mergeAll]
  | l :: ls, k, all, h, hall, hlen => by
    have hdis : ∀ X ∈ keys l, X ∉ keys all := by
      intro X hX hX'
      have := h.2.1 X hX
      have := hlen X hX'
      omega
    have hwf := MapWF_mergeInto l hall
    have hlen' : ∀ X ∈ keys (mergeInto l all), X.length < k + 1 := by
      intro X hX
      rcases (mem_keys_mergeInto h.1 hall X).1 hX with hX | hX
      · rw [h.2.1 X hX]; omega
      · have := hlen X hX; omega
    obtain ⟨r1, r2, r3, r4⟩ := mergeAll_spec ls (k + 1) (mergeInto l all) h.2.2 hwf hlen'
    have e0 : mergeAll (l :: ls) all = mergeAll ls (mergeInto l all) := rfl
    rw [e0]
    refine ⟨r1, ?_, ?_, ?_⟩
    · intro X hX
      have := r2 X hX
      rw [List.length_cons]
      omega
    · intro e
      rw [r3 e, mem_mergeInto_disjoint h.1 hall hdis]
      simp only [List.mem_cons, exists_eq_or_imp]
      tauto
    · rw [r4, length_mergeInto_disjoint h.1 all hdis, List.map_cons, List.sum_cons]
      omega

theorem mergeAll_append (pre : List (StdMap (List α))) (l all : StdMap (List α)) :
    mergeAll (pre ++ [l]) all = mergeInto l (mergeAll pre all) := by
  simp [mergeAll]

theorem runLevels_levelsFrom (fuel : Nat) (s : Int) (T : List (List α))
    (levels : List (StdMap (List α))) (h : runLevels fuel s T = some levels) :
    LevelsFrom 1 levels := by
  unfold runLevels at h
  simp only [Option.map_eq_some'] at h
  obtain ⟨ls, hls, rfl⟩ := h
  have hsh := shape_level1 s T
  exact ⟨hsh.wf, hsh.len, levelLoopLevels_shape s T T fuel 1 _ ls hsh (le_refl 1) hls⟩

/-- C22 (append-only accumulation).  In every run of `runApriori` the level
maps assigned to `frequent_k` (level 1 first) are genuine maps, the keys of
level `i` have size `i`, their successive merge is the returned map, and
merging a level into the accumulated map of the earlier levels keeps every
entry already present; the returned map has exactly the entries of the level
maps, the level maps have pairwise disjoint key sets, and the size of the
returned map is the sum of their sizes.  Such a run exists. -/
theorem accumulation_append_only (s : Int) (T : List (List α)) :
    (∃ fuel levels, runLevels fuel s T = some levels) ∧
    ∀ fuel levels, runLevels fuel s T = some levels →
      runApriori fuel s T = some (mergeAll levels []) ∧
      LevelsFrom 1 levels ∧
      (∀ pre l post, levels = pre ++ l :: post →
        ∀ e ∈ mergeAll pre [], e ∈ mergeInto l (mergeAll pre [])) ∧
      (∀ e, e ∈ mergeAll levels [] ↔ ∃ l ∈ levels, e ∈ l) ∧
      levels.Pairwise (fun l₁ l₂ => ∀ X ∈ keys l₁, X ∉ keys l₂) ∧
      (mergeAll levels []).length = (levels.map List.length).sum := by
  constructor
  · obtain ⟨r, hr⟩ := runApriori_terminates s T
    rw [runApriori_eq_levels] at hr
    cases e : runLevels (T.flatten.length + 1) s T with
    | none => rw [e] at hr; simp at hr
    | some levels => exact ⟨_, levels, e⟩
  · intro fuel levels h
    have hL := runLevels_levelsFrom fuel s T levels h
    have hnil : ∀ X ∈ keys ([] : StdMap (List α)), X.length < 1 := by
      intro X hX; simp [keys] at hX
    obtain ⟨_, _, r3, r4⟩ := mergeAll_spec levels 1 [] hL MapWF_nil hnil
    refine ⟨by rw [runApriori_eq_levels, h]; rfl, hL, ?_, ?_, levelsFrom_pairwise 1 levels hL, ?_⟩
    · intro pre l post e x hx
      rw [e] at hL
      obtain ⟨hpre, hl, hlen⟩ := levelsFrom_append 1 pre l post hL
      obtain ⟨p1, p2, _, _⟩ := mergeAll_spec pre 1 [] hpre MapWF_nil hnil
      have hdis : ∀ X ∈ keys l, X ∉ keys (mergeAll pre []) := by
        intro X hX hX'
        have := hlen X hX
        have := p2 X hX'
        omega
      exact (mem_mergeInto_disjoint hl p1 hdis x).2 (Or.inl hx)
    · intro e
      rw [r3 e]
      simp
    · rw [r4]
      simp

/-- Instance of C22 on `T = [[1,2],[1,2,3],[1],[2,3]]` with `min_support = 2`:
two levels of sizes 3 and 2, five entries in the result. -/
theorem accumulation_append_only_witness :
    runLevels 2 2 ([[1, 2], [1, 2, 3], [1], [2, 3]] : List (List Nat)) =
      some [[([1], 3), ([2], 3), ([3], 2)], [([1, 2], 2), ([2, 3], 2)]] ∧
    runApriori 2 2 ([[1, 2], [1, 2, 3], [1], [2, 3]] : List (List Nat)) =
      some (mergeAll [[([1], 3), ([2], 3), ([3], 2)], [([1, 2], 2), ([2, 3], 2)]] []) ∧
    (mergeAll ([[([1], 3), ([2], 3), ([3], 2)], [([1, 2], 2), ([2, 3], 2)]] :
        List (StdMap (List Nat))) []).length =
      (([[([1], 3), ([2], 3), ([3], 2)], [([1, 2], 2), ([2, 3], 2)]] :
        List (StdMap (List Nat))).map List.length).sum :=
  ⟨levels_worked 1 2 3 (by decide) (by decide),
    ((accumulation_append_only 2 [[1, 2], [1, 2, 3], [1], [2, 3]]).2 2 _
      (levels_worked 1 2 3 (by decide) (by decide))).1,
    ((accumulation_append_only 2 [[1, 2], [1, 2, 3], [1], [2, 3]]).2 2 _
      (levels_worked 1 2 3 (by decide) (by decide))).2.2.2.2.2⟩

end LevelsLemmas

/-! ## Termination within the length of the longest transaction -/

section LevelBound

variable {α : Type} [LinearOrder α]

theorem includes_length : ∀ (t x : List α), includes t x = true → x.length ≤ t.length
  | [], x, h => by
    have : x = [] := by simpa [includes] using h
    simp [this]
  | _ :: _, [], _ => by simp
  | a :: t, b :: x, h => by
    unfold includes at h
    by_cases h1 : b < a
    · simp [h1] at h
    · by_cases h2 : a < b
      · simp only [h1, h2, if_true, if_false] at h
        have := includes_length t (b :: x) h
        simp only [List.length_cons] at this ⊢
        omega
      · simp only [h1, h2, if_false] at h
        have := includes_length t x h
        simp only [List.length_cons]
        omega

omit [LinearOrder α] in
theorem le_maxLen (T : List (List α)) (t : List α) (h : t ∈ T) : t.length ≤ maxLen T := by
  unfold maxLen
  induction T with
  | nil => exact absurd h (List.not_mem_nil t)
  | cons u T ih =>
    simp only [List.map_cons, List.foldr_cons]
    rcases List.mem_cons.1 h with rfl | h
    · exact le_max_left _ _
    · exact le_trans (ih h) (le_max_right _ _)

theorem length_le_of_supportCount_pos (T : List (List α)) (X : List α)
    (h : 1 ≤ supportCount T X) : X.length ≤ maxLen T := by
  rw [supportCount_eq] at h
  have hpos : 0 < T.countP (fun t => isSubset X t) := by exact_mod_cast h
  obtain ⟨t, ht, hsub⟩ := List.countP_pos_iff.1 hpos
  exact le_trans (includes_length t X hsub) (le_maxLen T t ht)

theorem level1_length_le (s : Int) (T : List (List α)) :
    ∀ X ∈ keys (generateFrequent1Itemsets s T), X.length ≤ maxLen T := by
  intro X hX
  obtain ⟨n, hn⟩ := (mem_keys_iff X).1 hX
  obtain ⟨x, rfl, _, hpos, _⟩ := (mem_generateFrequent1Itemsets s T X n).1 hn
  obtain ⟨t, ht, hxt⟩ := List.mem_flatten.1 (List.count_pos_iff.1 hpos)
  have h1 : 1 ≤ t.length := by
    cases t with
    | nil => exact absurd hxt (List.not_mem_nil x)
    | cons y t => simp
  exact le_trans h1 (le_maxLen T t ht)

theorem filter_count_length_le (s : Int) (hs : 1 ≤ s) (T : List (List α))
    {C : StdMap (List α)} (hC : MapWF C) :
    ∀ X ∈ keys (filterBySupport s (countSupport T C)), X.length ≤ maxLen T := by
  intro X hX
  obtain ⟨n, hn⟩ := (mem_keys_iff X).1 hX
  obtain ⟨_, rfl, h⟩ := (mem_filter_count s T hC X n).1 hn
  exact length_le_of_supportCount_pos T X (le_trans hs h)

theorem level_le_of_nonempty {V : List (List α)} {k L : Nat} {fk : StdMap (List α)}
    (h : Shape V k fk) (hb : ∀ X ∈ keys fk, X.length ≤ L) (hne : fk.isEmpty ≠ true) :
    k ≤ L := by
  cases fk with
  | nil => simp at hne
  | cons p fk =>
    have hp : p.1 ∈ keys (p :: fk) := by simp [keys]
    rw [← h.len p.1 hp]
    exact hb p.1 hp

theorem levelLoop_within (s : Int) (hs : 1 ≤ s) (T : List (List α)) (n : Nat) :
    ∀ (k : Nat) (fk all : StdMap (List α)), Shape T k fk → 1 ≤ k → k ≤ maxLen T + 1 →
      (∀ X ∈ keys fk, X.length ≤ maxLen T) → maxLen T + 1 ≤ n + k →
      ∃ r i, levelLoop s T (n + 1) fk all = some r ∧
        levelLoopIters s T (n + 1) fk = some i ∧ i + k ≤ maxLen T + 1 := by
  induction n with
  | zero =>
    intro k fk all h hk hk' hb hn
    unfold levelLoop levelLoopIters
    by_cases h1 : fk.isEmpty = true
    · exact ⟨all, 0, by simp [h1], by simp [h1], by omega⟩
    · have := level_le_of_nonempty h hb h1
      omega
  | succ n ih =>
    intro k fk all h hk hk' hb hn
    obtain ⟨C, e, _, hC, _⟩ := shape_candidates h hk
    unfold levelLoop levelLoopIters
    by_cases h1 : fk.isEmpty = true
    · exact ⟨all, 0, by simp [h1], by simp [h1], by omega⟩
    · have hkL := level_le_of_nonempty h hb h1
      by_cases h2 : C.isEmpty = true
      · exact ⟨all, 1, by simp [h1, e, h2], by simp [h1, e, h2], by omega⟩
      · simp only [h1, e, h2, Bool.false_eq_true, if_false]
        obtain ⟨r, i, hr, hi, hle⟩ := ih (k + 1) _
          (mergeInto (filterBySupport s (countSupport T C)) all)
          (shape_filter_count s hC) (by omega) (by omega)
          (filter_count_length_le s hs T hC.wf) (by omega)
        exact ⟨r, i + 1, hr, by simp [hi], by omega⟩

theorem runApriori_length_le (s : Int) (hs : 1 ≤ s) (T : List (List α)) (fuel : Nat)
    (r : StdMap (List α)) (h : runApriori fuel s T = some r) :
    ∀ X ∈ keys r, X.length ≤ maxLen T := by
  unfold runApriori at h
  have hsh := shape_level1 s T
  refine levelLoop_rule s T
    (fun k fk all => Shape T k fk ∧ 1 ≤ k ∧ MapWF all ∧ ∀ X ∈ keys all, X.length ≤ maxLen T)
    (fun r => ∀ X ∈ keys r, X.length ≤ maxLen T)
    (fun _ _ _ hinv _ => hinv.2.2.2) (fun _ _ _ hinv _ _ => hinv.2.2.2) ?_ fuel 1 _ _ r ?_ h
  · intro k fk all C hinv _ e _
    obtain ⟨hsh, hk, hall, hb⟩ := hinv
    obtain ⟨C', e', _, hC, _⟩ := shape_candidates hsh hk
    rw [e] at e'
    cases e'
    have hsh' := shape_filter_count s (T := T) hC
    refine ⟨hsh', by omega, MapWF_mergeInto _ hall, ?_⟩
    intro X hX
    rcases (mem_keys_mergeInto hsh'.wf hall X).1 hX with hX | hX
    · exact filter_count_length_le s hs T hC.wf X hX
    · exact hb X hX
  · refine ⟨hsh, le_refl 1, MapWF_mergeInto _ MapWF_nil, ?_⟩
    intro X hX
    rcases (mem_keys_mergeInto hsh.wf MapWF_nil X).1 hX with hX | hX
    · exact level1_length_le s T X hX
    · simp [keys] at hX

/-- C29 (termination and level bound).  For every transaction list `T` and
every threshold `s ≥ 1`, with `L` the length of the longest transaction of `T`
(`0` for the empty list): `runApriori` returns after entering the body of its
level loop at most `L` times, and every key of the map returned by a run has
size at most `L`. -/
theorem runApriori_level_bound (s : Int) (T : List (List α)) (hs : 1 ≤ s) :
    (∃ r i, runApriori (maxLen T + 1) s T = some r ∧
      levelLoopIters s T (maxLen T + 1) (generateFrequent1Itemsets s T) = some i ∧
      i ≤ maxLen T) ∧
    ∀ fuel r, runApriori fuel s T = some r → ∀ X ∈ keys r, X.length ≤ maxLen T := by
  refine ⟨?_, fun fuel r h => runApriori_length_le s hs T fuel r h⟩
  obtain ⟨r, i, hr, hi, hle⟩ := levelLoop_within s hs T (maxLen T) 1
    (generateFrequent1Itemsets s T) (mergeInto (generateFrequent1Itemsets s T) [])
    (shape_level1 s T) (le_refl 1) (by omega) (level1_length_le s T) (by omega)
  exact ⟨r, i, hr, hi, by omega⟩

/-- Instance of C29 on `T = [[1,2],[1,2,3],[1],[2,3]]` with `min_support = 2`. -/
theorem runApriori_level_bound_witness :
    (∃ r i, runApriori (maxLen ([[1, 2], [1, 2, 3], [1], [2, 3]] : List (List Nat)) + 1) 2
        [[1, 2], [1, 2, 3], [1], [2, 3]] = some r ∧
      levelLoopIters 2 [[1, 2], [1, 2, 3], [1], [2, 3]]
        (maxLen ([[1, 2], [1, 2, 3], [1], [2, 3]] : List (List Nat)) + 1)
        (generateFrequent1Itemsets 2 [[1, 2], [1, 2, 3], [1], [2, 3]]) = some i ∧
      i ≤ maxLen ([[1, 2], [1, 2, 3], [1], [2, 3]] : List (List Nat))) ∧
    ∀ fuel r, runApriori fuel 2 ([[1, 2], [1, 2, 3], [1], [2, 3]] : List (List Nat)) = some r →
      ∀ X ∈ keys r, X.length ≤ maxLen ([[1, 2], [1, 2, 3], [1], [2, 3]] : List (List Nat)) :=
  runApriori_level_bound 2 [[1, 2], [1, 2, 3], [1], [2, 3]] (by decide)

end LevelBound

/-! ## The distributed loop step by step -/

section DistributedSteps

theorem distLevelLoop_succ (s : Int) (fuel : Nat) (ps : List Proc) :
    distLevelLoop s (fuel + 1) ps =
      match distLevelStep s ps with
      | none => none
      | some none => some ps
      | some (some ps') => distLevelLoop s fuel ps' := by
  rw [distLevelLoop]
  unfold distLevelStep
  simp only []
  split_ifs <;> rfl

theorem distLevelStep_exit (s : Int) (bs : List (List (List Str)))
    (fk all : StdMap (List Str)) (c : StdMap (List Str)) (hc : c.isEmpty = true)
    (h : (if fk.isEmpty then some [] else generateCandidatesD fk) = some c) :
    distLevelStep s (agreeing bs fk all) = some none := by
  have hc' : c = [] := by simpa using hc
  subst hc'
  unfold distLevelStep agreeing
  simp only [List.map_map, Function.comp_def, procCandidates, h, any_map_const, all_map_const]
  simp

theorem distLevelStep_next (s : Int) (bs : List (List (List Str)))
    (hbs : bs ≠ []) (fk all C : StdMap (List Str)) (hfk : fk.isEmpty = false)
    (h : generateCandidatesD fk = some C) (hC : C.isEmpty = false) (hwf : MapWF C) :
    distLevelStep s (agreeing bs fk all) =
      some (some (agreeing bs (filterBySupport s (countSupport bs.flatten C))
          (mergeInto (filterBySupport s (countSupport bs.flatten C)) all))) := by
  have hne : bs.isEmpty = false := by simpa using hbs
  have hlocals : List.zipWith (fun (p : Proc) c => countLocalSupport p.local_transactions c)
      (bs.map (fun b => (⟨b, fk, all⟩ : Proc)))
      (bs.map (fun _ => C)) = bs.map (fun b => countLocalSupport b C) := by
    rw [List.zipWith_map, List.zipWith_same]
  have hglobals : (bs.map (fun b => countLocalSupport b C)).map
      (aggregateSupport (bs.map (fun b => countLocalSupport b C))) =
      bs.map (fun _ => some (countSupport bs.flatten C)) := by
    rw [List.map_map]
    apply List.map_congr_left
    intro b _
    exact aggregateSupport_countLocal bs hwf b
  have hadv : List.zipWith (fun (p : Proc) (g : Option (StdMap (List Str))) =>
        procAdvance s p (g.getD []))
      (bs.map (fun b => (⟨b, fk, all⟩ : Proc)))
      (bs.map (fun _ => some (countSupport bs.flatten C))) =
      agreeing bs (filterBySupport s (countSupport bs.flatten C))
        (mergeInto (filterBySupport s (countSupport bs.flatten C)) all) := by
    rw [List.zipWith_map, List.zipWith_same]
    rfl
  unfold distLevelStep agreeing
  simp only [List.map_map, Function.comp_def, procCandidates, hfk, Bool.false_eq_true,
    if_false, h, any_map_const, all_map_const, hne, Option.isNone_some, Option.getD_some, hC,
    Bool.not_false, Bool.and_false, Bool.or_false]
  simp only [hlocals, hglobals, any_map_const, hne, Option.isNone_some, Bool.and_false,
    Bool.false_eq_true, if_false, hadv]
  rfl

theorem levelLoop_terminates_of (s : Int) (T V : List (List Str)) (n : Nat) :
    ∀ (k : Nat) (fk all : StdMap (List Str)), Shape V k fk → 1 ≤ k →
      V.flatten.length + 1 ≤ n + k → ∃ r, levelLoop s T (n + 1) fk all = some r := by
  induction n with
  | zero =>
    intro k fk all h hk hn
    obtain ⟨C, e, _, hC, _⟩ := shape_candidates h hk
    unfold levelLoop
    by_cases h1 : fk.isEmpty = true
    · exact ⟨all, by simp [h1]⟩
    · by_cases h2 : C.isEmpty = true
      · exact ⟨all, by simp [h1, e, h2]⟩
      · have := shape_length_le hC (by simpa using h2)
        omega
  | succ n ih =>
    intro k fk all h hk hn
    obtain ⟨C, e, _, hC, _⟩ := shape_candidates h hk
    unfold levelLoop
    by_cases h1 : fk.isEmpty = true
    · exact ⟨all, by simp [h1]⟩
    · by_cases h2 : C.isEmpty = true
      · exact ⟨all, by simp [h1, e, h2]⟩
      · simp only [h1, e, h2, Bool.false_eq_true, if_false]
        exact ih (k + 1) _ _ (shape_filter_count_of s T hC) (by omega) (by omega)

theorem distLevelLoop_eq_of (s : Int) (bs : List (List (List Str))) (hbs : bs ≠ [])
    (V : List (List Str)) (fuel : Nat) :
    ∀ (k : Nat) (fk all : StdMap (List Str)), Shape V k fk → 1 ≤ k →
      (∀ r, levelLoop s bs.flatten fuel fk all = some r →
        ∃ fkf, distLevelLoop s fuel (agreeing bs fk all) = some (agreeing bs fkf r)) ∧
      (levelLoop s bs.flatten fuel fk all = none →
        distLevelLoop s fuel (agreeing bs fk all) = none) := by
  induction fuel with
  | zero =>
    intro k fk all _ _
    exact ⟨fun r h => by simp [levelLoop] at h, fun _ => rfl⟩
  | succ f ih =>
    intro k fk all hsh hk
    obtain ⟨C, e, zC, hCs, _⟩ := shape_candidates hsh hk
    have eD : generateCandidatesD fk = some C := by
      rw [generateCandidatesD_eq hk hsh.len, e]
    rw [levelLoop]
    by_cases h1 : fk.isEmpty = true
    · have hd := distLevelLoop_some s f bs fk all [] rfl (by simp [h1])
      simp only [h1, if_true]
      refine ⟨fun r h => ⟨fk, ?_⟩, fun h => by simp at h⟩
      rw [hd]
      cases h
      rfl
    · have h1' : fk.isEmpty = false := by simpa using h1
      simp only [h1, Bool.false_eq_true, if_false, e]
      by_cases h2 : C.isEmpty = true
      · have hd := distLevelLoop_some s f bs fk all C h2 (by simp [h1', eD])
        simp only [h2, if_true]
        refine ⟨fun r h => ⟨fk, ?_⟩, fun h => by simp at h⟩
        rw [hd]
        cases h
        rfl
      · have h2' : C.isEmpty = false := by simpa using h2
        simp only [h2, Bool.false_eq_true, if_false]
        rw [distLevelLoop_step s f bs hbs fk all C h1' eD h2' zC.1]
        exact ih (k + 1) _ _ (shape_filter_count_of s bs.flatten hCs) (by omega)

theorem fold_singletons_shape (U : List Str) (c : Str → Bool) (v : Str → Int) :
    ∀ g : StdMap (List Str), MapWF g → (∀ X ∈ keys g, ∃ x, X = [x]) →
      MapWF (U.foldl (fun g item => if c item then mapUpd [item] (fun _ => v item) g else g) g) ∧
      ∀ X ∈ keys (U.foldl
          (fun g item => if c item then mapUpd [item] (fun _ => v item) g else g) g),
        ∃ x, X = [x] := by
  induction U with
  | nil => intro g h1 h2; exact ⟨h1, h2⟩
  | cons u U ih =>
    intro g h1 h2
    simp only [List.foldl_cons]
    by_cases hc : c u = true
    · simp only [hc, if_true]
      apply ih _ (MapWF_mapUpd _ _ h1)
      intro X hX
      rcases (mem_keys_mapUpd _ _ _ X).1 hX with e | e
      · exact ⟨u, e⟩
      · exact h2 X e
    · simp only [hc, Bool.false_eq_true, if_false]
      exact ih g h1 h2

theorem aggregateC1_shape (s : Int) (locals : List (StdMap Str)) :
    Shape (keys (aggregateC1 s locals)) 1 (aggregateC1 s locals) := by
  have h := fold_singletons_shape (allUniqueItems locals)
    (fun item => decide (globalCount locals item ≥ s)) (globalCount locals) [] MapWF_nil
    (by intro X hX; simp [keys] at hX)
  have e : aggregateC1 s locals = (allUniqueItems locals).foldl
      (fun g item => if decide (globalCount locals item ≥ s) = true then
        mapUpd [item] (fun _ => globalCount locals item) g else g) [] := by
    rw [aggregateC1_eq_foldl]
    simp only [decide_eq_true_eq]
  rw [← e] at h
  refine ⟨h.1, ?_, ?_, ?_⟩
  · intro X hX
    obtain ⟨x, rfl⟩ := h.2 X hX
    rfl
  · intro X hX
    obtain ⟨x, rfl⟩ := h.2 X hX
    exact List.pairwise_singleton _ _
  · intro X hX i hi
    exact List.mem_flatten.2 ⟨X, hX, hi⟩

theorem distInit_agreeing (s : Int) (bs : List (List (List Str)))
    (fk all : StdMap (List Str)) :
    distInit s (agreeing bs fk all) =
      agreeing bs (aggregateC1 s (bs.map generateLocalC1))
        (mergeInto (aggregateC1 s (bs.map generateLocalC1)) all) := by
  unfold distInit agreeing
  simp only [List.map_map, Function.comp_def]

theorem runDistributedApriori_eq_init (fuel : Nat) (s : Int) (ps : List Proc) :
    runDistributedApriori fuel s ps = distLevelLoop s fuel (distInit s ps) := rfl

end DistributedSteps

/-! ## Claims on repeated runs, on the agreement of the processes and on the
failed load -/

section RunClaims

theorem mapFind_mergeAll {α : Type} [LinearOrder α] (X : List α) :
    ∀ (ls : List (StdMap (List α))) (all : StdMap (List α)), (∀ l ∈ ls, MapWF l) →
      mapFind X (mergeAll ls all) = (lastFind X ls).or (mapFind X all)
  | [], all, _ => by simp [mergeAll, lastFind]
  | l :: ls, all, h => by
    have e0 : mergeAll (l :: ls) all = mergeAll ls (mergeInto l all) := rfl
    rw [e0, mapFind_mergeAll X ls _ (fun l' hl' => h l' (List.mem_cons_of_mem _ hl')),
      mapFind_mergeInto (h l (List.mem_cons_self _ _)), lastFind]
    cases lastFind X ls <;> cases mapFind X l <;> rfl

theorem MapWF_mergeAll {α : Type} [LinearOrder α] :
    ∀ (ls : List (StdMap (List α))) (all : StdMap (List α)), MapWF all →
      MapWF (mergeAll ls all)
  | [], _, h => h
  | l :: ls, all, h => MapWF_mergeAll ls (mergeInto l all) (MapWF_mergeInto l h)

theorem mergeAll_idem {α : Type} [LinearOrder α] (ls : List (StdMap (List α)))
    (all : StdMap (List α)) (hls : ∀ l ∈ ls, MapWF l) (hall : MapWF all) :
    mergeAll ls (mergeAll ls all) = mergeAll ls all := by
  apply map_ext (MapWF_mergeAll ls _ (MapWF_mergeAll ls all hall)) (MapWF_mergeAll ls all hall)
  intro X
  rw [mapFind_mergeAll X ls _ hls, mapFind_mergeAll X ls _ hls]
  cases lastFind X ls <;> rfl

theorem runAprioriP_eq_seq {α : Type} [LinearOrder α] (T : List (List α)) (s : Int)
    (num_threads : Nat) (sched1 : Sched) (schedC schedS : Nat → Sched)
    (h1 : SchedOK num_threads sched1) (hC : ∀ k, SchedOK num_threads (schedC k))
    (hS : ∀ k, SchedOK num_threads (schedS k)) (fuel : Nat) :
    runAprioriP fuel s T num_threads sched1 schedC schedS = runApriori fuel s T := by
  unfold runAprioriP runApriori
  simp only [generateFrequent1ItemsetsP_eq s T h1]
  exact levelLoopP_eq s T num_threads schedC schedS hC hS fuel 1 1 _ _ (shape_level1 s T)
    (le_refl 1)

theorem distributed_returns (s : Int) (bs : List (List (List Str))) (hbs : bs ≠ [])
    (all : StdMap (List Str)) :
    ∃ fuel ps, runDistributedApriori fuel s (agreeing bs [] all) = some ps := by
  have hsh := aggregateC1_shape s (bs.map generateLocalC1)
  obtain ⟨r, hr⟩ := levelLoop_terminates_of s bs.flatten _ _ 1 _
    (mergeInto (aggregateC1 s (bs.map generateLocalC1)) all) hsh (le_refl 1) (le_refl _)
  obtain ⟨fkf, h⟩ := (distLevelLoop_eq_of s bs hbs _ _ 1 _ _ hsh (le_refl 1)).1 r hr
  exact ⟨_, _, by rw [runDistributedApriori_eq_init, distInit_agreeing]; exact h⟩

theorem distributed_twice (s : Int) (bs : List (List (List Str))) (hbs : bs ≠ [])
    (fuel : Nat) (ps₁ : List Proc)
    (h : runDistributedApriori fuel s (agreeing bs [] []) = some ps₁) :
    ∃ fk₁ fk₂ r, ps₁ = agreeing bs fk₁ r ∧
      runDistributedApriori fuel s ps₁ = some (agreeing bs fk₂ r) := by
  have hsh := aggregateC1_shape s (bs.map generateLocalC1)
  rw [runDistributedApriori_eq_init, distInit_agreeing] at h
  have hsim := fun all => distLevelLoop_eq_of s bs hbs _ fuel 1 _ all hsh (le_refl 1)
  cases hl : levelLoopLevels s bs.flatten fuel (aggregateC1 s (bs.map generateLocalC1)) with
  | none =>
    have := (hsim (mergeInto (aggregateC1 s (bs.map generateLocalC1)) [])).2
      (by rw [levelLoop_eq_levels, hl]; rfl)
    rw [this] at h
    cases h
  | some ls =>
    have hwf : ∀ l ∈ aggregateC1 s (bs.map generateLocalC1) :: ls, MapWF l := by
      intro l hl'
      rcases List.mem_cons.1 hl' with rfl | hl'
      · exact hsh.wf
      · exact levelsFrom_wf 2 ls
          (levelLoopLevels_shape s bs.flatten _ fuel 1 _ ls hsh (le_refl 1) hl) l hl'
    obtain ⟨fk₁, h₁⟩ := (hsim (mergeInto (aggregateC1 s (bs.map generateLocalC1)) [])).1 _
      (by rw [levelLoop_eq_levels, hl]; rfl)
    rw [h₁] at h
    cases h
    obtain ⟨fk₂, h₂⟩ := (hsim (mergeInto (aggregateC1 s (bs.map generateLocalC1))
      (mergeAll ls (mergeInto (aggregateC1 s (bs.map generateLocalC1)) [])))).1 _
      (by rw [levelLoop_eq_levels, hl]; rfl)
    refine ⟨fk₁, fk₂, _, rfl, ?_⟩
    rw [runDistributedApriori_eq_init, distInit_agreeing, h₂]
    have e := mergeAll_idem (aggregateC1 s (bs.map generateLocalC1) :: ls) [] hwf MapWF_nil
    have e1 : ∀ a, mergeAll (aggregateC1 s (bs.map generateLocalC1) :: ls) a =
        mergeAll ls (mergeInto (aggregateC1 s (bs.map generateLocalC1)) a) := fun _ => rfl
    rw [e1, e1] at e
    beta_reduce
    rw [e]

theorem reach_agreeing (s : Int) (bs : List (List (List Str))) (hbs : bs ≠ [])
    (ps : List Proc)
    (h : Relation.ReflTransGen (fun p q => distLevelStep s p = some (some q))
      (distInit s (agreeing bs [] [])) ps) :
    ∃ k fk all, 1 ≤ k ∧ Shape (keys (aggregateC1 s (bs.map generateLocalC1))) k fk ∧
      ps = agreeing bs fk all := by
  induction h with
  | refl =>
    exact ⟨1, _, _, le_refl 1, aggregateC1_shape s (bs.map generateLocalC1),
      distInit_agreeing s bs [] []⟩
  | tail _ hstep ih =>
    obtain ⟨k, fk, all, hk, hsh, rfl⟩ := ih
    obtain ⟨C, e, zC, hCs, _⟩ := shape_candidates hsh hk
    have eD : generateCandidatesD fk = some C := by
      rw [generateCandidatesD_eq hk hsh.len, e]
    by_cases h1 : fk.isEmpty = true
    · rw [distLevelStep_exit s bs fk all [] rfl (by simp [h1])] at hstep
      cases hstep
    · have h1' : fk.isEmpty = false := by simpa using h1
      by_cases h2 : C.isEmpty = true
      · rw [distLevelStep_exit s bs fk all C h2 (by simp [h1', eD])] at hstep
        cases hstep
      · have h2' : C.isEmpty = false := by simpa using h2
        rw [distLevelStep_next s bs hbs fk all C h1' eD h2' zC.1] at hstep
        cases hstep
        exact ⟨k + 1, _, _, by omega, shape_filter_count_of s bs.flatten hCs, rfl⟩

/-- C26 (cross-process agreement).  Let the processes hold any local
transactions `bs` (one list per process, at least one process) on fresh
objects.  In every state `ps` the `while` loop of `runDistributedApriori`
reaches at its test, all processes hold the same `frequent_k`, the call
`generateCandidates(frequent_k)` returns the same map `C` (same keys, same
order) on every process, `aggregateSupport` returns the same map on every
process from the local supports of `C`, and the iteration does not end in
mismatched collectives. -/
theorem cross_process_agreement (s : Int) (bs : List (List (List Str))) (ps : List Proc)
    (hbs : bs ≠ [])
    (hreach : Relation.ReflTransGen (fun p q => distLevelStep s p = some (some q))
      (distInit s (agreeing bs [] [])) ps) :
    ∃ fk C G,
      (∀ p ∈ ps, p.frequent_k = fk) ∧
      (∀ p ∈ ps, generateCandidatesD p.frequent_k = some C) ∧
      (∀ p ∈ ps,
        aggregateSupport (ps.map (fun q => countLocalSupport q.local_transactions C))
          (countLocalSupport p.local_transactions C) = some G) ∧
      distLevelStep s ps ≠ none := by
  obtain ⟨k, fk, all, hk, hsh, rfl⟩ := reach_agreeing s bs hbs ps hreach
  obtain ⟨C, e, zC, hCs, _⟩ := shape_candidates hsh hk
  have eD : generateCandidatesD fk = some C := by
    rw [generateCandidatesD_eq hk hsh.len, e]
  refine ⟨fk, C, countSupport bs.flatten C, ?_, ?_, ?_, ?_⟩
  · intro p hp
    obtain ⟨b, _, rfl⟩ := List.mem_map.1 hp
    rfl
  · intro p hp
    obtain ⟨b, _, rfl⟩ := List.mem_map.1 hp
    exact eD
  · intro p hp
    obtain ⟨b, _, rfl⟩ := List.mem_map.1 hp
    have : (agreeing bs fk all).map (fun q => countLocalSupport q.local_transactions C) =
        bs.map (fun b => countLocalSupport b C) := by
      unfold agreeing
      rw [List.map_map]
      rfl
    rw [this]
    exact aggregateSupport_countLocal bs zC.1 b
  · by_cases h1 : fk.isEmpty = true
    · rw [distLevelStep_exit s bs fk all [] rfl (by simp [h1])]
      simp
    · have h1' : fk.isEmpty = false := by simpa using h1
      by_cases h2 : C.isEmpty = true
      · rw [distLevelStep_exit s bs fk all C h2 (by simp [h1', eD])]
        simp
      · have h2' : C.isEmpty = false := by simpa using h2
        rw [distLevelStep_next s bs hbs fk all C h1' eD h2' zC.1]
        simp

/-- Instance of C26: two processes at the first test of the loop, on the worked
example with `min_support = 2`. -/
theorem cross_process_agreement_witness :
    ∃ fk C G,
      (∀ p ∈ distInit 2 (agreeing [[[['a'], ['b']], [['a'], ['b'], ['c']]],
          [[['a']], [['b'], ['c']]]] [] []), p.frequent_k = fk) ∧
      (∀ p ∈ distInit 2 (agreeing [[[['a'], ['b']], [['a'], ['b'], ['c']]],
          [[['a']], [['b'], ['c']]]] [] []), generateCandidatesD p.frequent_k = some C) ∧
      (∀ p ∈ distInit 2 (agreeing [[[['a'], ['b']], [['a'], ['b'], ['c']]],
          [[['a']], [['b'], ['c']]]] [] []),
        aggregateSupport
          ((distInit 2 (agreeing [[[['a'], ['b']], [['a'], ['b'], ['c']]],
            [[['a']], [['b'], ['c']]]] [] [])).map
            (fun q => countLocalSupport q.local_transactions C))
          (countLocalSupport p.local_transactions C) = some G) ∧
      distLevelStep 2 (distInit 2 (agreeing [[[['a'], ['b']], [['a'], ['b'], ['c']]],
          [[['a']], [['b'], ['c']]]] [] [])) ≠ none :=
  cross_process_agreement 2 [[[['a'], ['b']], [['a'], ['b'], ['c']]], [[['a']], [['b'], ['c']]]]
    _ (List.cons_ne_nil _ _) Relation.ReflTransGen.refl

/-- C21 (idempotence).  For every transaction list `T` and threshold `s`: any
two returning runs of `SequentialApriori::runApriori` return the same map, of
which `printResults` prints the same text; two runs of
`ParallelApriori::runApriori` under any two legal executions give the same
result; and for processes holding any local transactions `bs` on fresh
`DistributedApriori` objects, a first `runDistributedApriori` returns, and a
second one on the objects it leaves returns with the member
`frequent_itemsets` of every process, and the text `printResults` prints from
it, equal to what the first run left. -/
theorem pipeline_idempotent (T : List (List Str)) (s : Int) :
    (∃ fuel r, runApriori fuel s T = some r) ∧
    (∀ f₁ f₂ r₁ r₂, runApriori f₁ s T = some r₁ → runApriori f₂ s T = some r₂ →
      r₁ = r₂ ∧ printResults r₁ = printResults r₂) ∧
    (∀ n sched1 schedC schedS n' sched1' schedC' schedS', SchedOK n sched1 →
      (∀ k, SchedOK n (schedC k)) → (∀ k, SchedOK n (schedS k)) → SchedOK n' sched1' →
      (∀ k, SchedOK n' (schedC' k)) → (∀ k, SchedOK n' (schedS' k)) →
      ∀ fuel, runAprioriP fuel s T n sched1 schedC schedS =
        runAprioriP fuel s T n' sched1' schedC' schedS') ∧
    ∀ bs : List (List (List Str)), bs ≠ [] →
      (∃ fuel ps₁, runDistributedApriori fuel s (agreeing bs [] []) = some ps₁) ∧
      ∀ fuel ps₁, runDistributedApriori fuel s (agreeing bs [] []) = some ps₁ →
        ∃ ps₂, runDistributedApriori fuel s ps₁ = some ps₂ ∧
          ps₂.map (fun p => p.frequent_itemsets) = ps₁.map (fun p => p.frequent_itemsets) ∧
          ps₂.map (fun p => printResults p.frequent_itemsets) =
            ps₁.map (fun p => printResults p.frequent_itemsets) := by
  refine ⟨⟨_, runApriori_terminates s T⟩, ?_, ?_, ?_⟩
  · intro f₁ f₂ r₁ r₂ h₁ h₂
    have := runApriori_fuel_unique s T h₁ h₂
    subst this
    exact ⟨rfl, rfl⟩
  · intro n sched1 schedC schedS n' sched1' schedC' schedS' h1 hC hS h1' hC' hS' fuel
    rw [runAprioriP_eq_seq T s n sched1 schedC schedS h1 hC hS,
      runAprioriP_eq_seq T s n' sched1' schedC' schedS' h1' hC' hS']
  · intro bs hbs
    refine ⟨distributed_returns s bs hbs [], ?_⟩
    intro fuel ps₁ h
    obtain ⟨fk₁, fk₂, r, rfl, h₂⟩ := distributed_twice s bs hbs fuel ps₁ h
    refine ⟨_, h₂, ?_, ?_⟩ <;> simp [agreeing, List.map_map]

/-- Instance of C21 on the worked example: the second distributed run on two
processes. -/
theorem pipeline_idempotent_witness :
    (∃ fuel ps₁, runDistributedApriori fuel 2
      (agreeing [[[['a'], ['b']], [['a'], ['b'], ['c']]], [[['a']], [['b'], ['c']]]] [] []) =
        some ps₁) ∧
    ∀ fuel ps₁, runDistributedApriori fuel 2
      (agreeing [[[['a'], ['b']], [['a'], ['b'], ['c']]], [[['a']], [['b'], ['c']]]] [] []) =
        some ps₁ →
      ∃ ps₂, runDistributedApriori fuel 2 ps₁ = some ps₂ ∧
        ps₂.map (fun p => p.frequent_itemsets) = ps₁.map (fun p => p.frequent_itemsets) ∧
        ps₂.map (fun p => printResults p.frequent_itemsets) =
          ps₁.map (fun p => printResults p.frequent_itemsets) :=
  (pipeline_idempotent [[['a'], ['b']], [['a'], ['b'], ['c']], [['a']], [['b'], ['c']]] 2).2.2.2
    [[[['a'], ['b']], [['a'], ['b'], ['c']]], [[['a']], [['b'], ['c']]]] (List.cons_ne_nil _ _)

/-- C23 (distributed load failure propagation).  When rank 0 ends its load
with zero transactions, every process of any rank makes exactly the calls
`MPI_Bcast` (receiving the total `0`), `MPI_Finalize` and `exit(1)`: none of
them sends or receives a count or a transaction, no process is given local
transactions, and `main` ends with status 1 without calling
`runDistributedApriori`. -/
theorem load_failure_propagates (text : Str) (P rank : Nat) (min_support mode : Int)
    (hload : (loadTransactions text).length = 0) :
    rankOps (loadTransactions text) P rank =
      [MpiOp.bcast 0, MpiOp.finalize, MpiOp.exitWith 1] ∧
    (∀ op ∈ rankOps (loadTransactions text) P rank, MpiOp.isTransfer op = false) ∧
    distribute (loadTransactions text) P = none ∧
    (mainDistributed min_support mode (some text)).1 = 1 ∧
    Call.runDistributedApriori ∉ (mainDistributed min_support mode (some text)).2 ∧
    Call.performanceTest ∉ (mainDistributed min_support mode (some text)).2 := by
  have e : rankOps (loadTransactions text) P rank =
      [MpiOp.bcast 0, MpiOp.finalize, MpiOp.exitWith 1] := by
    unfold rankOps
    simp [hload]
  refine ⟨e, ?_, ?_, ?_⟩
  · rw [e]
    intro op hop
    simp only [List.mem_cons, List.mem_singleton, List.not_mem_nil, or_false] at hop
    rcases hop with rfl | rfl | rfl <;> rfl
  · unfold distribute
    simp [hload]
  · unfold mainDistributed
    by_cases hs : min_support ≤ 0
    · simp [hs]
    · simp [hs, hload]

/-- Instance of C23: a file of two blank-only lines, rank 2 of 4 processes. -/
theorem load_failure_propagates_witness :
    rankOps (loadTransactions [' ', ',', '\n', '-', '1', '\n']) 4 2 =
      [MpiOp.bcast 0, MpiOp.finalize, MpiOp.exitWith 1] ∧
    (∀ op ∈ rankOps (loadTransactions [' ', ',', '\n', '-', '1', '\n']) 4 2,
      MpiOp.isTransfer op = false) ∧
    distribute (loadTransactions [' ', ',', '\n', '-', '1', '\n']) 4 = none ∧
    (mainDistributed 2 1 (some [' ', ',', '\n', '-', '1', '\n'])).1 = 1 ∧
    Call.runDistributedApriori ∉ (mainDistributed 2 1 (some [' ', ',', '\n', '-', '1', '\n'])).2 ∧
    Call.performanceTest ∉ (mainDistributed 2 1 (some [' ', ',', '\n', '-', '1', '\n'])).2 :=
  load_failure_propagates [' ', ',', '\n', '-', '1', '\n'] 4 2 2 1 (by decide)

end RunClaims

/-! ## Index safety of the join -/

section IndexSafety

variable {α : Type} [LinearOrder α]

theorem joinInto_returns {k : Nat} (hk : 1 ≤ k) {A B : List α} (hA : A.length = k)
    (hB : B.length = k) (C : StdMap (List α)) : ∃ C', joinInto A B C = some C' := by
  obtain ⟨b, hb⟩ := getLast?_isSome (B := B) (by omega)
  unfold joinInto
  rw [canJoin_eq (by omega) (by omega)]
  by_cases hj : A.take (A.length - 1) = B.take (A.length - 1)
  · simp only [hj, decide_True, pushCandidate, hb]
    exact ⟨_, rfl⟩
  · simp only [hj, decide_False]
    exact ⟨_, rfl⟩

theorem levelLoopCalls_isSome (s : Int) (T : List (List α)) (fuel : Nat) :
    ∀ fk all, (levelLoopCalls s T fuel fk).isSome = (levelLoop s T fuel fk all).isSome := by
  induction fuel with
  | zero => intro fk all; rfl
  | succ n ih =>
    intro fk all
    unfold levelLoopCalls levelLoop
    by_cases h1 : fk.isEmpty = true
    · simp [h1]
    · simp only [h1, Bool.false_eq_true, if_false]
      cases e : generateCandidates fk with
      | none => rfl
      | some C =>
        by_cases h2 : C.isEmpty = true
        · simp [h2]
        · simp only [h2, Bool.false_eq_true, if_false, Option.isSome_map']
          exact ih _ _

theorem levelLoopCalls_uniform (s : Int) (T : List (List α)) (fuel : Nat) :
    ∀ k fk calls, Shape T k fk → 1 ≤ k → levelLoopCalls s T fuel fk = some calls →
      ∀ c ∈ calls, ∃ j, 1 ≤ j ∧ ∀ A ∈ keys c, A.length = j := by
  induction fuel with
  | zero => intro k fk calls _ _ h; simp [levelLoopCalls] at h
  | succ n ih =>
    intro k fk calls hsh hk h
    obtain ⟨C, e, _, hC, _⟩ := shape_candidates hsh hk
    unfold levelLoopCalls at h
    by_cases h1 : fk.isEmpty = true
    · simp only [h1, if_true, Option.some.injEq] at h
      subst h
      intro c hc
      exact absurd hc (List.not_mem_nil c)
    · simp only [h1, Bool.false_eq_true, if_false, e] at h
      by_cases h2 : C.isEmpty = true
      · simp only [h2, if_true, Option.some.injEq] at h
        subst h
        intro c hc
        rw [List.mem_singleton] at hc
        subst hc
        exact ⟨k, hk, hsh.len⟩
      · simp only [h2, Bool.false_eq_true, if_false, Option.map_eq_some'] at h
        obtain ⟨cs, hcs, rfl⟩ := h
        intro c hc
        rcases List.mem_cons.1 hc with rfl | hc
        · exact ⟨k, hk, hsh.len⟩
        · exact ih (k + 1) _ cs (shape_filter_count s hC) (by omega) hcs c hc

/-- C31 (index safety of the join).  Whenever all keys of `frequent_k` have the
same size `k ≥ 1`: for all keys `A = itemsets[i]`, `B = itemsets[j]` every
index `m < k - 1` is within both, `B.back()` exists, the `can_join` loop and
the loop body run without an out-of-range access, and `generateCandidates`
returns a map.  And for every database `T` and threshold `s`: the run of
`runApriori` returns, and every map it passes to `generateCandidates` has keys
of one size `j ≥ 1`, so that each of these calls returns a map. -/
theorem join_index_safety (frequent_k : StdMap (List α)) (k : Nat) (s : Int)
    (T : List (List α)) (hk : 1 ≤ k) (hlen : ∀ A ∈ keys frequent_k, A.length = k) :
    (∀ A ∈ keys frequent_k, ∀ B ∈ keys frequent_k,
      (∀ m, m < k - 1 → (∃ x, A[m]? = some x) ∧ ∃ y, B[m]? = some y) ∧
      (∃ b, B.getLast? = some b) ∧
      (∃ r, canJoin A B = some r) ∧
      ∀ C, ∃ C', joinInto A B C = some C') ∧
    (∃ C, generateCandidates frequent_k = some C) ∧
    (∀ fuel, (levelLoopCalls s T fuel (generateFrequent1Itemsets s T)).isSome =
      (runApriori fuel s T).isSome) ∧
    (∃ fuel calls, levelLoopCalls s T fuel (generateFrequent1Itemsets s T) = some calls) ∧
    ∀ fuel calls, levelLoopCalls s T fuel (generateFrequent1Itemsets s T) = some calls →
      ∀ c ∈ calls, (∃ j, 1 ≤ j ∧ ∀ A ∈ keys c, A.length = j) ∧
        ∃ C, generateCandidates c = some C := by
  have gen : ∀ (F : StdMap (List α)) (j : Nat), 1 ≤ j → (∀ A ∈ keys F, A.length = j) →
      ∃ C, generateCandidates F = some C := by
    intro F j hj hF
    obtain ⟨C, e, _, _⟩ := outerLoop_spec (joinInto_bodySpec hj) (keys F) hF [] ZeroMap_nil
    exact ⟨C, e⟩
  have hsome : ∀ fuel, (levelLoopCalls s T fuel (generateFrequent1Itemsets s T)).isSome =
      (runApriori fuel s T).isSome := fun fuel => levelLoopCalls_isSome s T fuel _ _
  refine ⟨?_, gen frequent_k k hk hlen, hsome, ?_, ?_⟩
  · intro A hA B hB
    have lA := hlen A hA
    have lB := hlen B hB
    refine ⟨?_, getLast?_isSome (by omega), ⟨_, canJoin_eq (by omega) (by omega)⟩,
      fun C => joinInto_returns hk lA lB C⟩
    intro m hm
    exact ⟨⟨A[m], List.getElem?_eq_getElem (by omega)⟩,
      ⟨B[m], List.getElem?_eq_getElem (by omega)⟩⟩
  · obtain ⟨r, hr⟩ := runApriori_terminates s T
    have h := hsome (T.flatten.length + 1)
    rw [hr] at h
    cases e : levelLoopCalls s T (T.flatten.length + 1) (generateFrequent1Itemsets s T) with
    | none => rw [e] at h; simp at h
    | some calls => exact ⟨_, calls, e⟩
  · intro fuel calls h c hc
    obtain ⟨j, hj, hl⟩ :=
      levelLoopCalls_uniform s T fuel 1 _ calls (shape_level1 s T) (le_refl 1) h c hc
    exact ⟨⟨j, hj, hl⟩, gen c j hj hl⟩

/-- Instance of C31: the level `{[1,2], [1,3], [2,3]}` of size 2 and the run on
`T = [[1,2],[1,2,3],[1],[2,3]]` with `min_support = 2`. -/
theorem join_index_safety_witness :
    (∀ A ∈ keys ([([1, 2], 2), ([1, 3], 2), ([2, 3], 2)] : StdMap (List Nat)),
      ∀ B ∈ keys ([([1, 2], 2), ([1, 3], 2), ([2, 3], 2)] : StdMap (List Nat)),
      (∀ m, m < 2 - 1 → (∃ x, A[m]? = some x) ∧ ∃ y, B[m]? = some y) ∧
      (∃ b, B.getLast? = some b) ∧
      (∃ r, canJoin A B = some r) ∧
      ∀ C, ∃ C', joinInto A B C = some C') ∧
    (∃ C, generateCandidates ([([1, 2], 2), ([1, 3], 2), ([2, 3], 2)] : StdMap (List Nat)) =
      some C) ∧
    (∀ fuel, (levelLoopCalls 2 ([[1, 2], [1, 2, 3], [1], [2, 3]] : List (List Nat)) fuel
        (generateFrequent1Itemsets 2 [[1, 2], [1, 2, 3], [1], [2, 3]])).isSome =
      (runApriori fuel 2 ([[1, 2], [1, 2, 3], [1], [2, 3]] : List (List Nat))).isSome) ∧
    (∃ fuel calls, levelLoopCalls 2 ([[1, 2], [1, 2, 3], [1], [2, 3]] : List (List Nat)) fuel
        (generateFrequent1Itemsets 2 [[1, 2], [1, 2, 3], [1], [2, 3]]) = some calls) ∧
    ∀ fuel calls, levelLoopCalls 2 ([[1, 2], [1, 2, 3], [1], [2, 3]] : List (List Nat)) fuel
        (generateFrequent1Itemsets 2 [[1, 2], [1, 2, 3], [1], [2, 3]]) = some calls →
      ∀ c ∈ calls, (∃ j, 1 ≤ j ∧ ∀ A ∈ keys c, A.length = j) ∧
        ∃ C, generateCandidates c = some C :=
  join_index_safety [([1, 2], 2), ([1, 3], 2), ([2, 3], 2)] 2 2
    [[1, 2], [1, 2, 3], [1], [2, 3]] (by decide) (by decide)

end IndexSafety

/-! ## The distributed backend on loaded databases -/

section LoadedDatabases

theorem splitFields_no_comma (s : Str) :
    ∀ cur : Str, ',' ∉ cur → ∀ f ∈ splitFields cur s, ',' ∉ f := by
  induction s with
  | nil =>
    intro cur hcur f hf
    simp only [splitFields, List.mem_singleton] at hf
    rw [hf]
    exact hcur
  | cons c rest ih =>
    intro cur hcur f hf
    unfold splitFields at hf
    by_cases hc : c = ','
    · simp only [hc, if_true, List.mem_cons] at hf
      rcases hf with rfl | hf
      · exact hcur
      · exact ih [] (List.not_mem_nil _) f hf
    · simp only [hc, if_false] at hf
      refine ih (cur ++ [c]) ?_ f hf
      intro h
      rcases List.mem_append.1 h with h | h
      · exact hcur h
      · exact hc (List.mem_singleton.1 h).symm

theorem mem_trimItem {c : Char} {item : Str} (h : c ∈ trimItem item) : c ∈ item := by
  unfold trimItem at h
  exact (List.dropWhile_suffix isBlank).subset
    ((List.rdropWhile_prefix isBlank (item.dropWhile isBlank)).subset h)

theorem keptFields_items (line : Str) : ∀ x ∈ keptFields line, x ≠ [] ∧ ',' ∉ x := by
  intro x hx
  unfold keptFields at hx
  obtain ⟨hmem, hkeep⟩ := List.mem_filter.1 hx
  obtain ⟨f, hf, rfl⟩ := List.mem_map.1 hmem
  constructor
  · intro h
    simp [h] at hkeep
  · intro h
    exact splitFields_no_comma line [] (List.not_mem_nil _) f hf (mem_trimItem h)

/-- The items a loader stores are non-empty and contain no comma. -/
theorem loadTransactions_items (text : Str) :
    ∀ t ∈ loadTransactions text, ∀ x ∈ t, x ≠ [] ∧ ',' ∉ x := by
  intro t ht x hx
  obtain ⟨line, _, hline⟩ := (mem_loadTransactions text t).1 ht
  obtain ⟨_, _, _, _, hperm⟩ := parseLine_some hline
  exact keptFields_items line x (hperm.subset hx)

/-- C1 (distributed backend).  For every database `T` a loader run stores (the
content `text` of any data file), every threshold `s` and every process count
`P ≥ 1`: the distributed level loop run over the `P` contiguous blocks of `T`
(`generateLocalC1` and `aggregateC1` for level 1, then per level
`generateCandidates`, `countLocalSupport` on each block, `aggregateSupport`,
`filterBySupport`) returns exactly when `SequentialApriori::runApriori` does on
`T` and `s`, and then every process has accumulated in `frequent_itemsets`
exactly the map the sequential run returns; and the sequential run returns. -/
theorem distributed_refines_sequential (text : Str) (T : List (List Str)) (s : Int) (P : Nat)
    (hT : loadTransactions text = T) (hP : 1 ≤ P) :
    (∃ fuel r, runApriori fuel s T = some r) ∧
    (∀ fuel r, runApriori fuel s T = some r →
      ∃ ps, runDistributedApriori fuel s (initProcs T P) = some ps ∧ ps.length = P ∧
        ∀ p ∈ ps, p.frequent_itemsets = r) ∧
    (∀ fuel ps, runDistributedApriori fuel s (initProcs T P) = some ps →
      ∃ r, runApriori fuel s T = some r ∧ ps.length = P ∧
        ∀ p ∈ ps, p.frequent_itemsets = r) := by
  subst hT
  exact runDistributedApriori_eq (loadTransactions text) s P hP (loadTransactions_items text)

/-- Instance of C1: the file of the worked example, `min_support = 2`, three
processes. -/
theorem distributed_refines_sequential_witness :
    (∃ fuel r, runApriori fuel 2 ([[['a'], ['b']], [['a'], ['b'], ['c']], [['a']],
        [['b'], ['c']]] : List (List Str)) = some r) ∧
    (∀ fuel r, runApriori fuel 2 ([[['a'], ['b']], [['a'], ['b'], ['c']], [['a']],
        [['b'], ['c']]] : List (List Str)) = some r →
      ∃ ps, runDistributedApriori fuel 2 (initProcs [[['a'], ['b']], [['a'], ['b'], ['c']],
          [['a']], [['b'], ['c']]] 3) = some ps ∧ ps.length = 3 ∧
        ∀ p ∈ ps, p.frequent_itemsets = r) ∧
    (∀ fuel ps, runDistributedApriori fuel 2 (initProcs [[['a'], ['b']],
        [['a'], ['b'], ['c']], [['a']], [['b'], ['c']]] 3) = some ps →
      ∃ r, runApriori fuel 2 ([[['a'], ['b']], [['a'], ['b'], ['c']], [['a']],
          [['b'], ['c']]] : List (List Str)) = some r ∧ ps.length = 3 ∧
        ∀ p ∈ ps, p.frequent_itemsets = r) :=
  distributed_refines_sequential
    ['a', ',', 'b', '\n', 'a', ',', 'b', ',', 'c', '\n', 'a', '\n', 'b', ',', 'c', '\n']
    [[['a'], ['b']], [['a'], ['b'], ['c']], [['a']], [['b'], ['c']]] 2 3 (by decide) (by decide)

end LoadedDatabases

end Apriori
